import Mathlib

/-! Future event set and schedulers of the simulation kernel

A shallow embedding of `cMessageHeap` (declared in `include/cmsgheap.h`),
`cEvent` (`src/sim/cevent.cc`) and the two schedulers of
`src/sim/cscheduler.cc`, followed by the queue selection of
`samples/queuenet/lib/SelectionStrategies.cc`, the child lists of
`src/sim/cxmlelement.cc` and the vector header of
`src/scave/octaveexport.cc`.

Event objects live in a store indexed by their address (`EventId`); the heap
array `h` holds addresses, exactly like the `cMessage **h` of the header.
Slot `0` of `h` is never used, the contained events are in slots `1..n`.
-/

set_option autoImplicit false

namespace Omnetpp

/-! ## Definitions -/

/-- Address of an event object: identity of events is reference identity. -/
abbrev EventId := Nat

/-- Scheduling key `(deliveryTime, priority, insertionSequence)`, ordered
lexicographically. -/
abbrev Key := ℚ ×ₗ (ℤ ×ₗ ℕ)

/-- The fields of `cEvent` that the future event set and the schedulers use
(`cevent.cc`: `prior`, `delivd`, `heapindex`, `insertordr`), and the answer of
`isStale()`. -/
structure cEvent where
  /-- Delivery (arrival) time, in seconds of simulation time. -/
  delivd : ℚ
  /-- Scheduling priority, smaller is earlier. -/
  prior : ℤ
  /-- Value of the heap's insertion counter when the event was inserted. -/
  insertordr : ℕ
  /-- Slot of the event in the heap array, `-1` when it is in no heap. -/
  heapindex : ℤ
  /-- What `isStale()` answers for the event. -/
  stale : Bool
deriving DecidableEq

/-- The scheduling key of an event object. -/
def cEvent.key (c : cEvent) : Key := toLex (c.delivd, toLex (c.prior, c.insertordr))

/-- The primary and secondary key `(deliveryTime, priority)` of an event object. -/
def cEvent.timePrio (c : cEvent) : ℚ ×ₗ ℤ := toLex (c.delivd, c.prior)

/-- Number of values of an `unsigned long` (LP64), the type of `insertcntr`
(`cmsgheap.h`, line 82). -/
def ULONG_RANGE : ℕ := 2 ^ 64

/-- State of a `cMessageHeap` (`cmsgheap.h`, lines 78-82) together with the
event objects its pointers refer to. -/
structure cMessageHeap where
  /-- The event objects, by address. -/
  ev : EventId → cEvent
  /-- The heap array; `h 0` is never used. -/
  h : ℕ → EventId
  /-- Number of elements in the heap. -/
  n : ℕ
  /-- Size of the allocated array. -/
  size : ℕ
  /-- Counts insertions; an `unsigned long`. -/
  insertcntr : ℕ

/-- Errors the heap operations raise. -/
inductive HeapError where
  /-- The event given to `insert` is already contained in a future event set. -/
  | alreadyScheduled
deriving DecidableEq

/-- Constructor `cMessageHeap(name, size=128)`: an empty heap over the given
event objects. -/
def emptyHeap (ev : EventId → cEvent) : cMessageHeap :=
  { ev := ev, h := fun _ => 0, n := 0, size := 128, insertcntr := 0 }

/-- Writes the `heapindex` field of the event object at address `e`. -/
def setHeapindex (ev : EventId → cEvent) (e : EventId) (i : ℤ) : EventId → cEvent :=
  Function.update ev e { ev e with heapindex := i }

/-- Key of the event in slot `i`. -/
def cMessageHeap.keyAt (q : cMessageHeap) (i : ℕ) : Key := (q.ev (q.h i)).key

/-- Modelled from the spec: the bodies of the heap operations (`cmsgheap.cc`)
are not among the sources. Exchanges the events of slots `i` and `j`,
"updating both elements' heapPosition on every swap". -/
def swap (q : cMessageHeap) (i j : ℕ) : cMessageHeap :=
  { q with
    h := Function.update (Function.update q.h i (q.h j)) j (q.h i)
    ev := setHeapindex (setHeapindex q.ev (q.h j) i) (q.h i) j }

/-- Modelled from the spec: the body of `insert` is not among the sources.
"Sifts the new element up toward the root, swapping with its parent while the
parent's key is greater." The first argument bounds the number of levels. -/
def siftUp : ℕ → cMessageHeap → ℕ → cMessageHeap
  | 0, q, _ => q
  | fuel + 1, q, i =>
    if i ≤ 1 then q
    else if q.keyAt i < q.keyAt (i / 2) then siftUp fuel (swap q (i / 2) i) (i / 2)
    else q

/-- The child of slot `i` with the smaller key (the left one when only it
exists or when the keys are equal); used only when `2 * i ≤ n`. -/
def smallerChild (q : cMessageHeap) (i : ℕ) : ℕ :=
  if 2 * i < q.n ∧ q.keyAt (2 * i + 1) < q.keyAt (2 * i) then 2 * i + 1 else 2 * i

/-- Modelled from the spec: the body of `shiftup(from)` is not among the
sources. Sifts the element of slot `i` down, "at each level choosing the
smaller of the two children to compare against, swapping while a child's key
is smaller than the current node's, terminating when no child is smaller or no
children remain". The first argument bounds the number of levels. -/
def shiftup : ℕ → cMessageHeap → ℕ → cMessageHeap
  | 0, q, _ => q
  | fuel + 1, q, i =>
    if q.n < 2 * i then q
    else if q.keyAt (smallerChild q i) < q.keyAt i then
      shiftup fuel (swap q i (smallerChild q i)) (smallerChild q i)
    else q

/-- First half of `insert`: "appends to the end of the backing array, assigns
the next insertionSequence"; the array is doubled when full. The counter is an
`unsigned long`, so it wraps around at `ULONG_RANGE`. -/
def appendLast (q : cMessageHeap) (e : EventId) : cMessageHeap :=
  { ev := Function.update q.ev e
      { q.ev e with insertordr := q.insertcntr, heapindex := ((q.n + 1 : ℕ) : ℤ) }
    h := Function.update q.h (q.n + 1) e
    n := q.n + 1
    size := if q.size < q.n + 1 then 2 * q.size else q.size
    insertcntr := (q.insertcntr + 1) % ULONG_RANGE }

/-- Modelled from the spec: the body of `insert` is not among the sources.
`insert(event)`: "requires the event is not currently contained in any FES
(violation is an error)"; "appends to the end of the backing array, assigns
the next insertionSequence, then sifts the new element up". -/
def insert (q : cMessageHeap) (e : EventId) : Except HeapError cMessageHeap :=
  if (q.ev e).heapindex ≠ -1 then .error .alreadyScheduled
  else .ok (siftUp (q.n + 1) (appendLast q e) (q.n + 1))

/-- Function `peekFirst()`: the first event of the heap, `none` (NULL) if the
heap is empty. -/
def peekFirst (q : cMessageHeap) : Option EventId :=
  if q.n = 0 then none else some (q.h 1)

/-- Removes the event of slot `i` (with `1 ≤ i ≤ n`): "swap it with the last
element, shrink", clear its `heapindex`. -/
def unlink (q : cMessageHeap) (i : ℕ) : cMessageHeap :=
  { swap q i q.n with n := q.n - 1, ev := setHeapindex (swap q i q.n).ev (q.h i) (-1) }

/-- Modelled from the spec: the body of `getFirst` / `removeFirst` is not
among the sources. "Returns and removes the minimum-key event, or none if
empty: swap root with the last element, shrink logical size by one, then sift
the (new) root down." -/
def removeFirst (q : cMessageHeap) : Option EventId × cMessageHeap :=
  if q.n = 0 then (none, q)
  else (some (q.h 1), shiftup (unlink q 1).n (unlink q 1) 1)

/-- Removes the event of slot `i` (with `1 ≤ i ≤ n`) and restores the heap
order "locally by sifting the relocated element both up and down". When the
event was the last element, no element is relocated and nothing is sifted. -/
def removeAt (q : cMessageHeap) (i : ℕ) : cMessageHeap :=
  if (unlink q i).n < i then unlink q i
  else shiftup (siftUp i (unlink q i) i).n (siftUp i (unlink q i) i) i

/-- Modelled from the spec: the body of `get` is not among the sources.
`get(event)`: "locate via heapPosition, swap it with the last element, shrink,
then restore H1 locally by sifting the relocated element both up and down";
"returns not found if the event's heapPosition is the sentinel or stale". -/
def get (q : cMessageHeap) (e : EventId) : Option EventId × cMessageHeap :=
  if (q.ev e).heapindex = -1 ∨
      ¬ (1 ≤ (q.ev e).heapindex.toNat ∧ (q.ev e).heapindex.toNat ≤ q.n ∧
          q.h (q.ev e).heapindex.toNat = e) then (none, q)
  else (some e, removeAt q (q.ev e).heapindex.toNat)

/-- Function `length()`. -/
def length (q : cMessageHeap) : ℕ := q.n

/-- Function `empty()`. -/
def empty (q : cMessageHeap) : Bool := q.n == 0

/-- Inserts the events of a list one after the other. -/
def insertAll : cMessageHeap → List EventId → Except HeapError cMessageHeap
  | q, [] => .ok q
  | q, e :: es =>
    match insert q e with
    | .error err => .error err
    | .ok q1 => insertAll q1 es

/-- Calls `removeFirst` until it returns NULL, at most `fuel` times, and
collects the events returned. -/
def drainLoop : ℕ → cMessageHeap → List EventId
  | 0, _ => []
  | fuel + 1, q =>
    match removeFirst q with
    | (none, _) => []
    | (some e, q1) => e :: drainLoop fuel q1

/-- Calls `removeFirst` until it returns NULL: a heap of `n` events returns
NULL at the call `n + 1` at the latest. -/
def drain (q : cMessageHeap) : List EventId := drainLoop (q.n + 1) q

/-- Invariant H1 (heap order): the key of every non-root slot is at least the
key of its parent slot `i / 2`. -/
def H1 (q : cMessageHeap) : Prop :=
  ∀ i, 2 ≤ i → i ≤ q.n → q.keyAt (i / 2) ≤ q.keyAt i

/-- Invariant H2 (position consistency): the event of slot `i` records `i` as
its `heapindex`. -/
def H2 (q : cMessageHeap) : Prop :=
  ∀ i, 1 ≤ i → i ≤ q.n → (q.ev (q.h i)).heapindex = (i : ℤ)

/-- The event `e` is in one of the slots `1..n`. -/
def Contained (q : cMessageHeap) (e : EventId) : Prop :=
  ∃ i, 1 ≤ i ∧ i ≤ q.n ∧ q.h i = e

/-- The event objects of `q1` differ from those of `q` in `heapindex` only. -/
def Frame (q q1 : cMessageHeap) : Prop :=
  ∀ x, ∃ i : ℤ, q1.ev x = { q.ev x with heapindex := i }

/-- The state `q1` results from `q` by exchanging slots within `1..n`. -/
inductive Rearr : cMessageHeap → cMessageHeap → Prop where
  | refl (q : cMessageHeap) : Rearr q q
  | step (q q1 : cMessageHeap) (i j : ℕ) :
      1 ≤ i → i ≤ q.n → 1 ≤ j → j ≤ q.n → Rearr (swap q i j) q1 → Rearr q q1

/-- The heap order holds except between slot `i` and its parent. -/
def UpInv (q : cMessageHeap) (i : ℕ) : Prop :=
  (∀ j, 2 ≤ j → j ≤ q.n → j ≠ i → q.keyAt (j / 2) ≤ q.keyAt j) ∧
  (∀ c, 2 ≤ i → c ≤ q.n → c / 2 = i → q.keyAt (i / 2) ≤ q.keyAt c)

/-- The heap order holds except between slot `i` and its children. -/
def DownInv (q : cMessageHeap) (i : ℕ) : Prop :=
  (∀ j, 2 ≤ j → j ≤ q.n → j / 2 ≠ i → q.keyAt (j / 2) ≤ q.keyAt j) ∧
  (∀ c, 2 ≤ i → c ≤ q.n → c / 2 = i → q.keyAt (i / 2) ≤ q.keyAt c)

/-- The invariants H1 and H2 together. -/
def Inv (q : cMessageHeap) : Prop := H1 q ∧ H2 q

/-- What removing the event `e` from `q` has to leave behind. -/
structure Removed (q : cMessageHeap) (e : EventId) (r : cMessageHeap) : Prop where
  inv : Inv r
  n_eq : r.n + 1 = q.n
  contained : ∀ x, Contained r x ↔ Contained q x ∧ x ≠ e
  frame : Frame q r
  cleared : (r.ev e).heapindex = -1
  untouched : ∀ x, ¬ Contained q x → r.ev x = q.ev x
  cntr : r.insertcntr = q.insertcntr

/-- What inserting the event `e` into `q` has to produce. -/
structure Inserted (q : cMessageHeap) (e : EventId) (r : cMessageHeap) : Prop where
  inv : Inv r
  n_eq : r.n = q.n + 1
  contained : ∀ x, Contained r x ↔ Contained q x ∨ x = e
  frame : ∀ x, x ≠ e → ∃ i : ℤ, r.ev x = { q.ev x with heapindex := i }
  stamped : ∃ i : ℤ, r.ev e = { q.ev e with insertordr := q.insertcntr, heapindex := i }
  untouched : ∀ x, ¬ Contained q x → x ≠ e → r.ev x = q.ev x
  cntr : r.insertcntr = (q.insertcntr + 1) % ULONG_RANGE

/-- The state after `k` calls of `removeFirst`. -/
def popN : ℕ → cMessageHeap → cMessageHeap
  | 0, q => q
  | k + 1, q => popN k (removeFirst q).2

/-- What the list `l` of events returned by draining `q` has to satisfy. -/
structure Drained (q : cMessageHeap) (l : List EventId) : Prop where
  length_eq : l.length = q.n
  mem : ∀ x, x ∈ l ↔ Contained q x
  nodup : l.Nodup
  sorted : l.Pairwise (fun a b => (q.ev a).key ≤ (q.ev b).key)

/-- What inserting the events `es` into `q` has to produce. -/
structure InsertedAll (q : cMessageHeap) (es : List EventId) (r : cMessageHeap) : Prop where
  inv : Inv r
  n_eq : r.n = q.n + es.length
  contained : ∀ x, Contained r x ↔ Contained q x ∨ x ∈ es
  timePrio : ∀ x, (r.ev x).timePrio = (q.ev x).timePrio
  stale : ∀ x, (r.ev x).stale = (q.ev x).stale
  untouched : ∀ x, ¬ Contained q x → x ∉ es → r.ev x = q.ev x

/-- Events used in the concrete instances: event `e` is due at time `7 - e`
with priority `0`, not stale, in no heap. -/
def sampleEvents : EventId → cEvent := fun e =>
  { delivd := ((7 : ℤ) - (e : ℤ) : ℤ), prior := 0, insertordr := 0, heapindex := -1, stale := false }

instance (q : cMessageHeap) (e : EventId) : Decidable (Contained q e) :=
  decidable_of_iff (∃ i, i < q.n + 1 ∧ (1 ≤ i ∧ q.h i = e))
    ⟨fun ⟨i, a, b, c⟩ => ⟨i, b, Nat.lt_succ_iff.1 a, c⟩,
     fun ⟨i, a, b, c⟩ => ⟨i, Nat.lt_succ_iff.2 b, a, c⟩⟩

/-- The state after the call `insert(e)`; the state is unchanged when the call
raises an error. -/
def afterInsert (q : cMessageHeap) (e : EventId) : cMessageHeap :=
  match insert q e with
  | .ok r => r
  | .error _ => q

/-- A call on the heap, or a change of an event that is in no heap by its
owner. -/
inductive Call where
  | insert (e : EventId)
  | removeFirst
  | get (e : EventId)
  /-- The owner of the event `e` rewrites its fields while it is in no heap. -/
  | modify (e : EventId) (c : cEvent)

/-- The owner of the event `e` overwrites its fields with those of `c`; only
an event that is in no heap may be changed, and `heapindex` stays `-1`. -/
def modify (q : cMessageHeap) (e : EventId) (c : cEvent) : cMessageHeap :=
  if (q.ev e).heapindex = -1 then
    { q with ev := Function.update q.ev e { c with heapindex := -1 } }
  else q

/-- The state after one call. -/
def call (q : cMessageHeap) : Call → cMessageHeap
  | .insert e => afterInsert q e
  | .removeFirst => (removeFirst q).2
  | .get e => (get q e).2
  | .modify e c => modify q e c

/-- The state after a sequence of calls. -/
def run (q : cMessageHeap) (cs : List Call) : cMessageHeap := cs.foldl call q

/-- A heap state reachable from the empty heap: the events are constructed
with `heapindex = -1` (`cevent.cc`, lines 37 and 47), then calls follow. -/
def Reachable (q : cMessageHeap) : Prop :=
  ∃ (ev : EventId → cEvent) (cs : List Call),
    (∀ e, (ev e).heapindex = -1) ∧ run (emptyHeap ev) cs = q

/-- Every event that is in no slot has the sentinel `-1` as `heapindex`. -/
def Sentinel (q : cMessageHeap) : Prop :=
  ∀ e, ¬ Contained q e → (q.ev e).heapindex = -1

/-- A reachable heap used in the concrete instances: the events 1..5 are
inserted, the first is removed and event 2 is cancelled. -/
def sampleHeap : cMessageHeap :=
  run (emptyHeap sampleEvents)
    [.insert 1, .insert 2, .insert 3, .insert 4, .insert 5, .removeFirst, .get 2]

/-- The event `a` is contained in the heap before, between and after the
calls `cs`: none of them removes it. -/
def Keeps : cMessageHeap → List Call → EventId → Prop
  | q, [], a => Contained q a
  | q, c :: cs, a => Contained q a ∧ Keeps (call q c) cs a

instance Keeps.decidable : ∀ (cs : List Call) (q : cMessageHeap) (a : EventId),
    Decidable (Keeps q cs a)
  | [], q, a => inferInstanceAs (Decidable (Contained q a))
  | c :: cs, q, a =>
    @instDecidableAnd _ _ (inferInstanceAs (Decidable (Contained q a)))
      (Keeps.decidable cs (call q c) a)

/-- Number of `insert` calls in a sequence of calls. -/
def inserts : List Call → ℕ
  | [] => 0
  | .insert _ :: cs => inserts cs + 1
  | _ :: cs => inserts cs

/-- Events that all tie: every event is due at time 1 with priority 0, not
stale, in no heap. -/
def tiedEvents : EventId → cEvent := fun _ =>
  { delivd := 1, prior := 0, insertordr := 0, heapindex := -1, stale := false }

/-- Tied events 1 and 3 in the heap. -/
def tieHeap2 : cMessageHeap := run (afterInsert (emptyHeap tiedEvents) 1) [.insert 3]

/-- Tied events 1, 3 and 2 were inserted, then 4 was inserted and 3 cancelled. -/
def tieHeap4 : cMessageHeap := run (afterInsert tieHeap2 2) [.insert 4, .get 3]

/-- Calls `get(e)` for the events of a list, one after the other, and collects
what the calls return. -/
def getAll : cMessageHeap → List EventId → List (Option EventId) × cMessageHeap
  | q, [] => ([], q)
  | q, e :: es => ((get q e).1 :: (getAll (get q e).2 es).1, (getAll (get q e).2 es).2)

/-- A `struct timeval`: seconds and microseconds. -/
structure timeval where
  tv_sec : ℤ
  tv_usec : ℤ
deriving DecidableEq

/-- The instant of a `timeval`, in microseconds. -/
def timeval.toUsec (t : timeval) : ℤ := t.tv_sec * 1000000 + t.tv_usec

/-- The `timeval` of an instant given in microseconds, with
`0 ≤ tv_usec < 1000000`. -/
def timeval.ofUsec (u : ℤ) : timeval := ⟨u / 1000000, u % 1000000⟩

/-- Modelled from the spec: `platmisc.h` is not among the sources. Whether the
instant `a` "is in the future relative to" `b`. -/
def timeval_greater (a b : timeval) : Bool := decide (b.toUsec < a.toUsec)

/-- Modelled from the spec: `platmisc.h` is not among the sources. The time
from `t1` to `t2` in microseconds. -/
def timeval_diff_usec (t2 t1 : timeval) : ℤ :=
  (t2.tv_sec - t1.tv_sec) * 1000000 + (t2.tv_usec - t1.tv_usec)

/-- Modelled from the spec: `platmisc.h` is not among the sources. The instant
`b` seconds after `a` ("baseWallTime + scale * event.deliveryTime"), in exact
arithmetic, rounded down to whole microseconds. -/
def timeval_add (a : timeval) (b : ℚ) : timeval :=
  timeval.ofUsec (a.toUsec + ⌊b * 1000000⌋)

/-- Modelled from the spec: `platmisc.h` is not among the sources. The instant
`b` seconds before `a` ("now minus (scaled) current simulated time"). -/
def timeval_substract (a : timeval) (b : ℚ) : timeval :=
  timeval.ofUsec (a.toUsec - ⌊b * 1000000⌋)

/-- The state of a run: the simulation object with its future event set, the
members of the scheduler, and the environment (wall clock, log of sleeps and
of `ev.idle()` polls, events destroyed with `delete`). -/
structure RunState where
  /-- Member `sim->msgQueue`, the future event set. -/
  msgQueue : cMessageHeap
  /-- Value of `sim->getSimTime()`. -/
  simTime : ℚ
  /-- Events destroyed with `delete`, latest first. -/
  deleted : List EventId
  /-- Member `doScaling` of `cRealTimeScheduler`. -/
  doScaling : Bool
  /-- Member `factor` of `cRealTimeScheduler`. -/
  factor : ℚ
  /-- Member `baseTime` of `cRealTimeScheduler`. -/
  baseTime : timeval
  /-- The wall clock at the latest call of the environment, in microseconds. -/
  clock : ℤ
  /-- Number of calls of the environment so far. -/
  calls : ℕ
  /-- Arguments of the `usleep` calls so far, latest first. -/
  slept : List ℤ
  /-- Number of `ev.idle()` polls so far. -/
  idleCalls : ℕ

/-- What the environment does, fixed in advance: the wall-clock time that
passes during each call of the environment on top of what the call asks for
(the clock is monotone, `usleep(u)` takes at least `u` microseconds), and the
answer and the effect on the future event set of each `ev.idle()` poll. -/
structure World where
  /-- Microseconds passing during the `k`-th call of the environment. -/
  elapse : ℕ → ℕ
  /-- Answer of the `k`-th poll of `ev.idle()` and what it leaves of the
  future event set. -/
  idle : ℕ → cMessageHeap → Bool × cMessageHeap

/-- Function `gettimeofday(&t, NULL)`. -/
def gettimeofday (w : World) (s : RunState) : timeval × RunState :=
  (timeval.ofUsec (s.clock + w.elapse s.calls),
    { s with clock := s.clock + w.elapse s.calls, calls := s.calls + 1 })

/-- Function `usleep(u)`. -/
def usleep (w : World) (u : ℤ) (s : RunState) : RunState :=
  { s with clock := s.clock + u + w.elapse s.calls, calls := s.calls + 1, slept := u :: s.slept }

/-- A poll of `ev.idle()`. -/
def idle (w : World) (s : RunState) : Bool × RunState :=
  ((w.idle s.idleCalls s.msgQueue).1,
    { s with
      msgQueue := (w.idle s.idleCalls s.msgQueue).2
      clock := s.clock + w.elapse s.calls
      calls := s.calls + 1
      idleCalls := s.idleCalls + 1 })

/-- How a call of `takeNextEvent` ends. -/
inductive TakeResult where
  /-- The call returns the event. -/
  | event (e : EventId)
  /-- The call returns NULL. -/
  | null
  /-- The call throws `cTerminationException(eENDEDOK)`. -/
  | endedOk
  /-- The check `ASSERT(tmp==event)` fails. -/
  | assertFailed
  /-- The bound on the number of iterations of the model was reached. -/
  | outOfFuel
deriving DecidableEq

/-- The loop of `cSequentialScheduler::takeNextEvent` (`cscheduler.cc`, lines
69-78); the first argument bounds the number of iterations. -/
def cSequentialScheduler.loop : ℕ → RunState → TakeResult × RunState
  | 0, s => (.outOfFuel, s)
  | fuel + 1, s =>
    match (removeFirst s.msgQueue).1 with
    | none => (.endedOk, { s with msgQueue := (removeFirst s.msgQueue).2 })
    | some event =>
      if ((removeFirst s.msgQueue).2.ev event).stale then
        cSequentialScheduler.loop fuel
          { s with msgQueue := (removeFirst s.msgQueue).2, deleted := event :: s.deleted }
      else (.event event, { s with msgQueue := (removeFirst s.msgQueue).2 })

/-- Function `cSequentialScheduler::takeNextEvent()`: every iteration but the
last removes an event, so `n + 1` iterations are enough. -/
def cSequentialScheduler.takeNextEvent (s : RunState) : TakeResult × RunState :=
  cSequentialScheduler.loop (s.msgQueue.n + 1) s

/-- Function `cSequentialScheduler::guessNextEvent()`: what it returns and
the run state it leaves. -/
def cSequentialScheduler.guessNextEvent (s : RunState) : Option EventId × RunState :=
  (peekFirst s.msgQueue, s)

/-- Function `cRealTimeScheduler::startRun()`; `scaling` is the configured
value of `realtimescheduler-scaling`. -/
def cRealTimeScheduler.startRun (w : World) (scaling : ℚ) (s : RunState) : RunState :=
  { (gettimeofday w s).2 with
    factor := if scaling ≠ 0 then 1 / scaling else scaling
    doScaling := decide ((if scaling ≠ 0 then 1 / scaling else scaling) ≠ 0)
    baseTime := (gettimeofday w s).1 }

/-- Function `cRealTimeScheduler::executionResumed()`. -/
def cRealTimeScheduler.executionResumed (w : World) (s : RunState) : RunState :=
  { (gettimeofday w s).2 with
    baseTime := timeval_substract (gettimeofday w s).1
      (if s.doScaling then s.factor * s.simTime else s.simTime) }

/-- The loop and the tail of `cRealTimeScheduler::waitUntil` (`cscheduler.cc`,
lines 115-128); `none` when the bound `fuel` on the number of iterations is
reached. -/
def cRealTimeScheduler.waitLoop (w : World) :
    ℕ → timeval → timeval → RunState → Option Bool × RunState
  | 0, _, _, s => (none, s)
  | fuel + 1, targetTime, curTime, s =>
    if targetTime.tv_sec - curTime.tv_sec ≥ 2 ∨
        timeval_diff_usec targetTime curTime ≥ 200000 then
      if (idle w (usleep w 100000 s)).1 then (some false, (idle w (usleep w 100000 s)).2)
      else
        cRealTimeScheduler.waitLoop w fuel targetTime
          (gettimeofday w (idle w (usleep w 100000 s)).2).1
          (gettimeofday w (idle w (usleep w 100000 s)).2).2
    else
      (some true,
        if timeval_diff_usec targetTime curTime > 0 then
          usleep w (timeval_diff_usec targetTime curTime) s
        else s)

/-- Number of iterations that `waitUntil` needs at most: the loop goes on only
while the clock is below the target minus 200 ms or at least two seconds
behind the target's `tv_sec`, and every iteration sleeps 100 ms. -/
def cRealTimeScheduler.waitFuel (targetTime curTime : timeval) : ℕ :=
  ((max (targetTime.toUsec - 199999) ((targetTime.tv_sec - 1) * 1000000)
      - curTime.toUsec) / 100000 + 1).toNat + 1

/-- Function `cRealTimeScheduler::waitUntil(targetTime)`. -/
def cRealTimeScheduler.waitUntil (w : World) (targetTime : timeval) (s : RunState) :
    Option Bool × RunState :=
  cRealTimeScheduler.waitLoop w
    (cRealTimeScheduler.waitFuel targetTime (gettimeofday w s).1)
    targetTime (gettimeofday w s).1 (gettimeofday w s).2

/-- Function `cRealTimeScheduler::guessNextEvent()`: what it returns and the
run state it leaves. -/
def cRealTimeScheduler.guessNextEvent (s : RunState) : Option EventId × RunState :=
  (peekFirst s.msgQueue, s)

/-- The target time that `takeNextEvent` computes for `event` (`cscheduler.cc`,
lines 143-144), with `SIMTIME_DBL` and the product taken in exact arithmetic. -/
def cRealTimeScheduler.targetTime (s : RunState) (event : EventId) : timeval :=
  timeval_add s.baseTime
    (if s.doScaling then s.factor * (s.msgQueue.ev event).delivd
     else (s.msgQueue.ev event).delivd)

/-- End of `cRealTimeScheduler::takeNextEvent` (`cscheduler.cc`, lines
160-163): "remove event from FES and return it". -/
def cRealTimeScheduler.removeAndReturn (event : EventId) (s : RunState) :
    TakeResult × RunState :=
  if (removeFirst s.msgQueue).1 = some event then
    (.event event, { s with msgQueue := (removeFirst s.msgQueue).2 })
  else (.assertFailed, { s with msgQueue := (removeFirst s.msgQueue).2 })

/-- Function `cRealTimeScheduler::takeNextEvent()`. -/
def cRealTimeScheduler.takeNextEvent (w : World) (s : RunState) : TakeResult × RunState :=
  match peekFirst s.msgQueue with
  | none => (.endedOk, s)
  | some event =>
    if timeval_greater (cRealTimeScheduler.targetTime s event) (gettimeofday w s).1 then
      match (cRealTimeScheduler.waitUntil w (cRealTimeScheduler.targetTime s event)
          (gettimeofday w s).2).1 with
      | some true =>
        cRealTimeScheduler.removeAndReturn event
          (cRealTimeScheduler.waitUntil w (cRealTimeScheduler.targetTime s event)
            (gettimeofday w s).2).2
      | some false =>
        (.null, (cRealTimeScheduler.waitUntil w (cRealTimeScheduler.targetTime s event)
          (gettimeofday w s).2).2)
      | none =>
        (.outOfFuel, (cRealTimeScheduler.waitUntil w (cRealTimeScheduler.targetTime s event)
          (gettimeofday w s).2).2)
    else cRealTimeScheduler.removeAndReturn event (gettimeofday w s).2

/-- A run state around a future event set: simulation time 0, no scaling, base
time 0, clock at 0. -/
def runStateOf (q : cMessageHeap) : RunState :=
  { msgQueue := q, simTime := 0, deleted := [], doScaling := false, factor := 0,
    baseTime := ⟨0, 0⟩, clock := 0, calls := 0, slept := [], idleCalls := 0 }

/-- A world in which every call takes 5 microseconds on top of what it asks
for and `ev.idle()` never asks to stop and leaves the future event set alone. -/
def quietWorld : World := { elapse := fun _ => 5, idle := fun _ q => (false, q) }

/-- Events of which the first ones are stale: event `e` is due at time `e`
with priority 0, and is stale when `e < 3`. -/
def staleEvents : EventId → cEvent := fun e =>
  { delivd := (e : ℤ), prior := 0, insertordr := 0, heapindex := -1, stale := decide (e < 3) }

/-- A future event set whose first two events are stale. -/
def staleHeap : cMessageHeap :=
  run (emptyHeap staleEvents) [.insert 3, .insert 1, .insert 4, .insert 2]

/-- The members of the scheduler, the simulation time and the deleted events
are the same in both states, and the clock did not go back. -/
def SameRun (s r : RunState) : Prop :=
  r.baseTime = s.baseTime ∧ r.factor = s.factor ∧ r.doScaling = s.doScaling ∧
    r.deleted = s.deleted ∧ r.simTime = s.simTime ∧ s.clock ≤ r.clock

/-- A world in which the first poll of `ev.idle()` asks to stop; the poll
leaves the future event set alone. -/
def stopWorld : World := { elapse := fun _ => 5, idle := fun _ q => (true, q) }

/-- A future event set whose first event, event 6, is due at time 1 s; event
5 follows at 2 s. -/
def lateHeap : cMessageHeap := run (emptyHeap sampleEvents) [.insert 5, .insert 6]

/-- A run that is behind: the first event of `lateHeap` was due at 1 s, the
clock is at 5 s. -/
def behindState : RunState := { runStateOf lateHeap with clock := 5000000 }

/-- The time that `takeNextEvent` and `executionResumed` add to or take from
the base time for the simulation time `t`: `doScaling ? factor*t : t`. -/
def cRealTimeScheduler.scaled (s : RunState) (t : ℚ) : ℚ :=
  if s.doScaling then s.factor * t else t

/-- Modelled from the spec: the body of `peek` is not among the sources
(`cmsgheap.h`, lines 163-169: "returns the mth message in the heap if
0 <= m < length(), and NULL otherwise"). The result and the heap it leaves. -/
def peek (q : cMessageHeap) (m : ℤ) : Option EventId × cMessageHeap :=
  (if 0 ≤ m ∧ m < (q.n : ℤ) then some (q.h (m.toNat + 1)) else none, q)

/-- State of a `cMessageHeap::Iterator` (`cmsgheap.h`, lines 42-74): the
position `pos`; the heap `q` it walks is passed to its functions. -/
structure Iterator where
  pos : ℕ
deriving DecidableEq

/-- Constructor `Iterator(mh)`: `pos=1`. -/
def Iterator.init : Iterator := ⟨1⟩

/-- Function `operator()()`: `return q->h[pos]`. -/
def Iterator.current (q : cMessageHeap) (it : Iterator) : EventId := q.h it.pos

/-- Function `operator++(int)`: `return pos<=q->n ? q->h[++pos] : NULL`; the
result and the iterator afterwards. -/
def Iterator.postIncrement (q : cMessageHeap) (it : Iterator) : Option EventId × Iterator :=
  if it.pos ≤ q.n then (some (q.h (it.pos + 1)), ⟨it.pos + 1⟩) else (none, it)

/-- Function `end()`: `return (bool)(pos>q->n)`. -/
def Iterator.atEnd (q : cMessageHeap) (it : Iterator) : Bool := decide (it.pos > q.n)

/-- The values of `SimulationLifetimeEventType` that `cScheduler::lifetimeEvent`
distinguishes, and the other ones. -/
inductive SimulationLifetimeEventType where
  | LF_PRE_NETWORK_INITIALIZE
  | LF_ON_RUN_END
  | LF_ON_SIMULATION_RESUME
  /-- Any other value of the enumeration. -/
  | LF_OTHER (code : ℕ)
deriving DecidableEq

/-- The three hooks of a scheduler. -/
inductive Hook where
  | startRun
  | endRun
  | executionResumed
deriving DecidableEq

/-- The virtual hooks of a `cScheduler` as functions on the state `σ` of the
scheduler. -/
structure cScheduler (σ : Type) where
  startRun : σ → σ
  endRun : σ → σ
  executionResumed : σ → σ

/-- Function `cScheduler::lifetimeEvent(eventType, details)` (`cscheduler.cc`,
lines 49-56), on the state of the scheduler and the log of the hooks called so
far, latest first. -/
def cScheduler.lifetimeEvent {σ : Type} (sch : cScheduler σ)
    (eventType : SimulationLifetimeEventType) (s : σ × List Hook) : σ × List Hook :=
  match eventType with
  | .LF_PRE_NETWORK_INITIALIZE => (sch.startRun s.1, Hook.startRun :: s.2)
  | .LF_ON_RUN_END => (sch.endRun s.1, Hook.endRun :: s.2)
  | .LF_ON_SIMULATION_RESUME => (sch.executionResumed s.1, Hook.executionResumed :: s.2)
  | .LF_OTHER _ => s

/-- The hooks of `cRealTimeScheduler`; `endRun` is not defined in
`cscheduler.cc` and is taken as given. -/
def cRealTimeScheduler.hooks (w : World) (scaling : ℚ) (endRun : RunState → RunState) :
    cScheduler RunState :=
  { startRun := cRealTimeScheduler.startRun w scaling
    endRun := endRun
    executionResumed := cRealTimeScheduler.executionResumed w }

/-- The initial value of `sizeMin` in `ShortestQueueSelectionStrategy::select`
(`SelectionStrategies.cc`, line 158): `2^30`, where `^` is the exclusive or of
C++. -/
def sizeMinInit : ℤ := ((2 ^^^ 30 : ℕ) : ℤ)

/-- The loop of `ShortestQueueSelectionStrategy::select` (lines 159-167) over
the lengths of the queues of the gates `i`, `i + 1`, ...; a `PQueue` is
selectable when its length is positive (`isSelectable`, line 69). -/
def ShortestQueueSelectionStrategy.loop : List ℤ → ℤ → ℤ → ℤ → ℤ
  | [], _, result, _ => result
  | len :: rest, i, result, sizeMin =>
    if 0 < len ∧ len < sizeMin then ShortestQueueSelectionStrategy.loop rest (i + 1) i len
    else ShortestQueueSelectionStrategy.loop rest (i + 1) result sizeMin

/-- Function `ShortestQueueSelectionStrategy::select()` on the lengths of the
queues of the gates `0 .. gateSize - 1`. -/
def ShortestQueueSelectionStrategy.select (lengths : List ℤ) : ℤ :=
  ShortestQueueSelectionStrategy.loop lengths 0 (-1) sizeMinInit

/-- Function `cEvent::operator=(event)` (`cevent.cc`, lines 106-116) on the
object at address `this`; the fields of the base object are not modelled. -/
def cEvent.assign (ev : EventId → cEvent) (this event : EventId) : EventId → cEvent :=
  if this = event then ev
  else Function.update ev this
    { ev this with prior := (ev event).prior, delivd := (ev event).delivd }

/-- Copy constructor `cEvent::cEvent(const cEvent& event)` (`cevent.cc`,
lines 35-40) for the new object at address `this`, whose memory holds `raw`
before: `heapindex = -1`, then `operator=(event)`. -/
def cEvent.copyConstruct (ev : EventId → cEvent) (this event : EventId) (raw : cEvent) :
    EventId → cEvent :=
  cEvent.assign (Function.update ev this { raw with heapindex := -1 }) this event

/-- A line that `OctaveExport` writes. -/
inductive OctaveLine where
  | name (s : String)
  | type (s : String)
  | rows (r : ℤ)
  | columns (c : ℤ)
  /-- The data line of the vector element `i`. -/
  | data (i : ℤ)
deriving DecidableEq

/-- Function `OctaveExport::writeHeader(name, type, rows, columns)`
(`octaveexport.cc`, lines 84-93): the four lines written. -/
def OctaveExport.writeHeader (name type : String) (rows columns : ℤ) : List OctaveLine :=
  [.name name, .type type, .rows rows, .columns columns]

/-- The lines that `OctaveExport::saveVector` (`octaveexport.cc`, lines
95-106) writes after the file header for a vector of `length` elements;
`columns` is 2, and 1 for `saveVectorX` and `saveVectorY`, whose bodies differ
in it and in the format of the data lines only. -/
def OctaveExport.saveVector (columns : ℤ) (name : String) (length startIndex endIndex : ℤ) :
    List OctaveLine :=
  OctaveExport.writeHeader name "matrix"
      (startIndex - (if endIndex = -1 then length else endIndex)) columns
    ++ (List.range ((if endIndex = -1 then length else endIndex) - startIndex).toNat).map
        (fun k => OctaveLine.data (startIndex + (k : ℤ)))

/-- The rows count in the header that was written. -/
def OctaveExport.headerRows : List OctaveLine → Option ℤ
  | [] => none
  | .rows r :: _ => some r
  | _ :: rest => OctaveExport.headerRows rest

/-- The number of data lines that were written. -/
def OctaveExport.dataLines (out : List OctaveLine) : ℕ :=
  (out.filter (fun l => match l with | .data _ => true | _ => false)).length

/-- A future event set of which every event is stale: the events 2 and 1 of
`staleEvents`. -/
def allStaleHeap : cMessageHeap := run (emptyHeap staleEvents) [.insert 2, .insert 1]

/-- A run whose first event, event 6 of `lateHeap` due at 1 s, is 100 ms
ahead: the clock is at 0.9 s. -/
def nearState : RunState := { runStateOf lateHeap with clock := 900000 }

/-- Puts the event `e` into the slot after the last one and records the slot
in its `heapindex`; the insertion order of `e` is left as it is. -/
def putLast (q : cMessageHeap) (e : EventId) : cMessageHeap :=
  { q with
    ev := setHeapindex q.ev e ((q.n + 1 : ℕ) : ℤ)
    h := Function.update q.h (q.n + 1) e
    n := q.n + 1 }

/-- Puts the events of a sequence into the slots after the last one, in the
order of the sequence. -/
def fill (q : cMessageHeap) (l : List EventId) : cMessageHeap := l.foldl putLast q

/-- Modelled from the spec: the body of `sort` is not among the sources
(`cmsgheap.h`, lines 171-175: "sorts the contents of the heap"). The spec has
it reorder "the backing array into fully ascending key order", for instance
"by extracting all elements via repeated removeFirst into a scratch sequence"
and putting them back: here the extracted events go back to the slots
`1..n` in the order of their extraction, each with its slot as `heapindex`. -/
def sort (q : cMessageHeap) : cMessageHeap := fill (popN q.n q) (drain q)

/-- The pointer members of all `cXMLElement` objects (`cxmlelement.cc`), each
member as a function of the address of the object; `none` is the null
pointer. -/
structure cXMLElements where
  parent : ℕ → Option ℕ
  firstChild : ℕ → Option ℕ
  lastChild : ℕ → Option ℕ
  prevSibling : ℕ → Option ℕ
  nextSibling : ℕ → Option ℕ

/-- First statement of `cXMLElement::removeChild(node)` (`cxmlelement.cc`,
lines 159-162). -/
def cXMLElement.detachPrev (m : cXMLElements) (this node : ℕ) : cXMLElements :=
  match m.prevSibling node with
  | some a => { m with nextSibling := Function.update m.nextSibling a (m.nextSibling node) }
  | none => { m with firstChild := Function.update m.firstChild this (m.nextSibling node) }

/-- Second statement of `cXMLElement::removeChild(node)` (lines 163-166). -/
def cXMLElement.detachNext (m : cXMLElements) (this node : ℕ) : cXMLElements :=
  match m.nextSibling node with
  | some b => { m with prevSibling := Function.update m.prevSibling b (m.prevSibling node) }
  | none => { m with lastChild := Function.update m.lastChild this (m.prevSibling node) }

/-- Third statement of `cXMLElement::removeChild(node)` (line 167):
`node->parent = node->prevSibling = node->nextSibling = nullptr`. -/
def cXMLElement.clearLinks (m : cXMLElements) (node : ℕ) : cXMLElements :=
  { m with
    parent := Function.update m.parent node none
    prevSibling := Function.update m.prevSibling node none
    nextSibling := Function.update m.nextSibling node none }

/-- Function `cXMLElement::removeChild(node)` on the element `this`. -/
def cXMLElement.removeChild (m : cXMLElements) (this node : ℕ) : cXMLElements :=
  cXMLElement.clearLinks
    (cXMLElement.detachNext (cXMLElement.detachPrev m this node) this node) node

/-- The statements `node->parent = this; node->prevSibling = lastChild;
node->nextSibling = nullptr` of `cXMLElement::appendChild(node)` (lines
133-135). -/
def cXMLElement.setLinks (m : cXMLElements) (this node : ℕ) : cXMLElements :=
  { m with
    parent := Function.update m.parent node (some this)
    prevSibling := Function.update m.prevSibling node (m.lastChild this)
    nextSibling := Function.update m.nextSibling node none }

/-- The conditional of `cXMLElement::appendChild(node)` (lines 136-139). -/
def cXMLElement.linkPrev (m : cXMLElements) (this node : ℕ) : cXMLElements :=
  match m.prevSibling node with
  | some a => { m with nextSibling := Function.update m.nextSibling a (some node) }
  | none => { m with firstChild := Function.update m.firstChild this (some node) }

/-- The statement `lastChild = node` of `cXMLElement::appendChild(node)`
(line 140). -/
def cXMLElement.setLast (m : cXMLElements) (this node : ℕ) : cXMLElements :=
  { m with lastChild := Function.update m.lastChild this (some node) }

/-- The first statement of `cXMLElement::appendChild(node)` (lines 131-132):
`if (node->parent) node->parent->removeChild(node)`. -/
def cXMLElement.leaveParent (m : cXMLElements) (node : ℕ) : cXMLElements :=
  match m.parent node with
  | some q => cXMLElement.removeChild m q node
  | none => m

/-- Function `cXMLElement::appendChild(node)` on the element `this`. -/
def cXMLElement.appendChild (m : cXMLElements) (this node : ℕ) : cXMLElements :=
  cXMLElement.setLast
    (cXMLElement.linkPrev
      (cXMLElement.setLinks (cXMLElement.leaveParent m node) this node) this node)
    this node

/-- The elements reached from `start` by following the pointer `next` until
the null pointer; `none` when there are more than `fuel` of them. -/
def cXMLElement.chain (next : ℕ → Option ℕ) : ℕ → Option ℕ → Option (List ℕ)
  | _, none => some []
  | 0, some _ => none
  | fuel + 1, some child => (cXMLElement.chain next fuel (next child)).map (child :: ·)

/-- Function `cXMLElement::getChildren()` (lines 210-216) on the element
`this`: the loop from `getFirstChild()` along `getNextSibling()`, for at most
`fuel` children. -/
def cXMLElement.getChildren (fuel : ℕ) (m : cXMLElements) (this : ℕ) : Option (List ℕ) :=
  cXMLElement.chain m.nextSibling fuel (m.firstChild this)

/-- The children of `this` from `getLastChild()` along `getPreviousSibling()`,
for at most `fuel` children. -/
def cXMLElement.getChildrenBackwards (fuel : ℕ) (m : cXMLElements) (this : ℕ) :
    Option (List ℕ) :=
  cXMLElement.chain m.prevSibling fuel (m.lastChild this)

/-- The pointer `next` leads from `start` through the elements of the list,
in this order, to `stop`. -/
def Seg (next : ℕ → Option ℕ) : Option ℕ → List ℕ → Option ℕ → Prop
  | start, [], stop => start = stop
  | start, x :: xs, stop => start = some x ∧ Seg next (next x) xs stop

instance Seg.decSeg (next : ℕ → Option ℕ) :
    ∀ (start : Option ℕ) (l : List ℕ) (stop : Option ℕ), Decidable (Seg next start l stop)
  | start, [], stop => inferInstanceAs (Decidable (start = stop))
  | start, x :: xs, stop =>
    have := Seg.decSeg next (next x) xs stop
    inferInstanceAs (Decidable (start = some x ∧ Seg next (next x) xs stop))

/-- The elements of the list `l`, each once, are the children of `p` in this
order: they have `p` as parent, the chain of `nextSibling` from the first
child of `p` goes through `l`, and the chain of `prevSibling` from its last
child goes through the reverse of `l`. -/
def ChildList (m : cXMLElements) (p : ℕ) (l : List ℕ) : Prop :=
  l.Nodup ∧ (∀ x ∈ l, m.parent x = some p) ∧
    Seg m.nextSibling (m.firstChild p) l none ∧
    Seg m.prevSibling (m.lastChild p) l.reverse none

instance ChildList.decChildList (m : cXMLElements) (p : ℕ) (l : List ℕ) :
    Decidable (ChildList m p l) :=
  inferInstanceAs (Decidable (_ ∧ _ ∧ _ ∧ _))

/-- No element has a parent, a child or a sibling. -/
def noLinks : cXMLElements :=
  { parent := fun _ => none, firstChild := fun _ => none, lastChild := fun _ => none,
    prevSibling := fun _ => none, nextSibling := fun _ => none }

/-- A sample forest: the element 2 has the children 3, 4, 5 and the element 1
has the child 6. -/
def sampleForest : cXMLElements :=
  cXMLElement.appendChild
    (cXMLElement.appendChild
      (cXMLElement.appendChild (cXMLElement.appendChild noLinks 2 3) 2 4) 2 5) 1 6

/-! ## Exchanging two slots -/

theorem swap_n (q : cMessageHeap) (i j : ℕ) : (swap q i j).n = q.n := rfl

theorem swap_insertcntr (q : cMessageHeap) (i j : ℕ) :
    (swap q i j).insertcntr = q.insertcntr := rfl

theorem swap_size (q : cMessageHeap) (i j : ℕ) : (swap q i j).size = q.size := rfl

theorem swap_h (q : cMessageHeap) (i j k : ℕ) :
    (swap q i j).h k = if k = j then q.h i else if k = i then q.h j else q.h k := by
  simp only [swap, Function.update_apply]

theorem setHeapindex_frame (ev : EventId → cEvent) (e x : EventId) (i : ℤ) :
    ∃ k : ℤ, setHeapindex ev e i x = { ev x with heapindex := k } := by
  unfold setHeapindex
  by_cases hx : x = e
  · subst hx; exact ⟨i, by simp⟩
  · exact ⟨(ev x).heapindex, by simp [Function.update_noteq hx]⟩

theorem setHeapindex_ne (ev : EventId → cEvent) (e x : EventId) (i : ℤ) (hx : x ≠ e) :
    setHeapindex ev e i x = ev x := by
  simp [setHeapindex, Function.update_noteq hx]

theorem setHeapindex_self (ev : EventId → cEvent) (e : EventId) (i : ℤ) :
    (setHeapindex ev e i e).heapindex = i := by
  simp [setHeapindex]

theorem Frame.refl (q : cMessageHeap) : Frame q q :=
  fun x => ⟨(q.ev x).heapindex, rfl⟩

theorem Frame.comp {a b c : cMessageHeap} (h1 : Frame a b) (h2 : Frame b c) : Frame a c := by
  intro x
  obtain ⟨i, hi⟩ := h1 x
  obtain ⟨k, hk⟩ := h2 x
  exact ⟨k, by rw [hk, hi]⟩

theorem Frame.key {a b : cMessageHeap} (hf : Frame a b) (x : EventId) :
    (b.ev x).key = (a.ev x).key := by
  obtain ⟨i, hi⟩ := hf x
  rw [hi]; rfl

theorem Frame.timePrio_eq {a b : cMessageHeap} (hf : Frame a b) (x : EventId) :
    (b.ev x).timePrio = (a.ev x).timePrio := by
  obtain ⟨i, hi⟩ := hf x
  rw [hi]; rfl

theorem Frame.stale_eq {a b : cMessageHeap} (hf : Frame a b) (x : EventId) :
    (b.ev x).stale = (a.ev x).stale := by
  obtain ⟨i, hi⟩ := hf x
  rw [hi]

theorem Frame.insertordr {a b : cMessageHeap} (hf : Frame a b) (x : EventId) :
    (b.ev x).insertordr = (a.ev x).insertordr := by
  obtain ⟨i, hi⟩ := hf x
  rw [hi]

theorem swap_frame (q : cMessageHeap) (i j : ℕ) : Frame q (swap q i j) := by
  intro x
  obtain ⟨k, hk⟩ := setHeapindex_frame (setHeapindex q.ev (q.h j) i) (q.h i) x j
  obtain ⟨m, hm⟩ := setHeapindex_frame q.ev (q.h j) x i
  exact ⟨k, by show setHeapindex (setHeapindex q.ev (q.h j) i) (q.h i) j x = _; rw [hk, hm]⟩

theorem keyAt_swap (q : cMessageHeap) (i j k : ℕ) :
    (swap q i j).keyAt k
      = if k = j then q.keyAt i else if k = i then q.keyAt j else q.keyAt k := by
  unfold cMessageHeap.keyAt
  rw [(swap_frame q i j).key, swap_h]
  split_ifs <;> rfl

theorem H2.inj {q : cMessageHeap} (h2 : H2 q) {i j : ℕ} (hi : 1 ≤ i) (hin : i ≤ q.n)
    (hj : 1 ≤ j) (hjn : j ≤ q.n) (he : q.h i = q.h j) : i = j := by
  have a := h2 i hi hin
  have b := h2 j hj hjn
  rw [he] at a
  omega

theorem swap_H2 {q : cMessageHeap} (h2 : H2 q) {i j : ℕ} (hi : 1 ≤ i) (hin : i ≤ q.n)
    (hj : 1 ≤ j) (hjn : j ≤ q.n) : H2 (swap q i j) := by
  intro k hk hkn
  rw [swap_n] at hkn
  rw [swap_h]
  show (setHeapindex (setHeapindex q.ev (q.h j) i) (q.h i) j _).heapindex = _
  by_cases hkj : k = j
  · subst hkj
    simp only [if_true]
    exact setHeapindex_self _ _ _
  · by_cases hki : k = i
    · subst hki
      simp only [hkj, if_false, if_true]
      have hne : q.h j ≠ q.h k := fun he => hkj (h2.inj hj hjn hk hkn he).symm
      rw [setHeapindex_ne _ _ _ _ hne]
      exact setHeapindex_self _ _ _
    · simp only [hkj, hki, if_false]
      have hne1 : q.h k ≠ q.h i := fun he => hki (h2.inj hk hkn hi hin he)
      have hne2 : q.h k ≠ q.h j := fun he => hkj (h2.inj hk hkn hj hjn he)
      rw [setHeapindex_ne _ _ _ _ hne1, setHeapindex_ne _ _ _ _ hne2]
      exact h2 k hk hkn

theorem swap_contained (q : cMessageHeap) {i j : ℕ} (hi : 1 ≤ i) (hin : i ≤ q.n)
    (hj : 1 ≤ j) (hjn : j ≤ q.n) (x : EventId) :
    Contained (swap q i j) x ↔ Contained q x := by
  constructor
  · rintro ⟨k, hk, hkn, hx⟩
    rw [swap_n] at hkn
    rw [swap_h] at hx
    split_ifs at hx with h1 h2
    · exact ⟨i, hi, hin, hx⟩
    · exact ⟨j, hj, hjn, hx⟩
    · exact ⟨k, hk, hkn, hx⟩
  · rintro ⟨k, hk, hkn, hx⟩
    by_cases hki : k = i
    · subst hki
      exact ⟨j, hj, hjn, by rw [swap_h]; simp [hx]⟩
    · by_cases hkj : k = j
      · subst hkj
        refine ⟨i, hi, hin, ?_⟩
        rw [swap_h]
        by_cases hij : i = k
        · simp [hij, hx]
        · simp [hij, hx]
      · exact ⟨k, hk, hkn, by rw [swap_h]; simp [hki, hkj, hx]⟩

theorem swap_untouched (q : cMessageHeap) {i j : ℕ} (hi : 1 ≤ i) (hin : i ≤ q.n)
    (hj : 1 ≤ j) (hjn : j ≤ q.n) (x : EventId) (hx : ¬ Contained q x) :
    (swap q i j).ev x = q.ev x := by
  have h1 : x ≠ q.h i := fun he => hx ⟨i, hi, hin, he.symm⟩
  have h2 : x ≠ q.h j := fun he => hx ⟨j, hj, hjn, he.symm⟩
  show setHeapindex (setHeapindex q.ev (q.h j) i) (q.h i) j x = _
  rw [setHeapindex_ne _ _ _ _ h1, setHeapindex_ne _ _ _ _ h2]

/-! ## Rearrangements keep the contents -/

theorem Rearr.append {a b c : cMessageHeap} (h1 : Rearr a b) (h2 : Rearr b c) : Rearr a c := by
  induction h1 with
  | refl q => exact h2
  | step q q1 i j hi hin hj hjn _ ih => exact Rearr.step q c i j hi hin hj hjn (ih h2)

theorem Rearr.n_eq {a b : cMessageHeap} (h : Rearr a b) : b.n = a.n := by
  induction h with
  | refl q => rfl
  | step q q1 i j _ _ _ _ _ ih => rw [ih, swap_n]

theorem Rearr.insertcntr_eq {a b : cMessageHeap} (h : Rearr a b) :
    b.insertcntr = a.insertcntr := by
  induction h with
  | refl q => rfl
  | step q q1 i j _ _ _ _ _ ih => rw [ih, swap_insertcntr]

theorem Rearr.h2 {a b : cMessageHeap} (h : Rearr a b) (h2 : H2 a) : H2 b := by
  induction h with
  | refl q => exact h2
  | step q q1 i j hi hin hj hjn _ ih => exact ih (swap_H2 h2 hi hin hj hjn)

theorem Rearr.contained {a b : cMessageHeap} (h : Rearr a b) (x : EventId) :
    Contained b x ↔ Contained a x := by
  induction h with
  | refl q => exact Iff.rfl
  | step q q1 i j hi hin hj hjn _ ih => exact ih.trans (swap_contained q hi hin hj hjn x)

theorem Rearr.frame {a b : cMessageHeap} (h : Rearr a b) : Frame a b := by
  induction h with
  | refl q => exact Frame.refl q
  | step q q1 i j _ _ _ _ _ ih => exact (swap_frame q i j).comp ih

theorem Rearr.untouched {a b : cMessageHeap} (h : Rearr a b) (x : EventId)
    (hx : ¬ Contained a x) : b.ev x = a.ev x := by
  induction h with
  | refl q => rfl
  | step q q1 i j hi hin hj hjn _ ih =>
    rw [ih (fun hc => hx ((swap_contained q hi hin hj hjn x).1 hc))]
    exact swap_untouched q hi hin hj hjn x hx

theorem siftUp_rearr : ∀ (fuel : ℕ) (q : cMessageHeap) (i : ℕ), i ≤ q.n →
    Rearr q (siftUp fuel q i)
  | 0, q, _, _ => Rearr.refl q
  | fuel + 1, q, i, hin => by
    unfold siftUp
    split_ifs with h1 h2
    · exact Rearr.refl q
    · have hp : 1 ≤ i / 2 := by omega
      have hpn : i / 2 ≤ q.n := by omega
      exact Rearr.step q _ (i / 2) i hp hpn (by omega) hin
        (siftUp_rearr fuel (swap q (i / 2) i) (i / 2) hpn)
    · exact Rearr.refl q

theorem smallerChild_spec (q : cMessageHeap) (i : ℕ) (_hi : 1 ≤ i) (hn : ¬ q.n < 2 * i) :
    smallerChild q i ≤ q.n ∧ smallerChild q i / 2 = i ∧
      ∀ s, s ≤ q.n → s / 2 = i → q.keyAt (smallerChild q i) ≤ q.keyAt s := by
  unfold smallerChild
  refine ⟨by split_ifs with h <;> omega, by split_ifs with h <;> omega, ?_⟩
  intro s hsn hs
  have hs2 : s = 2 * i ∨ s = 2 * i + 1 := by omega
  split_ifs with h
  · rcases hs2 with rfl | rfl
    · exact le_of_lt h.2
    · exact le_refl _
  · rcases hs2 with rfl | rfl
    · exact le_refl _
    · exact not_lt.1 (fun hlt => h ⟨by omega, hlt⟩)

theorem shiftup_rearr : ∀ (fuel : ℕ) (q : cMessageHeap) (i : ℕ), 1 ≤ i →
    Rearr q (shiftup fuel q i)
  | 0, q, _, _ => Rearr.refl q
  | fuel + 1, q, i, hi => by
    unfold shiftup
    split_ifs with h1 h2
    · exact Rearr.refl q
    · obtain ⟨hcn, hc2, _⟩ := smallerChild_spec q i hi h1
      exact Rearr.step q _ i (smallerChild q i) hi (by omega) (by omega) hcn
        (shiftup_rearr fuel (swap q i (smallerChild q i)) (smallerChild q i) (by omega))
    · exact Rearr.refl q

/-! ## Restoring the heap order -/

theorem siftUp_H1 : ∀ (fuel : ℕ) (q : cMessageHeap) (i : ℕ), UpInv q i → i ≤ q.n →
    i ≤ fuel + 1 → H1 (siftUp fuel q i)
  | 0, q, i, hu, _, hf => by
    intro j hj hjn
    exact hu.1 j hj hjn (by omega)
  | fuel + 1, q, i, hu, hin, hf => by
    unfold siftUp
    split_ifs with h1 hlt
    · intro j hj hjn
      exact hu.1 j hj hjn (by omega)
    · apply siftUp_H1 fuel _ _ _ (by rw [swap_n]; omega) (by omega)
      constructor
      · intro j hj hjn hjp
        rw [swap_n] at hjn
        rw [keyAt_swap, keyAt_swap]
        by_cases hji : j = i
        · subst hji
          have e1 : ¬ j / 2 = j := by omega
          simp only [e1, if_false, if_true]
          exact le_of_lt hlt
        · simp only [hji, hjp, if_false]
          by_cases hc : j / 2 = i
          · simp only [hc, if_true]
            exact hu.2 j (by omega) hjn hc
          · simp only [hc, if_false]
            by_cases hs : j / 2 = i / 2
            · simp only [hs, if_true]
              have := hu.1 j hj hjn hji
              rw [hs] at this
              exact le_trans (le_of_lt hlt) this
            · simp only [hs, if_false]
              exact hu.1 j hj hjn hji
      · intro c hp2 hcn hcp
        rw [swap_n] at hcn
        rw [keyAt_swap, keyAt_swap]
        have e1 : ¬ i / 2 / 2 = i := by omega
        have e2 : ¬ i / 2 / 2 = i / 2 := by omega
        have e3 : ¬ c = i / 2 := by omega
        have hpp := hu.1 (i / 2) hp2 (by omega) (by omega)
        simp only [e1, e2, e3, if_false]
        by_cases hci : c = i
        · simp only [hci, if_true]
          exact hpp
        · simp only [hci, if_false]
          have := hu.1 c (by omega) hcn hci
          rw [hcp] at this
          exact le_trans hpp this
    · intro j hj hjn
      by_cases hji : j = i
      · subst hji
        exact not_lt.1 hlt
      · exact hu.1 j hj hjn hji

theorem shiftup_H1 : ∀ (fuel : ℕ) (q : cMessageHeap) (i : ℕ), DownInv q i → 1 ≤ i →
    q.n < fuel + i → H1 (shiftup fuel q i)
  | 0, q, i, hd, hi, hf => by
    show H1 q
    intro j hj hjn
    exact hd.1 j hj hjn (by omega)
  | fuel + 1, q, i, hd, hi, hf => by
    unfold shiftup
    by_cases h1 : q.n < 2 * i
    · simp only [h1, if_true]
      intro j hj hjn
      exact hd.1 j hj hjn (by omega)
    · simp only [h1, if_false]
      obtain ⟨hcn, hc2, hmin⟩ := smallerChild_spec q i hi h1
      generalize smallerChild q i = c at hcn hc2 hmin ⊢
      by_cases hlt : q.keyAt c < q.keyAt i
      · simp only [hlt, if_true]
        apply shiftup_H1 fuel _ _ _ (by omega) (by rw [swap_n]; omega)
        constructor
        · intro j hj hjn hjc
          rw [swap_n] at hjn
          rw [keyAt_swap, keyAt_swap]
          simp only [hjc, if_false]
          by_cases hjc2 : j = c
          · subst hjc2
            simp only [hc2, if_true]
            exact le_of_lt hlt
          · simp only [hjc2, if_false]
            by_cases hji : j = i
            · subst hji
              have e1 : ¬ j / 2 = j := by omega
              simp only [e1, if_false, if_true]
              exact hd.2 c hj hcn hc2
            · simp only [hji, if_false]
              by_cases hp : j / 2 = i
              · simp only [hp, if_true]
                exact hmin j hjn hp
              · simp only [hp, if_false]
                exact hd.1 j hj hjn hp
        · intro d hc2' hdn hdc
          rw [swap_n] at hdn
          rw [keyAt_swap, keyAt_swap]
          have e1 : ¬ i = c := by omega
          have e2 : ¬ d = c := by omega
          have e3 : ¬ d = i := by omega
          simp only [hc2, e1, e2, e3, if_false, if_true]
          have := hd.1 d (by omega) hdn (by omega)
          rw [hdc] at this
          exact this
      · simp only [hlt, if_false]
        intro j hj hjn
        by_cases hp : j / 2 = i
        · rw [hp]
          exact le_trans (not_lt.1 hlt) (hmin j hjn hp)
        · exact hd.1 j hj hjn hp

theorem shiftup_of_H1 : ∀ (fuel : ℕ) (q : cMessageHeap) (i : ℕ), H1 q → 1 ≤ i →
    shiftup fuel q i = q
  | 0, _, _, _, _ => rfl
  | fuel + 1, q, i, h1, hi => by
    unfold shiftup
    split_ifs with ha hb
    · rfl
    · obtain ⟨hcn, hc2, _⟩ := smallerChild_spec q i hi ha
      have := h1 (smallerChild q i) (by omega) hcn
      rw [hc2] at this
      exact absurd hb (not_lt.2 this)
    · rfl

/-! ## Removing the event of a slot -/

theorem unlink_n (q : cMessageHeap) (i : ℕ) : (unlink q i).n = q.n - 1 := rfl

theorem unlink_insertcntr (q : cMessageHeap) (i : ℕ) :
    (unlink q i).insertcntr = q.insertcntr := rfl

theorem unlink_h (q : cMessageHeap) (i k : ℕ) : (unlink q i).h k = (swap q i q.n).h k := rfl

theorem unlink_frame (q : cMessageHeap) (i : ℕ) : Frame q (unlink q i) := by
  intro x
  obtain ⟨k, hk⟩ := setHeapindex_frame (swap q i q.n).ev (q.h i) x (-1)
  obtain ⟨m, hm⟩ := swap_frame q i q.n x
  exact ⟨k, by show setHeapindex (swap q i q.n).ev (q.h i) (-1) x = _; rw [hk, hm]⟩

theorem unlink_keyAt (q : cMessageHeap) (i k : ℕ) (hk : k ≠ q.n) :
    (unlink q i).keyAt k = if k = i then q.keyAt q.n else q.keyAt k := by
  unfold cMessageHeap.keyAt
  rw [(unlink_frame q i).key, unlink_h, swap_h]
  simp only [hk, if_false]
  split_ifs <;> rfl

theorem unlink_removed (q : cMessageHeap) (i : ℕ) :
    ((unlink q i).ev (q.h i)).heapindex = -1 :=
  setHeapindex_self _ _ _

theorem swap_last (q : cMessageHeap) (i : ℕ) : (swap q i q.n).h q.n = q.h i := by
  rw [swap_h]; simp

theorem unlink_H2 {q : cMessageHeap} (h2 : H2 q) {i : ℕ} (hi : 1 ≤ i) (hin : i ≤ q.n) :
    H2 (unlink q i) := by
  have hs := swap_H2 h2 hi hin (by omega : 1 ≤ q.n) (le_refl _)
  intro k hk hkn
  rw [unlink_n] at hkn
  have hkn2 : k ≤ (swap q i q.n).n := by rw [swap_n]; omega
  have hne : (swap q i q.n).h k ≠ q.h i := by
    intro he
    rw [← swap_last q i] at he
    have := hs.inj hk hkn2 (by omega : 1 ≤ q.n) (by rw [swap_n]) he
    omega
  show (setHeapindex (swap q i q.n).ev (q.h i) (-1) ((swap q i q.n).h k)).heapindex = _
  rw [setHeapindex_ne _ _ _ _ hne]
  exact hs k hk hkn2

theorem unlink_contained {q : cMessageHeap} (h2 : H2 q) {i : ℕ} (hi : 1 ≤ i)
    (hin : i ≤ q.n) (x : EventId) :
    Contained (unlink q i) x ↔ Contained q x ∧ x ≠ q.h i := by
  have hs := swap_H2 h2 hi hin (by omega : 1 ≤ q.n) (le_refl _)
  have hn1 : 1 ≤ q.n := by omega
  constructor
  · rintro ⟨k, hk, hkn, hx⟩
    rw [unlink_n] at hkn
    rw [unlink_h] at hx
    have hkn2 : k ≤ (swap q i q.n).n := by rw [swap_n]; omega
    refine ⟨(swap_contained q hi hin hn1 (le_refl _) x).1 ⟨k, hk, hkn2, hx⟩, ?_⟩
    intro he
    rw [← swap_last q i, ← hx] at he
    have := hs.inj hk hkn2 hn1 (by rw [swap_n]) he
    omega
  · rintro ⟨hc, hne⟩
    obtain ⟨k, hk, hkn, hx⟩ := (swap_contained q hi hin hn1 (le_refl _) x).2 hc
    rw [swap_n] at hkn
    have hkn3 : k ≠ q.n := by
      intro he
      rw [he, swap_last] at hx
      exact hne hx.symm
    exact ⟨k, hk, by rw [unlink_n]; omega, by rw [unlink_h]; exact hx⟩

theorem unlink_untouched (q : cMessageHeap) {i : ℕ} (hi : 1 ≤ i) (hin : i ≤ q.n)
    (x : EventId) (hx : ¬ Contained q x) : (unlink q i).ev x = q.ev x := by
  have hne : x ≠ q.h i := fun he => hx ⟨i, hi, hin, he.symm⟩
  show setHeapindex (swap q i q.n).ev (q.h i) (-1) x = _
  rw [setHeapindex_ne _ _ _ _ hne]
  exact swap_untouched q hi hin (by omega) (le_refl _) x hx

theorem siftUp_noop (fuel : ℕ) (q : cMessageHeap) (i : ℕ)
    (h : ¬ (2 ≤ i ∧ q.keyAt i < q.keyAt (i / 2))) : siftUp fuel q i = q := by
  cases fuel with
  | zero => rfl
  | succ f =>
    unfold siftUp
    split_ifs with h1 h2
    · rfl
    · exact absurd ⟨by omega, h2⟩ h
    · rfl

theorem removeAt_spec {q : cMessageHeap} (hq : Inv q) {i : ℕ} (hi : 1 ≤ i) (hin : i ≤ q.n) :
    Removed q (q.h i) (removeAt q i) := by
  obtain ⟨h1, h2⟩ := hq
  have hu2 := unlink_H2 h2 hi hin
  have hnotin : ¬ Contained (unlink q i) (q.h i) := fun hc =>
    ((unlink_contained h2 hi hin _).1 hc).2 rfl
  -- everything but the heap order follows from a rearrangement of the unlinked state
  have key : ∀ r, Rearr (unlink q i) r → H1 r → Removed q (q.h i) r := by
    intro r hr hr1
    refine ⟨⟨hr1, hr.h2 hu2⟩, ?_, ?_, (unlink_frame q i).comp hr.frame, ?_, ?_, ?_⟩
    · rw [hr.n_eq, unlink_n]; omega
    · intro x; rw [hr.contained, unlink_contained h2 hi hin]
    · rw [hr.untouched _ hnotin]; exact unlink_removed q i
    · intro x hx
      rw [hr.untouched x (fun hc => hx ((unlink_contained h2 hi hin x).1 hc).1)]
      exact unlink_untouched q hi hin x hx
    · rw [hr.insertcntr_eq, unlink_insertcntr]
  unfold removeAt
  by_cases hlast : (unlink q i).n < i
  · simp only [hlast, if_true]
    apply key _ (Rearr.refl _)
    intro j hj hjn
    rw [unlink_n] at hjn hlast
    rw [unlink_keyAt q i j (by omega), unlink_keyAt q i (j / 2) (by omega)]
    have e1 : ¬ j = i := by omega
    have e2 : ¬ j / 2 = i := by omega
    simp only [e1, e2, if_false]
    exact h1 j hj (by omega)
  · simp only [hlast, if_false]
    rw [unlink_n] at hlast
    have hin1 : i ≤ (unlink q i).n := by rw [unlink_n]; omega
    have kI : (unlink q i).keyAt i = q.keyAt q.n := by
      rw [unlink_keyAt q i i (by omega)]; simp
    have kO : ∀ k, k ≠ i → k ≤ q.n - 1 → (unlink q i).keyAt k = q.keyAt k := by
      intro k hk hkn
      rw [unlink_keyAt q i k (by omega)]; simp [hk]
    have gp : ∀ c, 2 ≤ i → c ≤ (unlink q i).n → c / 2 = i →
        (unlink q i).keyAt (i / 2) ≤ (unlink q i).keyAt c := by
      intro c hi2 hcn hc
      rw [unlink_n] at hcn
      rw [kO (i / 2) (by omega) (by omega), kO c (by omega) hcn]
      have a := h1 i hi2 hin
      have b := h1 c (by omega) (by omega)
      rw [hc] at b
      exact le_trans a b
    by_cases hup : 2 ≤ i ∧ (unlink q i).keyAt i < (unlink q i).keyAt (i / 2)
    · have hU : UpInv (unlink q i) i := by
        refine ⟨?_, gp⟩
        intro j hj hjn hji
        rw [unlink_n] at hjn
        rw [kO j hji hjn]
        by_cases hc : j / 2 = i
        · rw [hc, kI]
          have a := hup.2
          rw [kI, kO (i / 2) (by omega) (by omega)] at a
          have b := h1 i hup.1 hin
          have c := h1 j hj (by omega)
          rw [hc] at c
          exact le_trans (le_of_lt a) (le_trans b c)
        · rw [kO (j / 2) hc (by omega)]
          exact h1 j hj (by omega)
      have hS := siftUp_H1 i (unlink q i) i hU hin1 (by omega)
      rw [shiftup_of_H1 _ _ _ hS hi]
      exact key _ (siftUp_rearr i _ i hin1) hS
    · rw [siftUp_noop i _ i hup]
      have hD : DownInv (unlink q i) i := by
        refine ⟨?_, gp⟩
        intro j hj hjn hji
        rw [unlink_n] at hjn
        rw [kO (j / 2) hji (by omega)]
        by_cases hc : j = i
        · subst hc
          rw [kI]
          have a : ¬ (unlink q j).keyAt j < (unlink q j).keyAt (j / 2) := fun hlt => hup ⟨hj, hlt⟩
          rw [kI, kO (j / 2) (by omega) (by omega)] at a
          exact not_lt.1 a
        · rw [kO j hc hjn]
          exact h1 j hj (by omega)
      exact key _ (shiftup_rearr _ _ i hi) (shiftup_H1 _ _ i hD hi (by omega))

theorem removeFirst_eq (q : cMessageHeap) (hn : q.n ≠ 0) :
    removeFirst q = (some (q.h 1), removeAt q 1) := by
  unfold removeFirst removeAt
  simp only [hn, if_false]
  have e : siftUp 1 (unlink q 1) 1 = unlink q 1 := siftUp_noop 1 _ 1 (by omega)
  rw [e]
  split_ifs with h
  · have h0 : (unlink q 1).n = 0 := by omega
    rw [h0]; rfl
  · rfl

theorem removeFirst_none (q : cMessageHeap) (hn : q.n = 0) : removeFirst q = (none, q) := by
  unfold removeFirst
  simp [hn]

theorem removeFirst_spec {q : cMessageHeap} (hq : Inv q) (hn : q.n ≠ 0) :
    Removed q (q.h 1) (removeFirst q).2 := by
  rw [removeFirst_eq q hn]
  exact removeAt_spec hq (le_refl 1) (by omega)

/-! ## The first event is a minimum -/

theorem root_min {q : cMessageHeap} (h1 : H1 q) :
    ∀ i, 1 ≤ i → i ≤ q.n → q.keyAt 1 ≤ q.keyAt i := by
  intro i
  induction i using Nat.strong_induction_on with
  | _ i ih =>
    intro hi hin
    by_cases h : i = 1
    · subst h; exact le_refl _
    · exact le_trans (ih (i / 2) (by omega) (by omega) (by omega)) (h1 i (by omega) hin)

theorem Contained.heapindex {q : cMessageHeap} (h2 : H2 q) {e : EventId}
    (hc : Contained q e) :
    1 ≤ (q.ev e).heapindex.toNat ∧ (q.ev e).heapindex.toNat ≤ q.n ∧
      q.h (q.ev e).heapindex.toNat = e ∧ (q.ev e).heapindex ≠ -1 := by
  obtain ⟨i, hi, hin, he⟩ := hc
  have := h2 i hi hin
  rw [he] at this
  have ht : (q.ev e).heapindex.toNat = i := by omega
  rw [ht]
  exact ⟨hi, hin, he, by omega⟩

theorem first_min {q : cMessageHeap} (hq : Inv q) {x : EventId} (hx : Contained q x) :
    (q.ev (q.h 1)).key ≤ (q.ev x).key := by
  obtain ⟨i, hi, hin, he⟩ := hx
  have := root_min hq.1 i hi hin
  unfold cMessageHeap.keyAt at this
  rw [he] at this
  exact this

/-! ## `get` -/

theorem get_none (q : cMessageHeap) (e : EventId) (h : ¬ Contained q e) :
    get q e = (none, q) := by
  unfold get
  rw [if_pos]
  right
  rintro ⟨a, b, c⟩
  exact h ⟨_, a, b, c⟩

theorem get_spec {q : cMessageHeap} (hq : Inv q) {e : EventId} (hc : Contained q e) :
    (get q e).1 = some e ∧ Removed q e (get q e).2 := by
  obtain ⟨a, b, c, d⟩ := hc.heapindex hq.2
  unfold get
  rw [if_neg (by
    rintro (h | h)
    · exact d h
    · exact h ⟨a, b, c⟩)]
  refine ⟨rfl, ?_⟩
  have := removeAt_spec hq a b
  rw [c] at this
  exact this

/-! ## `insert` -/

theorem not_contained_of_sentinel {q : cMessageHeap} (h2 : H2 q) {e : EventId}
    (he : (q.ev e).heapindex = -1) : ¬ Contained q e := by
  rintro ⟨i, hi, hin, hx⟩
  have := h2 i hi hin
  rw [hx] at this
  omega

theorem appendLast_ev_ne (q : cMessageHeap) (e x : EventId) (hx : x ≠ e) :
    (appendLast q e).ev x = q.ev x := by
  simp [appendLast, Function.update_noteq hx]

theorem appendLast_h_ne (q : cMessageHeap) (e : EventId) (k : ℕ) (hk : k ≠ q.n + 1) :
    (appendLast q e).h k = q.h k := by
  simp [appendLast, Function.update_noteq hk]

theorem appendLast_keyAt (q : cMessageHeap) (e : EventId) (hne : ¬ Contained q e) (k : ℕ)
    (hk : 1 ≤ k) (hkn : k ≤ q.n) : (appendLast q e).keyAt k = q.keyAt k := by
  unfold cMessageHeap.keyAt
  rw [appendLast_h_ne q e k (by omega), appendLast_ev_ne]
  exact fun he => hne ⟨k, hk, hkn, he⟩

theorem insert_spec {q : cMessageHeap} (hq : Inv q) {e : EventId}
    (he : (q.ev e).heapindex = -1) :
    ∃ r, insert q e = .ok r ∧ Inserted q e r := by
  obtain ⟨h1, h2⟩ := hq
  have hne := not_contained_of_sentinel h2 he
  refine ⟨siftUp (q.n + 1) (appendLast q e) (q.n + 1), ?_, ?_⟩
  · unfold insert
    rw [if_neg (by simpa using he)]
  have hn : (appendLast q e).n = q.n + 1 := rfl
  have hr := siftUp_rearr (q.n + 1) (appendLast q e) (q.n + 1) (le_of_eq hn.symm)
  have hlast : (appendLast q e).h (q.n + 1) = e := by simp [appendLast]
  have hA2 : H2 (appendLast q e) := by
    intro k hk hkn
    rw [hn] at hkn
    by_cases hkl : k = q.n + 1
    · subst hkl
      rw [hlast]
      simp [appendLast]
    · rw [appendLast_h_ne q e k hkl, appendLast_ev_ne]
      · exact h2 k hk (by omega)
      · exact fun hx => hne ⟨k, hk, by omega, hx⟩
  have hU : UpInv (appendLast q e) (q.n + 1) := by
    constructor
    · intro j hj hjn hjl
      rw [hn] at hjn
      rw [appendLast_keyAt q e hne j (by omega) (by omega),
        appendLast_keyAt q e hne (j / 2) (by omega) (by omega)]
      exact h1 j hj (by omega)
    · intro c _ hcn hc
      rw [hn] at hcn
      omega
  have hAc : ∀ x, Contained (appendLast q e) x ↔ Contained q x ∨ x = e := by
    intro x
    constructor
    · rintro ⟨k, hk, hkn, hx⟩
      rw [hn] at hkn
      by_cases hkl : k = q.n + 1
      · subst hkl
        rw [hlast] at hx
        exact Or.inr hx.symm
      · rw [appendLast_h_ne q e k hkl] at hx
        exact Or.inl ⟨k, hk, by omega, hx⟩
    · rintro (⟨k, hk, hkn, hx⟩ | rfl)
      · exact ⟨k, hk, by rw [hn]; omega, by rw [appendLast_h_ne q e k (by omega)]; exact hx⟩
      · exact ⟨q.n + 1, by omega, by rw [hn], hlast⟩
  refine ⟨⟨siftUp_H1 _ _ _ hU (le_of_eq hn.symm) (by omega), hr.h2 hA2⟩, ?_, ?_, ?_, ?_, ?_, ?_⟩
  · rw [hr.n_eq, hn]
  · intro x; rw [hr.contained, hAc]
  · intro x hx
    obtain ⟨i, hi⟩ := hr.frame x
    exact ⟨i, by rw [hi, appendLast_ev_ne q e x hx]⟩
  · obtain ⟨i, hi⟩ := hr.frame e
    exact ⟨i, by rw [hi]; simp [appendLast]⟩
  · intro x hx hxe
    rw [hr.untouched x (fun hc => by
      rcases (hAc x).1 hc with h | h
      · exact hx h
      · exact hxe h)]
    exact appendLast_ev_ne q e x hxe
  · rw [hr.insertcntr_eq]; rfl

/-! ## Draining the heap -/

theorem drainLoop_spec : ∀ (fuel : ℕ) (q : cMessageHeap), Inv q → q.n < fuel →
    Drained q (drainLoop fuel q)
  | 0, _, _, hf => absurd hf (Nat.not_lt_zero _)
  | fuel + 1, q, hq, hf => by
    unfold drainLoop
    by_cases hn : q.n = 0
    · rw [removeFirst_none q hn]
      refine ⟨hn.symm, ?_, List.nodup_nil, List.Pairwise.nil⟩
      intro x
      constructor
      · intro h; cases h
      · rintro ⟨i, hi, hin, _⟩; omega
    · have hR : Removed q (q.h 1) (removeAt q 1) :=
        removeAt_spec hq (le_refl 1) (by omega)
      rw [removeFirst_eq q hn]
      have ih := drainLoop_spec fuel (removeAt q 1) hR.inv (by have := hR.n_eq; omega)
      have hroot : Contained q (q.h 1) := ⟨1, le_refl 1, by omega, rfl⟩
      refine ⟨?_, ?_, ?_, ?_⟩
      · simp only [List.length_cons, ih.length_eq]; exact hR.n_eq
      · intro x
        simp only [List.mem_cons, ih.mem, hR.contained]
        constructor
        · rintro (rfl | ⟨h, _⟩)
          · exact hroot
          · exact h
        · intro h
          by_cases hx : x = q.h 1
          · exact Or.inl hx
          · exact Or.inr ⟨h, hx⟩
      · refine List.nodup_cons.2 ⟨?_, ih.nodup⟩
        intro hm
        exact ((hR.contained _).1 ((ih.mem _).1 hm)).2 rfl
      · refine List.pairwise_cons.2 ⟨?_, ?_⟩
        · intro b hb
          exact first_min hq ((hR.contained b).1 ((ih.mem b).1 hb)).1
        · refine ih.sorted.imp ?_
          intro a b hab
          rw [hR.frame.key a, hR.frame.key b] at hab
          exact hab

theorem drain_spec {q : cMessageHeap} (hq : Inv q) : Drained q (drain q) :=
  drainLoop_spec (q.n + 1) q hq (Nat.lt_succ_self _)

theorem drainLoop_fuel : ∀ (fuel : ℕ) (q : cMessageHeap), Inv q → q.n < fuel →
    drainLoop fuel q = drain q
  | 0, _, _, hf => absurd hf (Nat.not_lt_zero _)
  | fuel + 1, q, hq, hf => by
    unfold drain
    by_cases hn : q.n = 0
    · unfold drainLoop
      rw [removeFirst_none q hn]
    · have hR : Removed q (q.h 1) (removeAt q 1) :=
        removeAt_spec hq (le_refl 1) (by omega)
      obtain ⟨m, hm⟩ : ∃ m, q.n = m + 1 := ⟨q.n - 1, by omega⟩
      rw [hm]
      show drainLoop (fuel + 1) q = drainLoop (m + 1 + 1) q
      unfold drainLoop
      rw [removeFirst_eq q hn]
      have hn2 : (removeAt q 1).n = m := by have := hR.n_eq; omega
      show q.h 1 :: drainLoop fuel (removeAt q 1) = q.h 1 :: drainLoop (m + 1) (removeAt q 1)
      rw [drainLoop_fuel fuel (removeAt q 1) hR.inv (by omega)]
      unfold drain
      rw [hn2]

theorem popN_spec : ∀ (k : ℕ) (q : cMessageHeap), Inv q →
    Inv (popN k q) ∧ (popN k q).n = q.n - k ∧ Frame q (popN k q)
  | 0, q, hq => ⟨hq, rfl, Frame.refl q⟩
  | k + 1, q, hq => by
    show Inv (popN k (removeFirst q).2) ∧ (popN k (removeFirst q).2).n = _ ∧
      Frame q (popN k (removeFirst q).2)
    by_cases hn : q.n = 0
    · rw [removeFirst_none q hn]
      obtain ⟨a, b, c⟩ := popN_spec k q hq
      exact ⟨a, by rw [b]; omega, c⟩
    · have hR := removeFirst_spec hq hn
      obtain ⟨a, b, c⟩ := popN_spec k _ hR.inv
      exact ⟨a, by rw [b]; have := hR.n_eq; omega, hR.frame.comp c⟩

/-! ## Inserting a list of events -/

theorem key_le_timePrio {a b : cEvent} (h : a.key ≤ b.key) : a.timePrio ≤ b.timePrio := by
  unfold cEvent.key at h
  unfold cEvent.timePrio
  rw [Prod.Lex.le_iff] at h ⊢
  rcases h with h | ⟨h, h3⟩
  · exact Or.inl h
  · right
    refine ⟨h, ?_⟩
    rw [Prod.Lex.le_iff] at h3
    rcases h3 with h3 | ⟨h3, _⟩
    · exact le_of_lt h3
    · exact le_of_eq h3

theorem Inserted.timePrio_same {q r : cMessageHeap} {e : EventId} (h : Inserted q e r)
    (x : EventId) : (r.ev x).timePrio = (q.ev x).timePrio := by
  by_cases hx : x = e
  · subst hx
    obtain ⟨i, hi⟩ := h.stamped
    rw [hi]; rfl
  · obtain ⟨i, hi⟩ := h.frame x hx
    rw [hi]; rfl

theorem Inserted.stale_same {q r : cMessageHeap} {e : EventId} (h : Inserted q e r)
    (x : EventId) : (r.ev x).stale = (q.ev x).stale := by
  by_cases hx : x = e
  · subst hx
    obtain ⟨i, hi⟩ := h.stamped
    rw [hi]
  · obtain ⟨i, hi⟩ := h.frame x hx
    rw [hi]

theorem insertAll_spec : ∀ (es : List EventId) (q : cMessageHeap), Inv q → es.Nodup →
    (∀ e ∈ es, (q.ev e).heapindex = -1) →
    ∃ r, insertAll q es = .ok r ∧ InsertedAll q es r
  | [], q, hq, _, _ =>
    ⟨q, rfl, hq, rfl, fun x => by simp, fun _ => rfl, fun _ => rfl, fun _ _ _ => rfl⟩
  | e :: es, q, hq, hnd, hfresh => by
    obtain ⟨r1, hr1, hI⟩ := insert_spec hq (hfresh e (List.mem_cons_self _ _))
    have hnd2 := List.nodup_cons.1 hnd
    have hfresh1 : ∀ x ∈ es, (r1.ev x).heapindex = -1 := by
      intro x hx
      have hs := hfresh x (List.mem_cons_of_mem _ hx)
      rw [hI.untouched x (not_contained_of_sentinel hq.2 hs)
        (fun he => hnd2.1 (he ▸ hx))]
      exact hs
    obtain ⟨r, hr, hA⟩ := insertAll_spec es r1 hI.inv hnd2.2 hfresh1
    refine ⟨r, ?_, hA.inv, ?_, ?_, ?_, ?_, ?_⟩
    · rw [insertAll, hr1]; exact hr
    · rw [hA.n_eq, hI.n_eq, List.length_cons]; omega
    · intro x
      rw [hA.contained, hI.contained, List.mem_cons, or_assoc]
    · intro x; rw [hA.timePrio, hI.timePrio_same]
    · intro x; rw [hA.stale, hI.stale_same]
    · intro x hx hxe
      rw [List.mem_cons, not_or] at hxe
      rw [hA.untouched x (fun hc => by
        rcases (hI.contained x).1 hc with h | h
        · exact hx h
        · exact hxe.1 h) hxe.2]
      exact hI.untouched x hx hxe.1

theorem emptyHeap_inv (ev : EventId → cEvent) : Inv (emptyHeap ev) :=
  ⟨fun i hi hin => by simp [emptyHeap] at hin; omega,
   fun i hi hin => by simp [emptyHeap] at hin; omega⟩

theorem emptyHeap_not_contained (ev : EventId → cEvent) (x : EventId) :
    ¬ Contained (emptyHeap ev) x := by
  rintro ⟨i, hi, hin, _⟩
  simp [emptyHeap] at hin
  omega

theorem strict_of_sorted {α β : Type} [LinearOrder β] (f : α → β) (l : List α)
    (h1 : l.Pairwise (fun a b => f a ≤ f b)) (h2 : (l.map f).Nodup) :
    l.Pairwise (fun a b => f a < f b) := by
  have h3 : l.Pairwise (fun a b => f a ≠ f b) := List.pairwise_map.1 h2
  exact (h1.and h3).imp (fun h => lt_of_le_of_ne h.1 h.2)

theorem eq_of_strict_sorted {α β : Type} [LinearOrder β] (f : α → β) (l1 l2 : List α)
    (hp : l1.Perm l2) (h1 : l1.Pairwise (fun a b => f a < f b))
    (h2 : l2.Pairwise (fun a b => f a < f b)) : l1 = l2 := by
  haveI : IsAntisymm α (fun a b => f a < f b) :=
    ⟨fun a b hab hba => absurd hab (lt_asymm hba)⟩
  exact List.eq_of_perm_of_sorted hp h1 h2

/-- C1: for every finite sequence of events, none of them in a heap, with
pairwise distinct (deliveryTime, priority) pairs, inserting them into an empty
heap succeeds, and calling removeFirst until it returns NULL yields the inputs
sorted by (deliveryTime, priority): every inserted event exactly once, in
strictly ascending order; the call after the last event returns NULL. -/
theorem C1_pop_order (ev : EventId → cEvent) (es : List EventId)
    (hfresh : ∀ e ∈ es, (ev e).heapindex = -1)
    (hdist : (es.map (fun e => (ev e).timePrio)).Nodup) :
    ∃ q, insertAll (emptyHeap ev) es = .ok q ∧
      drain q = es.insertionSort (fun a b => (ev a).timePrio ≤ (ev b).timePrio) ∧
      (drain q).Perm es ∧
      (drain q).Pairwise (fun a b => (ev a).timePrio < (ev b).timePrio) ∧
      (removeFirst (popN es.length q)).1 = none := by
  have hnd : es.Nodup := List.Nodup.of_map _ hdist
  obtain ⟨q, hq, hA⟩ := insertAll_spec es (emptyHeap ev) (emptyHeap_inv ev) hnd hfresh
  have hD := drain_spec hA.inv
  have hperm : (drain q).Perm es := by
    rw [List.perm_ext_iff_of_nodup hD.nodup hnd]
    intro x
    rw [hD.mem, hA.contained]
    constructor
    · rintro (h | h)
      · exact absurd h (emptyHeap_not_contained ev x)
      · exact h
    · exact Or.inr
  have hle : (drain q).Pairwise (fun a b => (ev a).timePrio ≤ (ev b).timePrio) := by
    refine hD.sorted.imp ?_
    intro a b hab
    have := key_le_timePrio hab
    rw [hA.timePrio, hA.timePrio] at this
    exact this
  have hlt := strict_of_sorted (fun e => (ev e).timePrio) (drain q) hle
    ((hperm.map _).nodup_iff.2 hdist)
  haveI : IsTotal EventId (fun a b => (ev a).timePrio ≤ (ev b).timePrio) :=
    ⟨fun a b => le_total _ _⟩
  haveI : IsTrans EventId (fun a b => (ev a).timePrio ≤ (ev b).timePrio) :=
    ⟨fun a b c => le_trans⟩
  have hs := List.sorted_insertionSort (fun a b => (ev a).timePrio ≤ (ev b).timePrio) es
  have hp2 := List.perm_insertionSort (fun a b => (ev a).timePrio ≤ (ev b).timePrio) es
  have hlt2 := strict_of_sorted (fun e => (ev e).timePrio) _ hs
    ((hp2.map _).nodup_iff.2 hdist)
  refine ⟨q, hq, eq_of_strict_sorted _ _ _ (hperm.trans hp2.symm) hlt hlt2, hperm, hlt, ?_⟩
  obtain ⟨_, hn, _⟩ := popN_spec es.length q hA.inv
  rw [removeFirst_none _ (by rw [hn, hA.n_eq]; simp [emptyHeap])]

/-- Instance of C1 with three events due at times 4, 6 and 5. -/
theorem C1_pop_order_witness :
    (∀ e ∈ [3, 1, 2], (sampleEvents e).heapindex = -1) ∧
    ([3, 1, 2].map (fun e => (sampleEvents e).timePrio)).Nodup ∧
    ∃ q, insertAll (emptyHeap sampleEvents) [3, 1, 2] = .ok q ∧
      drain q = [3, 1, 2].insertionSort
        (fun a b => (sampleEvents a).timePrio ≤ (sampleEvents b).timePrio) ∧
      (drain q).Perm [3, 1, 2] ∧
      (drain q).Pairwise (fun a b => (sampleEvents a).timePrio < (sampleEvents b).timePrio) ∧
      (removeFirst (popN [3, 1, 2].length q)).1 = none :=
  ⟨by decide, by decide, C1_pop_order sampleEvents [3, 1, 2] (by decide) (by decide)⟩

theorem afterInsert_ok {q : cMessageHeap} (hq : Inv q) {e : EventId}
    (he : (q.ev e).heapindex = -1) : Inserted q e (afterInsert q e) := by
  obtain ⟨r, hr, hI⟩ := insert_spec hq he
  unfold afterInsert
  rw [hr]
  exact hI

theorem afterInsert_error (q : cMessageHeap) (e : EventId)
    (he : (q.ev e).heapindex ≠ -1) : afterInsert q e = q := by
  unfold afterInsert insert
  rw [if_pos he]

theorem modify_inv (q : cMessageHeap) (e : EventId) (c : cEvent) (hq : Inv q)
    (hs : Sentinel q) : Inv (modify q e c) ∧ Sentinel (modify q e c) := by
  unfold modify
  split_ifs with he
  · have hne := not_contained_of_sentinel hq.2 he
    have hev : ∀ i, 1 ≤ i → i ≤ q.n →
        Function.update q.ev e { c with heapindex := -1 } (q.h i) = q.ev (q.h i) := by
      intro i hi hin
      exact Function.update_noteq (fun h => hne ⟨i, hi, hin, h⟩) _ _
    refine ⟨⟨?_, ?_⟩, ?_⟩
    · intro i hi hin
      have hin2 : i ≤ q.n := hin
      show (Function.update q.ev e _ (q.h (i / 2))).key ≤ (Function.update q.ev e _ (q.h i)).key
      rw [hev i (by omega) hin2, hev (i / 2) (by omega) (by omega)]
      exact hq.1 i hi hin2
    · intro i hi hin
      show (Function.update q.ev e _ (q.h i)).heapindex = _
      rw [hev i hi hin]
      exact hq.2 i hi hin
    · intro x hx
      show (Function.update q.ev e _ x).heapindex = -1
      by_cases hxe : x = e
      · subst hxe; simp
      · rw [Function.update_noteq hxe]
        exact hs x hx
  · exact ⟨hq, hs⟩

theorem call_inv (q : cMessageHeap) (c : Call) (hq : Inv q) (hs : Sentinel q) :
    Inv (call q c) ∧ Sentinel (call q c) := by
  cases c with
  | insert e =>
    show Inv (afterInsert q e) ∧ Sentinel (afterInsert q e)
    by_cases he : (q.ev e).heapindex = -1
    · have hI := afterInsert_ok hq he
      refine ⟨hI.inv, ?_⟩
      intro x hx
      have hx2 : ¬ Contained q x ∧ x ≠ e := by
        constructor
        · exact fun h => hx ((hI.contained x).2 (Or.inl h))
        · exact fun h => hx ((hI.contained x).2 (Or.inr h))
      rw [hI.untouched x hx2.1 hx2.2]
      exact hs x hx2.1
    · rw [afterInsert_error q e he]
      exact ⟨hq, hs⟩
  | removeFirst =>
    show Inv (removeFirst q).2 ∧ Sentinel (removeFirst q).2
    by_cases hn : q.n = 0
    · rw [removeFirst_none q hn]; exact ⟨hq, hs⟩
    · have hR := removeFirst_spec hq hn
      refine ⟨hR.inv, ?_⟩
      intro x hx
      by_cases hxe : x = q.h 1
      · rw [hxe]; exact hR.cleared
      · have : ¬ Contained q x := fun h => hx ((hR.contained x).2 ⟨h, hxe⟩)
        rw [hR.untouched x this]
        exact hs x this
  | get e =>
    show Inv (get q e).2 ∧ Sentinel (get q e).2
    by_cases hc : Contained q e
    · have hR := (get_spec hq hc).2
      refine ⟨hR.inv, ?_⟩
      intro x hx
      by_cases hxe : x = e
      · rw [hxe]; exact hR.cleared
      · have : ¬ Contained q x := fun h => hx ((hR.contained x).2 ⟨h, hxe⟩)
        rw [hR.untouched x this]
        exact hs x this
    · rw [get_none q e hc]; exact ⟨hq, hs⟩
  | modify e c => exact modify_inv q e c hq hs

theorem run_inv : ∀ (cs : List Call) (q : cMessageHeap), Inv q → Sentinel q →
    Inv (run q cs) ∧ Sentinel (run q cs)
  | [], _, hq, hs => ⟨hq, hs⟩
  | c :: cs, q, hq, hs => by
    obtain ⟨a, b⟩ := call_inv q c hq hs
    exact run_inv cs (call q c) a b

theorem Reachable.inv {q : cMessageHeap} (h : Reachable q) : Inv q ∧ Sentinel q := by
  obtain ⟨ev, cs, hev, rfl⟩ := h
  exact run_inv cs _ (emptyHeap_inv ev) (fun e _ => hev e)

/-- C2: in every heap state reachable from the empty heap by a finite
sequence of insert, removeFirst and get calls (and changes of events that are
in no heap), the key (deliveryTime, priority, insertionSequence) of the event
in every non-root slot i is at least the key of the event in slot i / 2. -/
theorem C2_heap_order (q : cMessageHeap) (hq : Reachable q) (i : ℕ) (hi : 2 ≤ i)
    (hin : i ≤ q.n) : (q.ev (q.h (i / 2))).key ≤ (q.ev (q.h i)).key :=
  hq.inv.1.1 i hi hin

theorem sampleHeap_reachable : Reachable sampleHeap :=
  ⟨sampleEvents, _, fun _ => rfl, rfl⟩

/-- Instance of C2: slot 3 of the sample heap. -/
theorem C2_heap_order_witness :
    Reachable sampleHeap ∧ 2 ≤ 3 ∧ 3 ≤ sampleHeap.n ∧
    (sampleHeap.ev (sampleHeap.h (3 / 2))).key ≤ (sampleHeap.ev (sampleHeap.h 3)).key :=
  ⟨sampleHeap_reachable, by decide, by decide!,
    C2_heap_order sampleHeap sampleHeap_reachable 3 (by decide) (by decide!)⟩

theorem call_frame (q : cMessageHeap) (c : Call) (hq : Inv q) {a : EventId}
    (ha : Contained q a) : ∃ i : ℤ, (call q c).ev a = { q.ev a with heapindex := i } := by
  have hidx := (ha.heapindex hq.2).2.2.2
  cases c with
  | insert e =>
    show ∃ i : ℤ, (afterInsert q e).ev a = _
    by_cases he : (q.ev e).heapindex = -1
    · exact (afterInsert_ok hq he).frame a (fun h => hidx (by rw [h]; exact he))
    · rw [afterInsert_error q e he]; exact ⟨_, rfl⟩
  | removeFirst =>
    show ∃ i : ℤ, (removeFirst q).2.ev a = _
    by_cases hn : q.n = 0
    · rw [removeFirst_none q hn]; exact ⟨_, rfl⟩
    · exact (removeFirst_spec hq hn).frame a
  | get e =>
    show ∃ i : ℤ, (get q e).2.ev a = _
    by_cases hc : Contained q e
    · exact (get_spec hq hc).2.frame a
    · rw [get_none q e hc]; exact ⟨_, rfl⟩
  | modify e c =>
    show ∃ i : ℤ, (modify q e c).ev a = _
    unfold modify
    split_ifs with he
    · exact ⟨_, by
        show Function.update q.ev e _ a = _
        rw [Function.update_noteq (fun h => hidx (by rw [h]; exact he))]⟩
    · exact ⟨_, rfl⟩

theorem run_keeps : ∀ (cs : List Call) (q : cMessageHeap) (a : EventId), Inv q →
    Sentinel q → Keeps q cs a →
    Contained (run q cs) a ∧ ∃ i : ℤ, (run q cs).ev a = { q.ev a with heapindex := i }
  | [], q, a, _, _, hk => ⟨hk, _, rfl⟩
  | c :: cs, q, a, hq, hs, hk => by
    obtain ⟨h1, h2⟩ := call_inv q c hq hs
    obtain ⟨hc, i, hi⟩ := run_keeps cs (call q c) a h1 h2 hk.2
    obtain ⟨j, hj⟩ := call_frame q c hq hk.1
    exact ⟨hc, i, by show (run (call q c) cs).ev a = _; rw [hi, hj]⟩

theorem call_cntr (q : cMessageHeap) (c : Call) (hq : Inv q) :
    (call q c).insertcntr = q.insertcntr ∨
      (inserts [c] = 1 ∧ (call q c).insertcntr = (q.insertcntr + 1) % ULONG_RANGE) := by
  cases c with
  | insert e =>
    by_cases he : (q.ev e).heapindex = -1
    · exact Or.inr ⟨rfl, (afterInsert_ok hq he).cntr⟩
    · left; show (afterInsert q e).insertcntr = _; rw [afterInsert_error q e he]
  | removeFirst =>
    left
    show (removeFirst q).2.insertcntr = _
    by_cases hn : q.n = 0
    · rw [removeFirst_none q hn]
    · exact (removeFirst_spec hq hn).cntr
  | get e =>
    left
    show (get q e).2.insertcntr = _
    by_cases hc : Contained q e
    · exact (get_spec hq hc).2.cntr
    · rw [get_none q e hc]
  | modify e c =>
    left
    show (modify q e c).insertcntr = _
    unfold modify
    split_ifs <;> rfl

theorem inserts_cons (c : Call) (cs : List Call) : inserts (c :: cs) = inserts [c] + inserts cs := by
  cases c <;> simp [inserts, Nat.add_comm]

theorem run_cntr : ∀ (cs : List Call) (q : cMessageHeap), Inv q → Sentinel q →
    q.insertcntr + inserts cs < ULONG_RANGE →
    q.insertcntr ≤ (run q cs).insertcntr ∧ (run q cs).insertcntr ≤ q.insertcntr + inserts cs
  | [], q, _, _, _ => ⟨le_refl _, le_refl _⟩
  | c :: cs, q, hq, hs, hw => by
    obtain ⟨h1, h2⟩ := call_inv q c hq hs
    rw [inserts_cons] at hw ⊢
    show q.insertcntr ≤ (run (call q c) cs).insertcntr ∧ (run (call q c) cs).insertcntr ≤ _
    rcases call_cntr q c hq with h | ⟨hc, h⟩
    · have := run_cntr cs (call q c) h1 h2 (by rw [h]; omega)
      rw [h] at this
      omega
    · rw [Nat.mod_eq_of_lt (by omega)] at h
      have := run_cntr cs (call q c) h1 h2 (by rw [h]; omega)
      rw [h] at this
      omega

theorem before_of_sorted {α : Type} (R : α → α → Prop) :
    ∀ (l : List α) (a b : α), l.Pairwise R → a ∈ l → b ∈ l → ¬ R b a → a ≠ b →
      ∃ l1 l2 l3, l = l1 ++ a :: (l2 ++ b :: l3)
  | [], _, _, _, ha, _, _, _ => by cases ha
  | x :: l, a, b, hp, ha, hb, hr, hab => by
    rw [List.pairwise_cons] at hp
    rcases List.mem_cons.1 ha with rfl | ha'
    · rcases List.mem_cons.1 hb with h | hb'
      · exact absurd h.symm hab
      · obtain ⟨l2, l3, h⟩ := List.append_of_mem hb'
        exact ⟨[], l2, l3, by rw [h]; rfl⟩
    · rcases List.mem_cons.1 hb with rfl | hb'
      · exact absurd (hp.1 a ha') hr
      · obtain ⟨l1, l2, l3, h⟩ := before_of_sorted R l a b hp.2 ha' hb' hr hab
        exact ⟨x :: l1, l2, l3, by rw [h]; rfl⟩

/-- C3: events A and B have identical deliveryTime and priority; A is
inserted into a reachable heap, then calls follow that do not remove A, then B
is inserted, then calls follow that remove neither. The insertion counter, an
unsigned long, has not run through its 2^64 values up to the insertion of B,
which holds in every run of fewer than 2^64 insertions. Then removeFirst does
not return B while A is in the heap, and draining the heap returns A before
B. -/
theorem C3_fifo_tie_break (q0 q1 q2 q3 q4 : cMessageHeap) (A B : EventId)
    (cs1 cs2 : List Call) (hq0 : Reachable q0)
    (hA : (q0.ev A).heapindex = -1) (h1 : q1 = afterInsert q0 A)
    (hk1 : Keeps q1 cs1 A) (h2 : q2 = run q1 cs1)
    (hB : (q2.ev B).heapindex = -1) (h3 : q3 = afterInsert q2 B)
    (hk2 : Keeps q3 cs2 A ∧ Keeps q3 cs2 B) (h4 : q4 = run q3 cs2)
    (htie : (q4.ev A).timePrio = (q4.ev B).timePrio)
    (hwrap : q0.insertcntr + 1 + inserts cs1 < ULONG_RANGE) :
    (removeFirst q4).1 ≠ some B ∧
      ∃ l1 l2 l3, drain q4 = l1 ++ A :: (l2 ++ B :: l3) := by
  obtain ⟨hi0, hs0⟩ := hq0.inv
  have hI1 := afterInsert_ok hi0 hA
  rw [← h1] at hI1
  have hs1 : Sentinel q1 := by
    rw [h1]; exact (call_inv q0 (.insert A) hi0 hs0).2
  obtain ⟨hi2, hs2⟩ : Inv q2 ∧ Sentinel q2 := by rw [h2]; exact run_inv cs1 q1 hI1.inv hs1
  have hI3 := afterInsert_ok hi2 hB
  rw [← h3] at hI3
  have hs3 : Sentinel q3 := by
    rw [h3]; exact (call_inv q2 (.insert B) hi2 hs2).2
  obtain ⟨hi4, _⟩ : Inv q4 ∧ Sentinel q4 := by rw [h4]; exact run_inv cs2 q3 hI3.inv hs3
  -- the sequence numbers
  obtain ⟨hcA2, iA2, hA2⟩ := run_keeps cs1 q1 A hI1.inv hs1 hk1
  rw [← h2] at hcA2 hA2
  obtain ⟨hcA4, iA4, hA4⟩ := run_keeps cs2 q3 A hI3.inv hs3 hk2.1
  obtain ⟨hcB4, iB4, hB4⟩ := run_keeps cs2 q3 B hI3.inv hs3 hk2.2
  rw [← h4] at hcA4 hA4 hcB4 hB4
  have hAB : A ≠ B := by
    intro h
    have := (hcA2.heapindex hi2.2).2.2.2
    rw [h] at this
    exact this hB
  obtain ⟨iA1, hA1⟩ := hI1.stamped
  obtain ⟨iA3, hA3⟩ := hI3.frame A hAB
  obtain ⟨iB3, hB3⟩ := hI3.stamped
  have hc1 : q1.insertcntr = q0.insertcntr + 1 := by
    rw [hI1.cntr, Nat.mod_eq_of_lt (by omega)]
  have hc2 := run_cntr cs1 q1 hI1.inv hs1 (by rw [hc1]; omega)
  rw [← h2, hc1] at hc2
  have hoA : (q4.ev A).insertordr = q0.insertcntr := by
    rw [hA4, hA3, hA2, hA1]
  have hoB : (q4.ev B).insertordr = q2.insertcntr := by
    rw [hB4, hB3]
  have hlt : (q4.ev A).key < (q4.ev B).key := by
    unfold cEvent.timePrio at htie
    have ht := congrArg (fun p => (ofLex p).1) htie
    have hp := congrArg (fun p => (ofLex p).2) htie
    simp only [ofLex_toLex] at ht hp
    unfold cEvent.key
    rw [Prod.Lex.lt_iff]
    right
    refine ⟨ht, ?_⟩
    rw [Prod.Lex.lt_iff]
    right
    refine ⟨hp, ?_⟩
    show (q4.ev A).insertordr < (q4.ev B).insertordr
    rw [hoA, hoB]
    omega
  have hn4 : q4.n ≠ 0 := by
    obtain ⟨i, hi, hin, _⟩ := hcA4
    omega
  constructor
  · rw [removeFirst_eq q4 hn4]
    intro h
    have hB1 : q4.h 1 = B := Option.some.inj h
    have := first_min hi4 hcA4
    rw [hB1] at this
    exact absurd hlt (not_lt.2 this)
  · have hD := drain_spec hi4
    exact before_of_sorted _ (drain q4) A B hD.sorted ((hD.mem A).2 hcA4)
      ((hD.mem B).2 hcB4) (not_le.2 hlt) hAB

/-- Instance of C3: the tied events 1 and 2, with an insertion and a
cancellation of other events in between. -/
theorem C3_fifo_tie_break_witness :
    Keeps (afterInsert (emptyHeap tiedEvents) 1) [.insert 3] 1 ∧
    (Keeps (afterInsert tieHeap2 2) [.insert 4, .get 3] 1 ∧
      Keeps (afterInsert tieHeap2 2) [.insert 4, .get 3] 2) ∧
    ((removeFirst tieHeap4).1 ≠ some 2 ∧
      ∃ l1 l2 l3, drain tieHeap4 = l1 ++ 1 :: (l2 ++ 2 :: l3)) :=
  ⟨by decide!, by decide!,
    C3_fifo_tie_break (emptyHeap tiedEvents) _ tieHeap2 _ tieHeap4 1 2 [.insert 3]
      [.insert 4, .get 3] ⟨tiedEvents, [], fun _ => rfl, rfl⟩ (by decide!) rfl (by decide!) rfl
      (by decide!) rfl (by decide!) rfl (by decide!) (by decide!)⟩

theorem getAll_spec : ∀ (cs : List EventId) (q : cMessageHeap), Inv q → cs.Nodup →
    (∀ e ∈ cs, Contained q e) →
    (getAll q cs).1 = cs.map some ∧ Inv (getAll q cs).2 ∧
      (∀ x, Contained (getAll q cs).2 x ↔ Contained q x ∧ x ∉ cs) ∧
      Frame q (getAll q cs).2
  | [], q, hq, _, _ => ⟨rfl, hq, fun x => by simp [getAll], Frame.refl q⟩
  | e :: cs, q, hq, hnd, hc => by
    obtain ⟨hr, hR⟩ := get_spec hq (hc e (List.mem_cons_self _ _))
    have hnd2 := List.nodup_cons.1 hnd
    obtain ⟨a, b, c, d⟩ := getAll_spec cs (get q e).2 hR.inv hnd2.2 (by
      intro x hx
      exact (hR.contained x).2 ⟨hc x (List.mem_cons_of_mem _ hx), fun h => hnd2.1 (h ▸ hx)⟩)
    refine ⟨?_, b, ?_, hR.frame.comp d⟩
    · show (get q e).1 :: (getAll (get q e).2 cs).1 = _
      rw [hr, a]; rfl
    · intro x
      show Contained (getAll (get q e).2 cs).2 x ↔ _
      rw [c, hR.contained, List.mem_cons, not_or, and_assoc]

/-- C4: the events of a duplicate-free list, none of them in a heap, are
inserted into an empty heap; then get(e) is called for the events of a
duplicate-free sublist cs, in the order of cs. Every such call returns its
event, and calling removeFirst until it returns NULL then yields exactly the
inserted events that are not in cs, each once, in ascending key order. -/
theorem C4_cancellation (ev : EventId → cEvent) (es cs : List EventId)
    (hfresh : ∀ e ∈ es, (ev e).heapindex = -1) (hes : es.Nodup) (hcs : cs.Nodup)
    (hsub : ∀ e ∈ cs, e ∈ es) :
    ∃ q, insertAll (emptyHeap ev) es = .ok q ∧
      (getAll q cs).1 = cs.map some ∧
      (drain (getAll q cs).2).Perm (es.filter (fun e => e ∉ cs)) ∧
      (drain (getAll q cs).2).Pairwise (fun a b => (q.ev a).key ≤ (q.ev b).key) ∧
      (removeFirst (popN (es.length - cs.length) (getAll q cs).2)).1 = none := by
  obtain ⟨q, hq, hA⟩ := insertAll_spec es (emptyHeap ev) (emptyHeap_inv ev) hes hfresh
  have hin : ∀ x, Contained q x ↔ x ∈ es := by
    intro x
    rw [hA.contained]
    constructor
    · rintro (h | h)
      · exact absurd h (emptyHeap_not_contained ev x)
      · exact h
    · exact Or.inr
  obtain ⟨a, b, c, d⟩ := getAll_spec cs q hA.inv hcs (fun e he => (hin e).2 (hsub e he))
  have hD := drain_spec b
  refine ⟨q, hq, a, ?_, ?_, ?_⟩
  · rw [List.perm_ext_iff_of_nodup hD.nodup (hes.filter _)]
    intro x
    rw [hD.mem, c, hin, List.mem_filter]
    simp
  · refine hD.sorted.imp ?_
    intro x y hxy
    rw [d.key, d.key] at hxy
    exact hxy
  · obtain ⟨_, hn, _⟩ := popN_spec (es.length - cs.length) _ b
    refine congrArg Prod.fst (removeFirst_none _ ?_)
    rw [hn, ← hD.length_eq]
    have hp : (drain (getAll q cs).2).Perm (es.filter (fun e => e ∉ cs)) := by
      rw [List.perm_ext_iff_of_nodup hD.nodup (hes.filter _)]
      intro x
      rw [hD.mem, c, hin, List.mem_filter]
      simp
    rw [hp.length_eq]
    have h1 : (es.filter (fun e => e ∉ cs)).length + cs.length = es.length := by
      have hperm : (es.filter (fun e => decide (e ∉ cs)) ++ cs).Perm es := by
        rw [List.perm_ext_iff_of_nodup _ hes]
        · intro x
          rw [List.mem_append, List.mem_filter]
          constructor
          · rintro (⟨h, _⟩ | h)
            · exact h
            · exact hsub x h
          · intro h
            by_cases hx : x ∈ cs
            · exact Or.inr hx
            · exact Or.inl ⟨h, by simpa using hx⟩
        · refine List.Nodup.append (hes.filter _) hcs ?_
          intro x h1 h2
          rw [List.mem_filter] at h1
          simp at h1
          exact h1.2 h2
      have := hperm.length_eq
      rw [List.length_append] at this
      exact this
    omega

/-- Instance of C4: the events 1..5 are inserted, 4 and 2 are cancelled. -/
theorem C4_cancellation_witness :
    (∀ e ∈ [1, 2, 3, 4, 5], (sampleEvents e).heapindex = -1) ∧ [1, 2, 3, 4, 5].Nodup ∧
    [4, 2].Nodup ∧ (∀ e ∈ [4, 2], e ∈ [1, 2, 3, 4, 5]) ∧
    ∃ q, insertAll (emptyHeap sampleEvents) [1, 2, 3, 4, 5] = .ok q ∧
      (getAll q [4, 2]).1 = [4, 2].map some ∧
      (drain (getAll q [4, 2]).2).Perm ([1, 2, 3, 4, 5].filter (fun e => e ∉ [4, 2])) ∧
      (drain (getAll q [4, 2]).2).Pairwise (fun a b => (q.ev a).key ≤ (q.ev b).key) ∧
      (removeFirst (popN ([1, 2, 3, 4, 5].length - [4, 2].length) (getAll q [4, 2]).2)).1
        = none :=
  ⟨by decide, by decide, by decide, by decide,
    C4_cancellation sampleEvents [1, 2, 3, 4, 5] [4, 2] (by decide) (by decide) (by decide)
      (by decide)⟩

/-! ## Pop order -/

theorem drain_nil (q : cMessageHeap) (hn : q.n = 0) : drain q = [] := by
  unfold drain
  rw [hn]
  show drainLoop 1 q = []
  unfold drainLoop
  rw [removeFirst_none q hn]

theorem drain_cons {q : cMessageHeap} (hq : Inv q) (hn : q.n ≠ 0) :
    drain q = q.h 1 :: drain (removeFirst q).2 := by
  have hR : Removed q (q.h 1) (removeAt q 1) := removeAt_spec hq (le_refl 1) (by omega)
  rw [← drainLoop_fuel (q.n + 1) q hq (Nat.lt_succ_self _)]
  unfold drainLoop
  rw [removeFirst_eq q hn]
  show q.h 1 :: drainLoop q.n (removeAt q 1) = q.h 1 :: drain (removeAt q 1)
  rw [drainLoop_fuel q.n (removeAt q 1) hR.inv (by have := hR.n_eq; omega)]

theorem removeFirst_inv {q : cMessageHeap} (hq : Inv q) : Inv (removeFirst q).2 := by
  by_cases hn : q.n = 0
  · rw [removeFirst_none q hn]; exact hq
  · exact (removeFirst_spec hq hn).inv

theorem drain_popN : ∀ (k : ℕ) (q : cMessageHeap), Inv q →
    drain (popN k q) = (drain q).drop k
  | 0, _, _ => rfl
  | k + 1, q, hq => by
    show drain (popN k (removeFirst q).2) = _
    rw [drain_popN k _ (removeFirst_inv hq)]
    by_cases hn : q.n = 0
    · rw [removeFirst_none q hn, drain_nil q hn]; simp
    · rw [drain_cons hq hn]; rfl

theorem split_first {α : Type} (P : α → Prop) [DecidablePred P] :
    ∀ (l : List α), (∃ x ∈ l, ¬ P x) →
      ∃ pre e post, l = pre ++ e :: post ∧ (∀ x ∈ pre, P x) ∧ ¬ P e
  | [], h => by obtain ⟨x, hx, _⟩ := h; cases hx
  | a :: l, h => by
    by_cases ha : P a
    · have : ∃ x ∈ l, ¬ P x := by
        obtain ⟨x, hx, hpx⟩ := h
        rcases List.mem_cons.1 hx with rfl | hx
        · exact absurd ha hpx
        · exact ⟨x, hx, hpx⟩
      obtain ⟨pre, e, post, h1, h2, h3⟩ := split_first P l this
      refine ⟨a :: pre, e, post, by rw [h1]; rfl, ?_, h3⟩
      intro x hx
      rcases List.mem_cons.1 hx with rfl | hx
      · exact ha
      · exact h2 x hx
    · exact ⟨[], a, l, rfl, fun x hx => absurd hx (List.not_mem_nil x), ha⟩

/-! ## The sequential scheduler -/

theorem seq_loop_spec : ∀ (pre : List EventId) (s : RunState) (fuel : ℕ) (e : EventId)
    (post : List EventId), Inv s.msgQueue → s.msgQueue.n < fuel →
    drain s.msgQueue = pre ++ e :: post →
    (∀ x ∈ pre, (s.msgQueue.ev x).stale = true) → (s.msgQueue.ev e).stale = false →
    cSequentialScheduler.loop fuel s =
      (.event e, { s with msgQueue := popN (pre.length + 1) s.msgQueue
                          deleted := pre.reverse ++ s.deleted })
  | pre, s, 0, _, _, _, hf, _, _, _ => absurd hf (Nat.not_lt_zero _)
  | [], s, fuel + 1, e, post, hq, _, hd, _, he => by
    have hn : s.msgQueue.n ≠ 0 := by
      intro h0
      rw [drain_nil _ h0] at hd
      cases hd
    rw [drain_cons hq hn] at hd
    have h1 : s.msgQueue.h 1 = e := (List.cons.inj hd).1
    have hR := removeFirst_spec hq hn
    unfold cSequentialScheduler.loop
    have hfst : (removeFirst s.msgQueue).1 = some e := by rw [removeFirst_eq _ hn, h1]
    simp only [hfst]
    rw [if_neg (by rw [hR.frame.stale_eq, he]; simp)]
    rfl
  | x :: pre, s, fuel + 1, e, post, hq, hf, hd, hpre, he => by
    have hn : s.msgQueue.n ≠ 0 := by
      intro h0
      rw [drain_nil _ h0] at hd
      cases hd
    rw [drain_cons hq hn] at hd
    have h1 : s.msgQueue.h 1 = x := (List.cons.inj hd).1
    have hd2 : drain (removeFirst s.msgQueue).2 = pre ++ e :: post := (List.cons.inj hd).2
    have hR := removeFirst_spec hq hn
    unfold cSequentialScheduler.loop
    have hfst : (removeFirst s.msgQueue).1 = some x := by rw [removeFirst_eq _ hn, h1]
    simp only [hfst]
    rw [if_pos (by rw [hR.frame.stale_eq]; exact hpre x (List.mem_cons_self _ _))]
    rw [seq_loop_spec pre _ fuel e post hR.inv
      (by have := hR.n_eq; show (removeFirst s.msgQueue).2.n < fuel; omega) hd2
      (fun y hy => by
        show ((removeFirst s.msgQueue).2.ev y).stale = true
        rw [hR.frame.stale_eq]; exact hpre y (List.mem_cons_of_mem _ hy))
      (by show ((removeFirst s.msgQueue).2.ev e).stale = false
          rw [hR.frame.stale_eq]; exact he)]
    simp [popN, List.reverse_cons, List.append_assoc]

/-- C5: for every reachable future event set that contains at least one event
not marked stale, the pop order of the set is pre ++ e :: post with every
event of pre stale and e not stale; cSequentialScheduler::takeNextEvent
returns e, and leaves the set after pre.length + 1 calls of removeFirst, whose
pop order is post; the events of pre have been deleted, nothing else changed. -/
theorem C5_sequential_take (s : RunState) (hq : Reachable s.msgQueue)
    (hex : ∃ x, Contained s.msgQueue x ∧ (s.msgQueue.ev x).stale = false) :
    ∃ pre e post, drain s.msgQueue = pre ++ e :: post ∧
      (∀ x ∈ pre, (s.msgQueue.ev x).stale = true) ∧ (s.msgQueue.ev e).stale = false ∧
      cSequentialScheduler.takeNextEvent s =
        (.event e, { s with msgQueue := popN (pre.length + 1) s.msgQueue
                            deleted := pre.reverse ++ s.deleted }) ∧
      drain (popN (pre.length + 1) s.msgQueue) = post ∧
      ∀ x, Contained (popN (pre.length + 1) s.msgQueue) x ↔ x ∈ post := by
  have hi := hq.inv.1
  have hD := drain_spec hi
  obtain ⟨pre, e, post, h1, h2, h3⟩ :=
    split_first (fun x => (s.msgQueue.ev x).stale = true) (drain s.msgQueue) (by
      obtain ⟨x, hx, hs⟩ := hex
      exact ⟨x, (hD.mem x).2 hx, by simp [hs]⟩)
  have h3' : (s.msgQueue.ev e).stale = false := by simpa using h3
  have hpost : drain (popN (pre.length + 1) s.msgQueue) = post := by
    rw [drain_popN _ _ hi, h1]
    simp
  refine ⟨pre, e, post, h1, h2, h3', ?_, hpost, ?_⟩
  · exact seq_loop_spec pre s _ e post hi (Nat.lt_succ_self _) h1 h2 h3'
  · intro x
    rw [← hpost]
    exact ((drain_spec (popN_spec _ _ hi).1).mem x).symm

/-- Instance of C5: of the events 1, 2, 3, 4 the first two are stale. -/
theorem C5_sequential_take_witness :
    Reachable (runStateOf staleHeap).msgQueue ∧
    (∃ x, Contained (runStateOf staleHeap).msgQueue x ∧
      ((runStateOf staleHeap).msgQueue.ev x).stale = false) ∧
    ∃ pre e post, drain (runStateOf staleHeap).msgQueue = pre ++ e :: post ∧
      (∀ x ∈ pre, ((runStateOf staleHeap).msgQueue.ev x).stale = true) ∧
      ((runStateOf staleHeap).msgQueue.ev e).stale = false ∧
      cSequentialScheduler.takeNextEvent (runStateOf staleHeap) =
        (.event e, { runStateOf staleHeap with
          msgQueue := popN (pre.length + 1) (runStateOf staleHeap).msgQueue
          deleted := pre.reverse ++ (runStateOf staleHeap).deleted }) ∧
      drain (popN (pre.length + 1) (runStateOf staleHeap).msgQueue) = post ∧
      ∀ x, Contained (popN (pre.length + 1) (runStateOf staleHeap).msgQueue) x ↔ x ∈ post :=
  ⟨⟨staleEvents, _, fun _ => rfl, rfl⟩, ⟨3, by decide!, by decide!⟩,
    C5_sequential_take (runStateOf staleHeap) ⟨staleEvents, _, fun _ => rfl, rfl⟩
      ⟨3, by decide!, by decide!⟩⟩

/-! ## The real-time scheduler -/

theorem toUsec_ofUsec (u : ℤ) : (timeval.ofUsec u).toUsec = u := by
  unfold timeval.ofUsec timeval.toUsec
  show u / 1000000 * 1000000 + u % 1000000 = u
  omega

theorem timeval_diff_usec_eq (a b : timeval) :
    timeval_diff_usec a b = a.toUsec - b.toUsec := by
  unfold timeval_diff_usec timeval.toUsec
  ring

theorem timeval_greater_iff (a b : timeval) :
    timeval_greater a b = true ↔ b.toUsec < a.toUsec := by
  unfold timeval_greater
  simp

theorem SameRun.rfl' (s : RunState) : SameRun s s :=
  ⟨rfl, rfl, rfl, rfl, rfl, le_refl _⟩

theorem SameRun.then {a b c : RunState} (h1 : SameRun a b) (h2 : SameRun b c) : SameRun a c :=
  ⟨h2.1.trans h1.1, h2.2.1.trans h1.2.1, h2.2.2.1.trans h1.2.2.1, h2.2.2.2.1.trans h1.2.2.2.1,
    h2.2.2.2.2.1.trans h1.2.2.2.2.1, le_trans h1.2.2.2.2.2 h2.2.2.2.2.2⟩

theorem gettimeofday_same (w : World) (s : RunState) : SameRun s (gettimeofday w s).2 :=
  ⟨rfl, rfl, rfl, rfl, rfl, by show s.clock ≤ s.clock + (w.elapse s.calls : ℤ); omega⟩

theorem usleep_same (w : World) (u : ℤ) (hu : 0 ≤ u) (s : RunState) :
    SameRun s (usleep w u s) :=
  ⟨rfl, rfl, rfl, rfl, rfl, by show s.clock ≤ s.clock + u + (w.elapse s.calls : ℤ); omega⟩

theorem idle_same (w : World) (s : RunState) : SameRun s (idle w s).2 :=
  ⟨rfl, rfl, rfl, rfl, rfl, by show s.clock ≤ s.clock + (w.elapse s.calls : ℤ); omega⟩

theorem gettimeofday_cur (w : World) (s : RunState) :
    (gettimeofday w s).1 = timeval.ofUsec (gettimeofday w s).2.clock := rfl

theorem waitLoop_same (w : World) : ∀ (fuel : ℕ) (targetTime curTime : timeval)
    (s : RunState), SameRun s (cRealTimeScheduler.waitLoop w fuel targetTime curTime s).2
  | 0, _, _, s => SameRun.rfl' s
  | fuel + 1, targetTime, curTime, s => by
    unfold cRealTimeScheduler.waitLoop
    have h1 := usleep_same w 100000 (by norm_num) s
    have h2 := h1.then (idle_same w (usleep w 100000 s))
    split_ifs with ha hb hc
    · exact h2
    · exact (h2.then (gettimeofday_same w _)).then (waitLoop_same w fuel _ _ _)
    · exact usleep_same w _ (le_of_lt hc) s
    · exact SameRun.rfl' s

theorem waitLoop_msgQueue (w : World) (hidle : ∀ k q, (w.idle k q).2 = q) :
    ∀ (fuel : ℕ) (targetTime curTime : timeval) (s : RunState),
      (cRealTimeScheduler.waitLoop w fuel targetTime curTime s).2.msgQueue = s.msgQueue
  | 0, _, _, _ => rfl
  | fuel + 1, targetTime, curTime, s => by
    unfold cRealTimeScheduler.waitLoop
    have h2 : (idle w (usleep w 100000 s)).2.msgQueue = s.msgQueue := hidle _ _
    split_ifs with ha hb hc
    · exact h2
    · rw [waitLoop_msgQueue w hidle fuel]; exact h2
    · rfl
    · rfl

theorem waitLoop_not_early (w : World) : ∀ (fuel : ℕ) (targetTime curTime : timeval)
    (s : RunState), curTime.toUsec ≤ s.clock →
    (cRealTimeScheduler.waitLoop w fuel targetTime curTime s).1 = some true →
    targetTime.toUsec ≤ (cRealTimeScheduler.waitLoop w fuel targetTime curTime s).2.clock
  | 0, _, _, _, _, h => by cases h
  | fuel + 1, targetTime, curTime, s, hc, h => by
    unfold cRealTimeScheduler.waitLoop at h ⊢
    split_ifs at h ⊢ with ha hb hd
    · cases h
    · exact waitLoop_not_early w fuel _ _ _ (by
        rw [gettimeofday_cur, toUsec_ofUsec]) h
    · rw [timeval_diff_usec_eq]
      show targetTime.toUsec ≤
        s.clock + (targetTime.toUsec - curTime.toUsec) + (w.elapse s.calls : ℤ)
      omega
    · rw [timeval_diff_usec_eq] at hd
      show targetTime.toUsec ≤ s.clock
      omega

theorem waitLoop_not_aborted (w : World) (hidle : ∀ k q, (w.idle k q).1 = false) :
    ∀ (fuel : ℕ) (targetTime curTime : timeval) (s : RunState),
      (cRealTimeScheduler.waitLoop w fuel targetTime curTime s).1 ≠ some false
  | 0, _, _, _ => by simp [cRealTimeScheduler.waitLoop]
  | fuel + 1, targetTime, curTime, s => by
    unfold cRealTimeScheduler.waitLoop
    have h2 : (idle w (usleep w 100000 s)).1 = false := hidle _ _
    split_ifs with ha hb hc
    · rw [h2] at hb; cases hb
    · exact waitLoop_not_aborted w hidle fuel _ _ _
    · simp
    · simp

theorem waitLoop_fuel (w : World) : ∀ (fuel : ℕ) (targetTime : timeval) (s : RunState)
    (limit : ℤ), targetTime.toUsec - 199999 ≤ limit →
    (targetTime.tv_sec - 1) * 1000000 ≤ limit → limit - s.clock ≤ (fuel : ℤ) * 100000 →
    (cRealTimeScheduler.waitLoop w (fuel + 1) targetTime (timeval.ofUsec s.clock) s).1 ≠ none
  | fuel, targetTime, s, limit, h1, h2, hf => by
    unfold cRealTimeScheduler.waitLoop
    split_ifs with ha hb hc
    · simp
    · have hlt : s.clock < limit := by
        rw [timeval_diff_usec_eq, toUsec_ofUsec] at ha
        have : (timeval.ofUsec s.clock).tv_sec = s.clock / 1000000 := rfl
        rw [this] at ha
        omega
      obtain ⟨f, rfl⟩ : ∃ f, fuel = f + 1 := ⟨fuel - 1, by omega⟩
      have hclk : s.clock + 100000 ≤ (gettimeofday w (idle w (usleep w 100000 s)).2).2.clock := by
        show s.clock + 100000 ≤ s.clock + 100000 + (w.elapse s.calls : ℤ)
          + (w.elapse (s.calls + 1) : ℤ) + (w.elapse (s.calls + 1 + 1) : ℤ)
        omega
      have := waitLoop_fuel w f targetTime (gettimeofday w (idle w (usleep w 100000 s)).2).2
        limit h1 h2 (by push_cast at hf ⊢; omega)
      exact this
    · simp
    · simp

theorem waitUntil_returns (w : World) (targetTime : timeval) (s : RunState) :
    (cRealTimeScheduler.waitUntil w targetTime s).1 ≠ none := by
  unfold cRealTimeScheduler.waitUntil cRealTimeScheduler.waitFuel
  rw [gettimeofday_cur, toUsec_ofUsec]
  refine waitLoop_fuel w _ targetTime (gettimeofday w s).2 _ (le_max_left _ _)
    (le_max_right _ _) ?_
  generalize max (targetTime.toUsec - 199999) ((targetTime.tv_sec - 1) * 1000000) = limit
  generalize (gettimeofday w s).2.clock = c
  omega

theorem waitUntil_same (w : World) (targetTime : timeval) (s : RunState) :
    SameRun s (cRealTimeScheduler.waitUntil w targetTime s).2 :=
  (gettimeofday_same w s).then (waitLoop_same w _ _ _ _)

theorem waitUntil_msgQueue (w : World) (hidle : ∀ k q, (w.idle k q).2 = q)
    (targetTime : timeval) (s : RunState) :
    (cRealTimeScheduler.waitUntil w targetTime s).2.msgQueue = s.msgQueue := by
  unfold cRealTimeScheduler.waitUntil
  rw [waitLoop_msgQueue w hidle]
  rfl

theorem waitUntil_not_early (w : World) (targetTime : timeval) (s : RunState)
    (h : (cRealTimeScheduler.waitUntil w targetTime s).1 = some true) :
    targetTime.toUsec ≤ (cRealTimeScheduler.waitUntil w targetTime s).2.clock := by
  unfold cRealTimeScheduler.waitUntil at h ⊢
  exact waitLoop_not_early w _ _ _ _ (by rw [gettimeofday_cur, toUsec_ofUsec]) h

theorem waitUntil_not_aborted (w : World) (hidle : ∀ k q, (w.idle k q).1 = false)
    (targetTime : timeval) (s : RunState) :
    (cRealTimeScheduler.waitUntil w targetTime s).1 = some true := by
  have h1 := waitUntil_returns w targetTime s
  have h2 : (cRealTimeScheduler.waitUntil w targetTime s).1 ≠ some false :=
    waitLoop_not_aborted w hidle _ _ _ _
  match h : (cRealTimeScheduler.waitUntil w targetTime s).1 with
  | none => exact absurd h h1
  | some false => exact absurd h h2
  | some true => rfl

theorem peekFirst_some (q : cMessageHeap) (event : EventId) (h : peekFirst q = some event) :
    q.n ≠ 0 ∧ q.h 1 = event := by
  unfold peekFirst at h
  split_ifs at h with hn
  exact ⟨hn, Option.some.inj h⟩

theorem removeAndReturn_ok (event : EventId) (s : RunState)
    (h : peekFirst s.msgQueue = some event) :
    cRealTimeScheduler.removeAndReturn event s =
      (.event event, { s with msgQueue := (removeFirst s.msgQueue).2 }) := by
  obtain ⟨hn, he⟩ := peekFirst_some _ _ h
  unfold cRealTimeScheduler.removeAndReturn
  rw [if_pos (by rw [removeFirst_eq _ hn, he])]

theorem take_behind (w : World) (s : RunState) (event : EventId)
    (hp : peekFirst s.msgQueue = some event)
    (hg : timeval_greater (cRealTimeScheduler.targetTime s event) (gettimeofday w s).1 = false) :
    cRealTimeScheduler.takeNextEvent w s
      = (.event event, { (gettimeofday w s).2 with msgQueue := (removeFirst s.msgQueue).2 }) := by
  unfold cRealTimeScheduler.takeNextEvent
  rw [hp]
  simp only [hg]
  exact removeAndReturn_ok event (gettimeofday w s).2 hp

theorem take_waited (w : World) (s : RunState) (event : EventId)
    (hp : peekFirst s.msgQueue = some event)
    (hg : timeval_greater (cRealTimeScheduler.targetTime s event) (gettimeofday w s).1 = true)
    (hw : (cRealTimeScheduler.waitUntil w (cRealTimeScheduler.targetTime s event)
      (gettimeofday w s).2).1 = some true) :
    cRealTimeScheduler.takeNextEvent w s
      = cRealTimeScheduler.removeAndReturn event
          (cRealTimeScheduler.waitUntil w (cRealTimeScheduler.targetTime s event)
            (gettimeofday w s).2).2 := by
  unfold cRealTimeScheduler.takeNextEvent
  rw [hp]
  simp only [hg, if_true, hw]

theorem take_aborted (w : World) (s : RunState) (event : EventId)
    (hp : peekFirst s.msgQueue = some event)
    (hg : timeval_greater (cRealTimeScheduler.targetTime s event) (gettimeofday w s).1 = true)
    (hw : (cRealTimeScheduler.waitUntil w (cRealTimeScheduler.targetTime s event)
      (gettimeofday w s).2).1 = some false) :
    cRealTimeScheduler.takeNextEvent w s
      = (.null, (cRealTimeScheduler.waitUntil w (cRealTimeScheduler.targetTime s event)
          (gettimeofday w s).2).2) := by
  unfold cRealTimeScheduler.takeNextEvent
  rw [hp]
  simp only [hg, if_true, hw]

theorem take_empty (w : World) (s : RunState) (hp : peekFirst s.msgQueue = none) :
    cRealTimeScheduler.takeNextEvent w s = (.endedOk, s) := by
  unfold cRealTimeScheduler.takeNextEvent
  rw [hp]

/-- The three ways `cRealTimeScheduler::takeNextEvent` can go on a future event
set that is not empty. -/
theorem take_cases (w : World) (s : RunState) (event : EventId)
    (hp : peekFirst s.msgQueue = some event) :
    (timeval_greater (cRealTimeScheduler.targetTime s event) (gettimeofday w s).1 = false ∧
      cRealTimeScheduler.takeNextEvent w s
        = (.event event, { (gettimeofday w s).2 with msgQueue := (removeFirst s.msgQueue).2 })) ∨
    (timeval_greater (cRealTimeScheduler.targetTime s event) (gettimeofday w s).1 = true ∧
      (cRealTimeScheduler.waitUntil w (cRealTimeScheduler.targetTime s event)
        (gettimeofday w s).2).1 = some true ∧
      cRealTimeScheduler.takeNextEvent w s
        = cRealTimeScheduler.removeAndReturn event
            (cRealTimeScheduler.waitUntil w (cRealTimeScheduler.targetTime s event)
              (gettimeofday w s).2).2) ∨
    (timeval_greater (cRealTimeScheduler.targetTime s event) (gettimeofday w s).1 = true ∧
      (cRealTimeScheduler.waitUntil w (cRealTimeScheduler.targetTime s event)
        (gettimeofday w s).2).1 = some false ∧
      cRealTimeScheduler.takeNextEvent w s
        = (.null, (cRealTimeScheduler.waitUntil w (cRealTimeScheduler.targetTime s event)
            (gettimeofday w s).2).2)) := by
  cases hg : timeval_greater (cRealTimeScheduler.targetTime s event) (gettimeofday w s).1 with
  | false => exact Or.inl ⟨rfl, take_behind w s event hp hg⟩
  | true =>
    right
    match hw : (cRealTimeScheduler.waitUntil w (cRealTimeScheduler.targetTime s event)
        (gettimeofday w s).2).1 with
    | none => exact absurd hw (waitUntil_returns w _ _)
    | some true => exact Or.inl ⟨rfl, rfl, take_waited w s event hp hg hw⟩
    | some false => exact Or.inr ⟨rfl, rfl, take_aborted w s event hp hg hw⟩

/-- C6: on an empty future event set takeNextEvent of cSequentialScheduler and
of cRealTimeScheduler both end with cTerminationException(eENDEDOK) and leave
the whole run state as it was: nothing was slept, the clock was not read, the
future event set is still empty. -/
theorem C6_empty_terminates (w : World) (s : RunState) (he : empty s.msgQueue = true) :
    cSequentialScheduler.takeNextEvent s = (.endedOk, s) ∧
    cRealTimeScheduler.takeNextEvent w s = (.endedOk, s) ∧
    empty (cSequentialScheduler.takeNextEvent s).2.msgQueue = true ∧
    empty (cRealTimeScheduler.takeNextEvent w s).2.msgQueue = true := by
  have hn : s.msgQueue.n = 0 := by simpa [empty] using he
  have h1 : cSequentialScheduler.takeNextEvent s = (.endedOk, s) := by
    unfold cSequentialScheduler.takeNextEvent
    rw [hn]
    show cSequentialScheduler.loop 1 s = _
    unfold cSequentialScheduler.loop
    rw [removeFirst_none _ hn]
  have h2 : cRealTimeScheduler.takeNextEvent w s = (.endedOk, s) := by
    unfold cRealTimeScheduler.takeNextEvent
    have : peekFirst s.msgQueue = none := by simp [peekFirst, hn]
    rw [this]
  refine ⟨h1, h2, ?_, ?_⟩
  · rw [h1]; exact he
  · rw [h2]; exact he

/-- Instance of C6: the empty heap over the sample events. -/
theorem C6_empty_terminates_witness :
    empty (runStateOf (emptyHeap sampleEvents)).msgQueue = true ∧
    (cSequentialScheduler.takeNextEvent (runStateOf (emptyHeap sampleEvents)) =
      (.endedOk, runStateOf (emptyHeap sampleEvents)) ∧
    cRealTimeScheduler.takeNextEvent quietWorld (runStateOf (emptyHeap sampleEvents)) =
      (.endedOk, runStateOf (emptyHeap sampleEvents)) ∧
    empty (cSequentialScheduler.takeNextEvent
      (runStateOf (emptyHeap sampleEvents))).2.msgQueue = true ∧
    empty (cRealTimeScheduler.takeNextEvent quietWorld
      (runStateOf (emptyHeap sampleEvents))).2.msgQueue = true) :=
  ⟨rfl, C6_empty_terminates quietWorld (runStateOf (emptyHeap sampleEvents)) rfl⟩

/-- C7: the future event set is not empty, `ev.idle()` does not modify it
(single-threaded assumption), the target time of the first event is in the
future and waitUntil returns false. Then cRealTimeScheduler::takeNextEvent
returns NULL, the future event set is exactly as before, peekFirst still
returns the same event, and a following takeNextEvent whose wait is not
interrupted returns that event. -/
theorem C7_aborted_wait (w : World) (s : RunState) (event : EventId)
    (hidle : ∀ k q, (w.idle k q).2 = q)
    (hpeek : peekFirst s.msgQueue = some event)
    (hfuture : timeval_greater (cRealTimeScheduler.targetTime s event)
      (gettimeofday w s).1 = true)
    (habort : (cRealTimeScheduler.waitUntil w (cRealTimeScheduler.targetTime s event)
      (gettimeofday w s).2).1 = some false) :
    (cRealTimeScheduler.takeNextEvent w s).1 = .null ∧
    (cRealTimeScheduler.takeNextEvent w s).2.msgQueue = s.msgQueue ∧
    peekFirst (cRealTimeScheduler.takeNextEvent w s).2.msgQueue = some event ∧
    ∀ w1 : World, (∀ k q, w1.idle k q = (false, q)) →
      (cRealTimeScheduler.takeNextEvent w1 (cRealTimeScheduler.takeNextEvent w s).2).1
        = .event event := by
  have hres := take_aborted w s event hpeek hfuture habort
  have hq : (cRealTimeScheduler.takeNextEvent w s).2.msgQueue = s.msgQueue := by
    rw [hres]
    exact waitUntil_msgQueue w hidle _ _
  refine ⟨by rw [hres], hq, by rw [hq]; exact hpeek, ?_⟩
  intro w1 hw1
  generalize (cRealTimeScheduler.takeNextEvent w s).2 = s1 at hq
  have hp1 : peekFirst s1.msgQueue = some event := by rw [hq]; exact hpeek
  rcases take_cases w1 s1 event hp1 with ⟨_, h⟩ | ⟨_, hw, h⟩ | ⟨_, hw, _⟩
  · rw [h]
  · rw [h, removeAndReturn_ok]
    rw [waitUntil_msgQueue w1 (fun k q => by rw [hw1])]
    exact hp1
  · rw [waitUntil_not_aborted w1 (fun k q => by rw [hw1])] at hw
    cases hw

/-- Instance of C7: the first event is due in 1 s and the first poll of
`ev.idle()` asks to stop. -/
theorem C7_aborted_wait_witness :
    peekFirst (runStateOf lateHeap).msgQueue = some 6 ∧
    (cRealTimeScheduler.waitUntil stopWorld
      (cRealTimeScheduler.targetTime (runStateOf lateHeap) 6)
      (gettimeofday stopWorld (runStateOf lateHeap)).2).1 = some false ∧
    ((cRealTimeScheduler.takeNextEvent stopWorld (runStateOf lateHeap)).1 = .null ∧
    (cRealTimeScheduler.takeNextEvent stopWorld (runStateOf lateHeap)).2.msgQueue
      = (runStateOf lateHeap).msgQueue ∧
    peekFirst (cRealTimeScheduler.takeNextEvent stopWorld (runStateOf lateHeap)).2.msgQueue
      = some 6 ∧
    ∀ w1 : World, (∀ k q, w1.idle k q = (false, q)) →
      (cRealTimeScheduler.takeNextEvent w1
        (cRealTimeScheduler.takeNextEvent stopWorld (runStateOf lateHeap)).2).1 = .event 6) :=
  ⟨by decide!, by decide!,
    C7_aborted_wait stopWorld (runStateOf lateHeap) 6 (fun _ _ => rfl) (by decide!)
      (by decide!) (by decide!)⟩

/-- C8: whenever cRealTimeScheduler::takeNextEvent returns an event e, the
wall clock at the return (in microseconds, the resolution of timeval) is at
least the target time, which is baseTime plus the scaled arrival time of e.
In particular with factor 1 (scale factor 1.0) an event at 0.2 s is returned
no earlier than 200000 microseconds after baseTime, and an event at 0 s no
earlier than baseTime. The clock of the model is monotone and usleep(u)
advances it by at least u. -/
theorem C8_never_early (w : World) (s : RunState) (e : EventId)
    (h : (cRealTimeScheduler.takeNextEvent w s).1 = .event e) :
    (cRealTimeScheduler.targetTime s e).toUsec
      ≤ (cRealTimeScheduler.takeNextEvent w s).2.clock ∧
    (cRealTimeScheduler.targetTime s e).toUsec = s.baseTime.toUsec +
      ⌊(if s.doScaling then s.factor * (s.msgQueue.ev e).delivd
        else (s.msgQueue.ev e).delivd) * 1000000⌋ ∧
    (s.doScaling = true → s.factor = 1 → (s.msgQueue.ev e).delivd = 1 / 5 →
      s.baseTime.toUsec + 200000 ≤ (cRealTimeScheduler.takeNextEvent w s).2.clock) ∧
    (s.doScaling = true → s.factor = 1 → (s.msgQueue.ev e).delivd = 0 →
      s.baseTime.toUsec ≤ (cRealTimeScheduler.takeNextEvent w s).2.clock) := by
  have htarget : (cRealTimeScheduler.targetTime s e).toUsec = s.baseTime.toUsec +
      ⌊(if s.doScaling then s.factor * (s.msgQueue.ev e).delivd
        else (s.msgQueue.ev e).delivd) * 1000000⌋ := by
    unfold cRealTimeScheduler.targetTime timeval_add
    rw [toUsec_ofUsec]
  have hmain : (cRealTimeScheduler.targetTime s e).toUsec
      ≤ (cRealTimeScheduler.takeNextEvent w s).2.clock := by
    match hp : peekFirst s.msgQueue with
    | none => rw [take_empty w s hp] at h; cases h
    | some event =>
      rcases take_cases w s event hp with ⟨hg, ht⟩ | ⟨_, hw, ht⟩ | ⟨_, _, ht⟩
      · rw [ht] at h ⊢
        have he : event = e := by injection h
        subst he
        have hng : ¬ (gettimeofday w s).1.toUsec
            < (cRealTimeScheduler.targetTime s event).toUsec := by
          rw [← timeval_greater_iff, hg]; simp
        rw [gettimeofday_cur, toUsec_ofUsec] at hng
        exact not_lt.1 hng
      · rw [ht] at h ⊢
        unfold cRealTimeScheduler.removeAndReturn at h ⊢
        split_ifs at h ⊢ with hr
        have he : event = e := by injection h
        subst he
        exact waitUntil_not_early w _ _ hw
      · rw [ht] at h; cases h
  refine ⟨hmain, htarget, ?_, ?_⟩
  · intro h1 h2 h3
    rw [htarget, h1, h2, h3] at hmain
    have : ⌊(if true = true then (1 : ℚ) * (1 / 5) else 1 / 5) * 1000000⌋ = 200000 := by
      norm_num
    rw [this] at hmain
    exact hmain
  · intro h1 h2 h3
    rw [htarget, h1, h2, h3] at hmain
    have : ⌊(if true = true then (1 : ℚ) * 0 else 0) * 1000000⌋ = 0 := by
      norm_num
    rw [this] at hmain
    simpa using hmain

/-- Instance of C8: the first event is due 1 s after baseTime. -/
theorem C8_never_early_witness :
    (cRealTimeScheduler.takeNextEvent quietWorld (runStateOf lateHeap)).1 = .event 6 ∧
    (cRealTimeScheduler.targetTime (runStateOf lateHeap) 6).toUsec
      ≤ (cRealTimeScheduler.takeNextEvent quietWorld (runStateOf lateHeap)).2.clock :=
  ⟨by decide!, (C8_never_early quietWorld (runStateOf lateHeap) 6 (by decide!)).1⟩

/-- C9: when `ev.idle()` does not modify the future event set (single-threaded
assumption), the check ASSERT(tmp==event) of cRealTimeScheduler::takeNextEvent
never fails and the call always ends; whenever the call does not return NULL
(the wait was not aborted), removeFirst removed the very event that peekFirst
returned, this event is the return value, and the future event set is the one
removeFirst leaves: it lost exactly that event. -/
theorem C9_assert_holds (w : World) (s : RunState) (hidle : ∀ k q, (w.idle k q).2 = q) :
    (cRealTimeScheduler.takeNextEvent w s).1 ≠ .assertFailed ∧
    (cRealTimeScheduler.takeNextEvent w s).1 ≠ .outOfFuel ∧
    ∀ event, peekFirst s.msgQueue = some event →
      (cRealTimeScheduler.takeNextEvent w s).1 ≠ .null →
      (removeFirst s.msgQueue).1 = some event ∧
      (cRealTimeScheduler.takeNextEvent w s).1 = .event event ∧
      (cRealTimeScheduler.takeNextEvent w s).2.msgQueue = (removeFirst s.msgQueue).2 ∧
      (Reachable s.msgQueue →
        length (cRealTimeScheduler.takeNextEvent w s).2.msgQueue + 1 = length s.msgQueue ∧
        ∀ x, Contained (cRealTimeScheduler.takeNextEvent w s).2.msgQueue x ↔
          Contained s.msgQueue x ∧ x ≠ event) := by
  have key : ∀ event, peekFirst s.msgQueue = some event →
      (cRealTimeScheduler.takeNextEvent w s).1 = .null ∨
      ((cRealTimeScheduler.takeNextEvent w s).1 = .event event ∧
        (cRealTimeScheduler.takeNextEvent w s).2.msgQueue = (removeFirst s.msgQueue).2) := by
    intro event hp
    rcases take_cases w s event hp with ⟨_, ht⟩ | ⟨_, _, ht⟩ | ⟨_, _, ht⟩
    · right; rw [ht]; exact ⟨rfl, rfl⟩
    · right
      have hm := waitUntil_msgQueue w hidle (cRealTimeScheduler.targetTime s event)
        (gettimeofday w s).2
      have hm2 : (cRealTimeScheduler.waitUntil w (cRealTimeScheduler.targetTime s event)
          (gettimeofday w s).2).2.msgQueue = s.msgQueue := hm
      rw [ht, removeAndReturn_ok _ _ (by rw [hm2]; exact hp)]
      exact ⟨rfl, by show (removeFirst _).2 = _; rw [hm2]⟩
    · left; rw [ht]
  refine ⟨?_, ?_, ?_⟩
  · match hp : peekFirst s.msgQueue with
    | none => rw [take_empty w s hp]; simp
    | some event =>
      rcases key event hp with h | ⟨h, _⟩ <;> rw [h] <;> simp
  · match hp : peekFirst s.msgQueue with
    | none => rw [take_empty w s hp]; simp
    | some event =>
      rcases key event hp with h | ⟨h, _⟩ <;> rw [h] <;> simp
  · intro event hp hnn
    obtain ⟨hn, he⟩ := peekFirst_some _ _ hp
    rcases key event hp with h | ⟨h1, h2⟩
    · exact absurd h hnn
    · refine ⟨by rw [removeFirst_eq _ hn, he], h1, h2, ?_⟩
      intro hr
      have hR := removeFirst_spec hr.inv.1 hn
      rw [he] at hR
      rw [h2]
      exact ⟨hR.n_eq, hR.contained⟩

/-- Instance of C9: a world whose `ev.idle()` leaves the future event set
alone. -/
theorem C9_assert_holds_witness :
    (∀ k q, (quietWorld.idle k q).2 = q) ∧
    (cRealTimeScheduler.takeNextEvent quietWorld (runStateOf lateHeap)).1 ≠ .assertFailed ∧
    (cRealTimeScheduler.takeNextEvent quietWorld (runStateOf lateHeap)).1 = .event 6 :=
  ⟨fun _ _ => rfl,
    (C9_assert_holds quietWorld (runStateOf lateHeap) (fun _ _ => rfl)).1,
    ((C9_assert_holds quietWorld (runStateOf lateHeap) (fun _ _ => rfl)).2.2 6
      (by decide!) (by decide!)).2.1⟩

/-- C10: when the target time of the first event is not later than the wall
clock that takeNextEvent reads, cRealTimeScheduler::takeNextEvent removes and
returns this event, a minimum of the future event set, at once: apart from the
clock reading and the removal the run state is as before, so nothing is slept,
`ev.idle()` is not polled, and baseTime, factor and doScaling are unchanged. -/
theorem C10_free_run (w : World) (s : RunState) (event : EventId)
    (hq : Reachable s.msgQueue) (hp : peekFirst s.msgQueue = some event)
    (hbehind : timeval_greater (cRealTimeScheduler.targetTime s event)
      (gettimeofday w s).1 = false) :
    cRealTimeScheduler.takeNextEvent w s
      = (.event event, { (gettimeofday w s).2 with msgQueue := (removeFirst s.msgQueue).2 }) ∧
    (∀ x, Contained s.msgQueue x → (s.msgQueue.ev event).key ≤ (s.msgQueue.ev x).key) ∧
    (cRealTimeScheduler.takeNextEvent w s).2.slept = s.slept ∧
    (cRealTimeScheduler.takeNextEvent w s).2.idleCalls = s.idleCalls ∧
    (cRealTimeScheduler.takeNextEvent w s).2.baseTime = s.baseTime ∧
    (cRealTimeScheduler.takeNextEvent w s).2.factor = s.factor ∧
    (cRealTimeScheduler.takeNextEvent w s).2.doScaling = s.doScaling := by
  have ht := take_behind w s event hp hbehind
  obtain ⟨_, he⟩ := peekFirst_some _ _ hp
  refine ⟨ht, ?_, ?_, ?_, ?_, ?_, ?_⟩
  · intro x hx
    rw [← he]
    exact first_min hq.inv.1 hx
  all_goals rw [ht]; rfl

/-- Instance of C10: the clock is 4 s past the target time of the first
event. -/
theorem C10_free_run_witness :
    peekFirst behindState.msgQueue = some 6 ∧
    timeval_greater (cRealTimeScheduler.targetTime behindState 6)
      (gettimeofday quietWorld behindState).1 = false ∧
    (cRealTimeScheduler.takeNextEvent quietWorld behindState).1 = .event 6 ∧
    (cRealTimeScheduler.takeNextEvent quietWorld behindState).2.slept = [] :=
  ⟨by decide!, by decide!,
    congrArg Prod.fst (C10_free_run quietWorld behindState 6
      ⟨sampleEvents, _, fun _ => rfl, rfl⟩ (by decide!) (by decide!)).1,
    (C10_free_run quietWorld behindState 6
      ⟨sampleEvents, _, fun _ => rfl, rfl⟩ (by decide!) (by decide!)).2.2.1⟩

/-! ## Scaling and realignment -/

theorem targetTime_toUsec (s : RunState) (event : EventId) :
    (cRealTimeScheduler.targetTime s event).toUsec
      = s.baseTime.toUsec
        + ⌊cRealTimeScheduler.scaled s (s.msgQueue.ev event).delivd * 1000000⌋ := by
  unfold cRealTimeScheduler.targetTime timeval_add cRealTimeScheduler.scaled
  rw [toUsec_ofUsec]

/-- C12: after startRun with a configured scaling s that is not zero, factor is
1 / s, doScaling is true and baseTime is the clock just read; the target time
that takeNextEvent computes for an event with delivery time t is then
baseTime + t / s, in exact arithmetic rounded down to whole microseconds (the
resolution of timeval). With scaling 2 an event at 10 s is due 5 s after
baseTime. -/
theorem C12_scaled_target (w : World) (scaling : ℚ) (hs : scaling ≠ 0) (s : RunState)
    (event : EventId) :
    (cRealTimeScheduler.startRun w scaling s).factor = 1 / scaling ∧
    (cRealTimeScheduler.startRun w scaling s).doScaling = true ∧
    (cRealTimeScheduler.startRun w scaling s).baseTime = (gettimeofday w s).1 ∧
    (cRealTimeScheduler.targetTime (cRealTimeScheduler.startRun w scaling s) event).toUsec
      = (cRealTimeScheduler.startRun w scaling s).baseTime.toUsec
        + ⌊(s.msgQueue.ev event).delivd / scaling * 1000000⌋ ∧
    (scaling = 2 → (s.msgQueue.ev event).delivd = 10 →
      (cRealTimeScheduler.targetTime (cRealTimeScheduler.startRun w scaling s) event).toUsec
        = (cRealTimeScheduler.startRun w scaling s).baseTime.toUsec + 5000000) := by
  have hf : (cRealTimeScheduler.startRun w scaling s).factor = 1 / scaling := by
    show (if scaling ≠ 0 then 1 / scaling else scaling) = 1 / scaling
    rw [if_pos hs]
  have hd : (cRealTimeScheduler.startRun w scaling s).doScaling = true := by
    show decide ((if scaling ≠ 0 then 1 / scaling else scaling) ≠ 0) = true
    rw [if_pos hs]
    simpa using hs
  have hq : (cRealTimeScheduler.startRun w scaling s).msgQueue = s.msgQueue := rfl
  have ht : (cRealTimeScheduler.targetTime (cRealTimeScheduler.startRun w scaling s)
      event).toUsec = (cRealTimeScheduler.startRun w scaling s).baseTime.toUsec
        + ⌊(s.msgQueue.ev event).delivd / scaling * 1000000⌋ := by
    rw [targetTime_toUsec]
    unfold cRealTimeScheduler.scaled
    rw [hd, hf, hq]
    simp only [if_true]
    congr 2
    ring
  refine ⟨hf, hd, rfl, ht, ?_⟩
  intro h2 h10
  rw [ht, h2, h10]
  norm_num

/-- Instance of C12: scaling 2 on the sample heap. -/
theorem C12_scaled_target_witness :
    (2 : ℚ) ≠ 0 ∧
    (cRealTimeScheduler.startRun quietWorld 2 (runStateOf sampleHeap)).factor = 1 / 2 ∧
    (cRealTimeScheduler.startRun quietWorld 2 (runStateOf sampleHeap)).doScaling = true :=
  ⟨by norm_num,
    (C12_scaled_target quietWorld 2 (by norm_num) (runStateOf sampleHeap) 4).1,
    (C12_scaled_target quietWorld 2 (by norm_num) (runStateOf sampleHeap) 4).2.1⟩

/-- C13: executionResumed sets baseTime to the clock just read minus the scaled
current simulation time T, whatever the old baseTime was. Right afterwards the
target time that takeNextEvent computes for an event with delivery time T is
exactly that clock reading, and for delivery time T + d it is the reading plus
the scaled d: exactly so when the scaled T is a whole number of microseconds,
and within one microsecond (the resolution of timeval) in general. -/
theorem C13_resume_realignment (w : World) (s : RunState) :
    (cRealTimeScheduler.executionResumed w s).baseTime
      = timeval_substract (gettimeofday w s).1 (cRealTimeScheduler.scaled s s.simTime) ∧
    (∀ b : timeval, (cRealTimeScheduler.executionResumed w { s with baseTime := b }).baseTime
      = (cRealTimeScheduler.executionResumed w s).baseTime) ∧
    (∀ event, (s.msgQueue.ev event).delivd = s.simTime →
      cRealTimeScheduler.targetTime (cRealTimeScheduler.executionResumed w s) event
        = (gettimeofday w s).1) ∧
    (∀ event (d : ℚ), (s.msgQueue.ev event).delivd = s.simTime + d →
      (gettimeofday w s).1.toUsec + ⌊cRealTimeScheduler.scaled s d * 1000000⌋
        ≤ (cRealTimeScheduler.targetTime (cRealTimeScheduler.executionResumed w s) event).toUsec
      ∧ (cRealTimeScheduler.targetTime (cRealTimeScheduler.executionResumed w s) event).toUsec
        ≤ (gettimeofday w s).1.toUsec + ⌊cRealTimeScheduler.scaled s d * 1000000⌋ + 1
      ∧ ((⌊cRealTimeScheduler.scaled s s.simTime * 1000000⌋ : ℚ)
            = cRealTimeScheduler.scaled s s.simTime * 1000000 →
          (cRealTimeScheduler.targetTime (cRealTimeScheduler.executionResumed w s)
            event).toUsec
            = (gettimeofday w s).1.toUsec + ⌊cRealTimeScheduler.scaled s d * 1000000⌋)) := by
  have hb : (cRealTimeScheduler.executionResumed w s).baseTime
      = timeval_substract (gettimeofday w s).1 (cRealTimeScheduler.scaled s s.simTime) := rfl
  have hbu : (cRealTimeScheduler.executionResumed w s).baseTime.toUsec
      = (gettimeofday w s).1.toUsec - ⌊cRealTimeScheduler.scaled s s.simTime * 1000000⌋ := by
    rw [hb]; unfold timeval_substract; rw [toUsec_ofUsec]
  have hsc : ∀ t, cRealTimeScheduler.scaled (cRealTimeScheduler.executionResumed w s) t
      = cRealTimeScheduler.scaled s t := fun _ => rfl
  have hq : (cRealTimeScheduler.executionResumed w s).msgQueue = s.msgQueue := rfl
  have hadd : ∀ d, cRealTimeScheduler.scaled s (s.simTime + d) * 1000000
      = cRealTimeScheduler.scaled s s.simTime * 1000000
        + cRealTimeScheduler.scaled s d * 1000000 := by
    intro d
    unfold cRealTimeScheduler.scaled
    split_ifs <;> ring
  refine ⟨hb, fun _ => rfl, ?_, ?_⟩
  · intro event he
    have h1 := targetTime_toUsec (cRealTimeScheduler.executionResumed w s) event
    rw [hsc, hq, he, hbu] at h1
    have h2 : (cRealTimeScheduler.targetTime (cRealTimeScheduler.executionResumed w s)
        event).toUsec = (gettimeofday w s).2.clock := by
      rw [h1, gettimeofday_cur, toUsec_ofUsec]; ring
    rw [gettimeofday_cur, ← h2]
    unfold cRealTimeScheduler.targetTime timeval_add
    rw [toUsec_ofUsec]
  · intro event d he
    have h1 := targetTime_toUsec (cRealTimeScheduler.executionResumed w s) event
    rw [hsc, hq, he, hbu, hadd] at h1
    have hlo := Int.le_floor_add (cRealTimeScheduler.scaled s s.simTime * 1000000)
      (cRealTimeScheduler.scaled s d * 1000000)
    have hhi := Int.le_floor_add_floor (cRealTimeScheduler.scaled s s.simTime * 1000000)
      (cRealTimeScheduler.scaled s d * 1000000)
    refine ⟨by rw [h1]; omega, by rw [h1]; omega, ?_⟩
    intro hw
    have hsum : ⌊cRealTimeScheduler.scaled s s.simTime * 1000000
        + cRealTimeScheduler.scaled s d * 1000000⌋
        = ⌊cRealTimeScheduler.scaled s s.simTime * 1000000⌋
          + ⌊cRealTimeScheduler.scaled s d * 1000000⌋ := by
      conv_lhs => rw [← hw]
      exact Int.floor_int_add _ _
    rw [h1, hsum]
    ring

/-! ## No scaling, bounded sleeps, stale events -/

theorem waitLoop_slept (w : World) : ∀ (fuel : ℕ) (targetTime curTime : timeval)
    (s : RunState), ∃ l : List ℤ,
      (cRealTimeScheduler.waitLoop w fuel targetTime curTime s).2.slept = l ++ s.slept ∧
      ∀ u ∈ l, 0 < u ∧ u < 200000
  | 0, _, _, s => ⟨[], rfl, fun u hu => absurd hu (List.not_mem_nil u)⟩
  | fuel + 1, targetTime, curTime, s => by
    unfold cRealTimeScheduler.waitLoop
    have h1 : ∀ u ∈ [(100000 : ℤ)], 0 < u ∧ u < 200000 := by
      intro u hu
      rw [List.mem_singleton] at hu
      subst hu
      norm_num
    split_ifs with ha hb hc
    · exact ⟨[100000], rfl, h1⟩
    · obtain ⟨l, hl, hb⟩ := waitLoop_slept w fuel targetTime
        (gettimeofday w (idle w (usleep w 100000 s)).2).1
        (gettimeofday w (idle w (usleep w 100000 s)).2).2
      refine ⟨l ++ [100000], ?_, ?_⟩
      · rw [hl]
        show l ++ (100000 :: s.slept) = l ++ [100000] ++ s.slept
        simp
      · intro u hu
        rcases List.mem_append.1 hu with h | h
        · exact hb u h
        · exact h1 u h
    · refine ⟨[timeval_diff_usec targetTime curTime], rfl, ?_⟩
      intro u hu
      rw [List.mem_singleton] at hu
      subst hu
      push_neg at ha
      exact ⟨hc, ha.2⟩
    · exact ⟨[], rfl, fun u hu => absurd hu (List.not_mem_nil u)⟩

/-- Every sleep that `waitUntil` issues is shorter than 200 ms. -/
theorem waitUntil_slept (w : World) (targetTime : timeval) (s : RunState) :
    ∃ l : List ℤ,
      (cRealTimeScheduler.waitUntil w targetTime s).2.slept = l ++ s.slept ∧
      ∀ u ∈ l, 0 < u ∧ u < 200000 :=
  waitLoop_slept w _ targetTime _ _

/-- C14, the code at the failing input: the target time is 150 ms after the
start of the run and the clock reads 5 microseconds. The loop of waitUntil is
not entered, `ev.idle()` is not polled, and waitUntil issues a single sleep of
149995 microseconds, longer than 100 ms. -/
theorem C14_sleep_longer_than_100ms :
    (cRealTimeScheduler.waitUntil quietWorld ⟨0, 150000⟩
      (runStateOf (emptyHeap sampleEvents))).1 = some true ∧
    (cRealTimeScheduler.waitUntil quietWorld ⟨0, 150000⟩
      (runStateOf (emptyHeap sampleEvents))).2.slept = [149995] ∧
    (cRealTimeScheduler.waitUntil quietWorld ⟨0, 150000⟩
      (runStateOf (emptyHeap sampleEvents))).2.idleCalls = 0 ∧
    (100000 : ℤ) < 149995 := by
  decide!

/-- C15, the code at the failing input: the first two events of the future
event set are stale. cRealTimeScheduler::takeNextEvent, which has no isStale
check, returns the stale event 1 and deletes nothing;
cSequentialScheduler::takeNextEvent deletes the events 1 and 2 and returns
event 3. -/
theorem C15_realtime_returns_stale :
    peekFirst staleHeap = some 1 ∧ (staleHeap.ev 1).stale = true ∧
    (cRealTimeScheduler.takeNextEvent quietWorld (runStateOf staleHeap)).1 = .event 1 ∧
    (cRealTimeScheduler.takeNextEvent quietWorld (runStateOf staleHeap)).2.deleted = [] ∧
    (cSequentialScheduler.takeNextEvent (runStateOf staleHeap)).1 = .event 3 ∧
    (cSequentialScheduler.takeNextEvent (runStateOf staleHeap)).2.deleted = [2, 1] := by
  decide!

/-! ## Peeking, positions, sizes, rejected calls -/

/-- C16: guessNextEvent of cSequentialScheduler and of cRealTimeScheduler
returns what peekFirst returns on the future event set and leaves the whole
run state (future event set, baseTime, factor, doScaling) as it was. On an
empty set that is NULL; on a reachable set that is not empty it is a contained
event whose key is at most the key of every contained event. -/
theorem C16_guess_is_peek (s : RunState) :
    cSequentialScheduler.guessNextEvent s = (peekFirst s.msgQueue, s) ∧
    cRealTimeScheduler.guessNextEvent s = (peekFirst s.msgQueue, s) ∧
    (cRealTimeScheduler.guessNextEvent s).2.msgQueue = s.msgQueue ∧
    (cRealTimeScheduler.guessNextEvent s).2.baseTime = s.baseTime ∧
    (cRealTimeScheduler.guessNextEvent s).2.factor = s.factor ∧
    (cRealTimeScheduler.guessNextEvent s).2.doScaling = s.doScaling ∧
    (empty s.msgQueue = true → (cRealTimeScheduler.guessNextEvent s).1 = none) ∧
    (Reachable s.msgQueue → empty s.msgQueue = false →
      ∃ e, (cRealTimeScheduler.guessNextEvent s).1 = some e ∧ Contained s.msgQueue e ∧
        ∀ x, Contained s.msgQueue x → (s.msgQueue.ev e).key ≤ (s.msgQueue.ev x).key) := by
  refine ⟨rfl, rfl, rfl, rfl, rfl, rfl, ?_, ?_⟩
  · intro he
    have hn : s.msgQueue.n = 0 := by simpa [empty] using he
    show peekFirst s.msgQueue = none
    simp [peekFirst, hn]
  · intro hq he
    have hn : s.msgQueue.n ≠ 0 := by simpa [empty] using he
    refine ⟨s.msgQueue.h 1, ?_, ⟨1, le_refl 1, by omega, rfl⟩, fun x hx => first_min hq.inv.1 hx⟩
    show peekFirst s.msgQueue = some _
    simp [peekFirst, hn]

/-- C17: in every heap state reachable from the empty heap, every contained
event e has 1 <= heapindex <= length() and is the event of slot heapindex;
every event that is not contained has heapindex -1, and so has the event that
removeFirst or get has just returned. -/
theorem C17_position_consistency (q : cMessageHeap) (hq : Reachable q) :
    (∀ e, Contained q e →
      1 ≤ (q.ev e).heapindex ∧ (q.ev e).heapindex ≤ (length q : ℤ) ∧
        q.h (q.ev e).heapindex.toNat = e) ∧
    (∀ e, ¬ Contained q e → (q.ev e).heapindex = -1) ∧
    (∀ e, (removeFirst q).1 = some e →
      ((removeFirst q).2.ev e).heapindex = -1 ∧ ¬ Contained (removeFirst q).2 e) ∧
    (∀ e, (get q e).1 = some e →
      ((get q e).2.ev e).heapindex = -1 ∧ ¬ Contained (get q e).2 e) := by
  obtain ⟨hi, hs⟩ := hq.inv
  refine ⟨?_, hs, ?_, ?_⟩
  · intro e hc
    obtain ⟨a, b, c, d⟩ := hc.heapindex hi.2
    unfold length
    refine ⟨by omega, by omega, c⟩
  · intro e he
    by_cases hn : q.n = 0
    · rw [removeFirst_none q hn] at he; cases he
    · have hR := removeFirst_spec hi hn
      have h1 : q.h 1 = e := by
        rw [removeFirst_eq q hn] at he
        exact Option.some.inj he
      rw [h1] at hR
      exact ⟨hR.cleared, fun hc => ((hR.contained e).1 hc).2 rfl⟩
  · intro e he
    by_cases hc : Contained q e
    · have hR := (get_spec hi hc).2
      exact ⟨hR.cleared, fun hc2 => ((hR.contained e).1 hc2).2 rfl⟩
    · rw [get_none q e hc] at he; cases he

/-- Instance of C17: the sample heap. -/
theorem C17_position_consistency_witness :
    Reachable sampleHeap ∧ ∀ e, ¬ Contained sampleHeap e → (sampleHeap.ev e).heapindex = -1 :=
  ⟨sampleHeap_reachable, (C17_position_consistency sampleHeap sampleHeap_reachable).2.1⟩

/-- C18: for every reachable heap state and every event e not contained in it,
insert(e) succeeds and makes length() one larger, and a following removeFirst
brings length() back to its value; removeFirst on a heap of one event leaves
length() == 0; empty() holds exactly when length() == 0. -/
theorem C18_round_trip_size (q : cMessageHeap) (hq : Reachable q) (e : EventId)
    (he : ¬ Contained q e) :
    (∃ r, insert q e = .ok r ∧ length r = length q + 1 ∧
      length (removeFirst r).2 = length q) ∧
    (length q = 1 → length (removeFirst q).2 = 0) ∧
    (empty q = true ↔ length q = 0) := by
  obtain ⟨hi, hs⟩ := hq.inv
  obtain ⟨r, hr, hI⟩ := insert_spec hi (hs e he)
  refine ⟨⟨r, hr, hI.n_eq, ?_⟩, ?_, ?_⟩
  · have hR := removeFirst_spec hI.inv (by rw [hI.n_eq]; omega)
    have := hR.n_eq
    unfold length
    rw [hI.n_eq] at this
    omega
  · intro h1
    unfold length at h1 ⊢
    have hR := removeFirst_spec hi (by omega)
    have := hR.n_eq
    omega
  · simp [empty, length]

/-- Instance of C18: event 7 is not in the sample heap. -/
theorem C18_round_trip_size_witness :
    Reachable sampleHeap ∧ ¬ Contained sampleHeap 7 ∧
    ∃ r, insert sampleHeap 7 = .ok r ∧ length r = length sampleHeap + 1 ∧
      length (removeFirst r).2 = length sampleHeap :=
  ⟨sampleHeap_reachable, by decide!,
    (C18_round_trip_size sampleHeap sampleHeap_reachable 7 (by decide!)).1⟩

/-- C19: for every heap state and every event e whose heapindex is the
sentinel -1, or that is in no slot of the heap, get(e) returns NULL and leaves
the heap exactly as it was. -/
theorem C19_get_absent (q : cMessageHeap) (e : EventId)
    (he : (q.ev e).heapindex = -1 ∨ ¬ Contained q e) :
    get q e = (none, q) ∧ length (get q e).2 = length q ∧
      ∀ i, (get q e).2.h i = q.h i := by
  have h : get q e = (none, q) := by
    rcases he with h | h
    · unfold get
      rw [if_pos (Or.inl h)]
    · exact get_none q e h
  rw [h]
  exact ⟨rfl, rfl, fun _ => rfl⟩

/-- Instance of C19: event 2 was cancelled from the sample heap. -/
theorem C19_get_absent_witness :
    ((sampleHeap.ev 2).heapindex = -1 ∨ ¬ Contained sampleHeap 2) ∧
    get sampleHeap 2 = (none, sampleHeap) :=
  ⟨Or.inl (by decide!), (C19_get_absent sampleHeap 2 (Or.inl (by decide!))).1⟩

/-- C20: for every reachable heap state and every event e contained in it,
insert(e) is rejected with the error alreadyScheduled, the heap state after
the call is the one before it, and e is in exactly one slot. -/
theorem C20_insert_contained (q : cMessageHeap) (hq : Reachable q) (e : EventId)
    (hc : Contained q e) :
    insert q e = .error .alreadyScheduled ∧ afterInsert q e = q ∧
      ∃ i, (1 ≤ i ∧ i ≤ q.n ∧ q.h i = e) ∧ ∀ j, 1 ≤ j ∧ j ≤ q.n ∧ q.h j = e → j = i := by
  obtain ⟨hi, _⟩ := hq.inv
  have hne := (hc.heapindex hi.2).2.2.2
  refine ⟨?_, afterInsert_error q e hne, ?_⟩
  · unfold insert
    rw [if_pos hne]
  · obtain ⟨i, h1, h2, h3⟩ := hc
    refine ⟨i, ⟨h1, h2, h3⟩, ?_⟩
    rintro j ⟨j1, j2, j3⟩
    exact hi.2.inj j1 j2 h1 h2 (j3.trans h3.symm)

/-- Instance of C20: event 3 is in the sample heap. -/
theorem C20_insert_contained_witness :
    Reachable sampleHeap ∧ Contained sampleHeap 3 ∧
    insert sampleHeap 3 = .error .alreadyScheduled ∧ afterInsert sampleHeap 3 = sampleHeap :=
  ⟨sampleHeap_reachable, by decide!,
    (C20_insert_contained sampleHeap sampleHeap_reachable 3 (by decide!)).1,
    (C20_insert_contained sampleHeap sampleHeap_reachable 3 (by decide!)).2.1⟩

/-! ## Reading a position, walking the heap -/

/-- C21: for every heap state and every integer `m`, `peek(m)` returns the
event of backing slot `m + 1`, one of the contained events, when
`0 ≤ m < length()`, and NULL otherwise, also for a negative `m`; `peek(0)` is
`peekFirst()`, and the heap is left as it was. -/
theorem C21_peek_contract (q : cMessageHeap) (m : ℤ) :
    (0 ≤ m ∧ m < (length q : ℤ) →
      (peek q m).1 = some (q.h (m.toNat + 1)) ∧ Contained q (q.h (m.toNat + 1))) ∧
    (¬ (0 ≤ m ∧ m < (length q : ℤ)) → (peek q m).1 = none) ∧
    (m < 0 → (peek q m).1 = none) ∧
    (peek q 0).1 = peekFirst q ∧
    (peek q m).2 = q := by
  refine ⟨?_, ?_, ?_, ?_, rfl⟩
  · intro hm
    have hm1 : 0 ≤ m ∧ m < (q.n : ℤ) := hm
    refine ⟨by simp only [peek, if_pos hm1], m.toNat + 1, by omega, ?_, rfl⟩
    have := Int.toNat_of_nonneg hm1.1
    omega
  · intro hm
    have hm1 : ¬ (0 ≤ m ∧ m < (q.n : ℤ)) := hm
    simp only [peek, if_neg hm1]
  · intro hm
    have hm1 : ¬ (0 ≤ m ∧ m < (q.n : ℤ)) := fun h => by omega
    simp only [peek, if_neg hm1]
  · unfold peek peekFirst
    by_cases hn : q.n = 0
    · have hm1 : ¬ ((0 : ℤ) ≤ 0 ∧ (0 : ℤ) < (q.n : ℤ)) := fun h => by omega
      simp only [if_neg hm1, if_pos hn]
    · have hm1 : (0 : ℤ) ≤ 0 ∧ (0 : ℤ) < (q.n : ℤ) := ⟨le_refl 0, by omega⟩
      simp only [if_pos hm1, if_neg hn]
      rfl

/-- C23 (the code at a failing input): on the heap of the concrete instances,
whose slots 1, 2, 3 hold the events 4, 3, 1, the iterator at position 1 has
the event 4 as its current object, yet `operator++(int)` returns the event 3
of slot 2 and moves to position 2; at position 3, the last one, it returns the
content of slot 4, which is none of the contained events, and only from
position 4 on it returns NULL. -/
theorem C23_post_increment_returns_next :
    sampleHeap.n = 3 ∧
    Iterator.current sampleHeap Iterator.init = 4 ∧
    Iterator.postIncrement sampleHeap Iterator.init = (some 3, ⟨2⟩) ∧
    Iterator.postIncrement sampleHeap ⟨3⟩ = (some (sampleHeap.h 4), ⟨4⟩) ∧
    ¬ Contained sampleHeap (sampleHeap.h 4) ∧
    Iterator.postIncrement sampleHeap ⟨4⟩ = (none, ⟨4⟩) := by
  decide!

/-! ## Lifecycle notifications -/

/-- C24: `cScheduler::lifetimeEvent` calls `startRun` once for
`LF_PRE_NETWORK_INITIALIZE`, `endRun` once for `LF_ON_RUN_END`,
`executionResumed` once for `LF_ON_SIMULATION_RESUME`, and no other hook in
these cases; for every other event type it calls no hook and leaves the state
of the scheduler unchanged. This holds for every scheduler, among them the
real-time scheduler. -/
theorem C24_lifetime_dispatch {σ : Type} (sch : cScheduler σ) (s : σ) (log : List Hook) :
    sch.lifetimeEvent .LF_PRE_NETWORK_INITIALIZE (s, log)
      = (sch.startRun s, Hook.startRun :: log) ∧
    sch.lifetimeEvent .LF_ON_RUN_END (s, log) = (sch.endRun s, Hook.endRun :: log) ∧
    sch.lifetimeEvent .LF_ON_SIMULATION_RESUME (s, log)
      = (sch.executionResumed s, Hook.executionResumed :: log) ∧
    (∀ code, sch.lifetimeEvent (.LF_OTHER code) (s, log) = (s, log)) ∧
    (∀ (w : World) (scaling : ℚ) (endRun : RunState → RunState) (r : RunState),
      (cRealTimeScheduler.hooks w scaling endRun).lifetimeEvent .LF_PRE_NETWORK_INITIALIZE
          (r, log) = (cRealTimeScheduler.startRun w scaling r, Hook.startRun :: log) ∧
      (cRealTimeScheduler.hooks w scaling endRun).lifetimeEvent .LF_ON_SIMULATION_RESUME
          (r, log) = (cRealTimeScheduler.executionResumed w r, Hook.executionResumed :: log)) :=
  ⟨rfl, rfl, rfl, fun _ => rfl, fun _ _ _ _ => ⟨rfl, rfl⟩⟩

/-! ## Selecting the shortest queue -/

/-- C25 (the code at a failing input): `sizeMin` starts at `2^30`, which is 28
in C++; with one gate whose queue holds 28 jobs, `select` returns `-1` though
the queue is selectable, and so it does with queues of 30 and 40 jobs; with
queues of 27 and 30 jobs it returns gate 0, with queues of 30 and 29 jobs it
returns `-1` rather than gate 1; queues shorter than 28 are told apart as
expected. -/
theorem C25_select_ignores_long_queues :
    sizeMinInit = 28 ∧
    ShortestQueueSelectionStrategy.select [28] = -1 ∧
    ShortestQueueSelectionStrategy.select [30, 0, 40] = -1 ∧
    ShortestQueueSelectionStrategy.select [30, 29] = -1 ∧
    ShortestQueueSelectionStrategy.select [27, 30] = 0 ∧
    ShortestQueueSelectionStrategy.select [3, 2, 2] = 1 ∧
    ShortestQueueSelectionStrategy.select [0, 0] = -1 := by
  decide

/-! ## Copying an event -/

/-- C28: `cEvent::operator=` leaves `heapindex` and the insertion order of
the target as they were and gives it the priority and the delivery time of the
source; assigning an event to itself changes nothing; every other event, the
source among them, is left as it was. A copy-constructed event has
`heapindex = -1` and the priority and the delivery time of the source,
whatever the `heapindex` of the source is, and the construction changes no
other event. -/
theorem C28_assignment_keeps_containment (ev : EventId → cEvent) (target source : EventId)
    (raw : cEvent) :
    (cEvent.assign ev target source target).heapindex = (ev target).heapindex ∧
    (cEvent.assign ev target source target).insertordr = (ev target).insertordr ∧
    (cEvent.assign ev target source target).prior = (ev source).prior ∧
    (cEvent.assign ev target source target).delivd = (ev source).delivd ∧
    cEvent.assign ev target target = ev ∧
    (∀ x, x ≠ target → cEvent.assign ev target source x = ev x) ∧
    (target ≠ source →
      (cEvent.copyConstruct ev target source raw target).heapindex = -1 ∧
      (cEvent.copyConstruct ev target source raw target).prior = (ev source).prior ∧
      (cEvent.copyConstruct ev target source raw target).delivd = (ev source).delivd ∧
      cEvent.copyConstruct ev target source raw source = ev source) ∧
    (∀ x, x ≠ target → cEvent.copyConstruct ev target source raw x = ev x) := by
  have hassign : ∀ (f : EventId → cEvent) x, x ≠ target →
      cEvent.assign f target source x = f x := by
    intro f x hx
    unfold cEvent.assign
    split_ifs
    · rfl
    · exact Function.update_noteq hx _ _
  have hself : ∀ (f : EventId → cEvent), target ≠ source →
      cEvent.assign f target source target
        = { f target with prior := (f source).prior, delivd := (f source).delivd } := by
    intro f hts
    unfold cEvent.assign
    rw [if_neg hts, Function.update_same]
  refine ⟨?_, ?_, ?_, ?_, ?_, hassign ev, ?_, ?_⟩
  · by_cases hts : target = source
    · simp [cEvent.assign, hts]
    · rw [hself ev hts]
  · by_cases hts : target = source
    · simp [cEvent.assign, hts]
    · rw [hself ev hts]
  · by_cases hts : target = source
    · simp [cEvent.assign, hts]
    · rw [hself ev hts]
  · by_cases hts : target = source
    · simp [cEvent.assign, hts]
    · rw [hself ev hts]
  · simp [cEvent.assign]
  · intro hts
    have hs : Function.update ev target { raw with heapindex := -1 } source = ev source :=
      Function.update_noteq (Ne.symm hts) _ _
    refine ⟨?_, ?_, ?_, ?_⟩
    · unfold cEvent.copyConstruct
      rw [hself _ hts, Function.update_same]
    · unfold cEvent.copyConstruct
      rw [hself _ hts, hs]
    · unfold cEvent.copyConstruct
      rw [hself _ hts, hs]
    · unfold cEvent.copyConstruct
      rw [hassign _ _ (Ne.symm hts), hs]
  · intro x hx
    unfold cEvent.copyConstruct
    rw [hassign _ _ hx]
    exact Function.update_noteq hx _ _

/-! ## The header of an exported vector -/

/-- C30 (the code at a failing input): for a vector of three elements saved
from index 0 to its end, given as `-1` or as `3`, the header announces `-3`
rows while three data lines follow, with two columns (`saveVector`) and with
one (`saveVectorX`, `saveVectorY`); only for equal indices the two numbers
agree. -/
theorem C30_header_rows_negated :
    OctaveExport.headerRows (OctaveExport.saveVector 2 "v" 3 0 (-1)) = some (-3) ∧
    OctaveExport.dataLines (OctaveExport.saveVector 2 "v" 3 0 (-1)) = 3 ∧
    OctaveExport.headerRows (OctaveExport.saveVector 2 "v" 3 0 3) = some (-3) ∧
    OctaveExport.dataLines (OctaveExport.saveVector 2 "v" 3 0 3) = 3 ∧
    OctaveExport.headerRows (OctaveExport.saveVector 1 "v" 3 1 3) = some (-2) ∧
    OctaveExport.dataLines (OctaveExport.saveVector 1 "v" 3 1 3) = 2 ∧
    OctaveExport.headerRows (OctaveExport.saveVector 2 "v" 3 2 2) = some 0 ∧
    OctaveExport.dataLines (OctaveExport.saveVector 2 "v" 3 2 2) = 0 := by
  decide

/-! ## Termination of the sequential scheduler -/

theorem seq_loop_all_stale : ∀ (l : List EventId) (s : RunState) (fuel : ℕ),
    Inv s.msgQueue → s.msgQueue.n < fuel → drain s.msgQueue = l →
    (∀ x ∈ l, (s.msgQueue.ev x).stale = true) →
    cSequentialScheduler.loop fuel s =
      (.endedOk, { s with msgQueue := popN (l.length + 1) s.msgQueue
                          deleted := l.reverse ++ s.deleted })
  | _, s, 0, _, hf, _, _ => absurd hf (Nat.not_lt_zero _)
  | [], s, fuel + 1, hq, _, hd, _ => by
    have hn : s.msgQueue.n = 0 := by
      have := (drain_spec hq).length_eq
      rw [hd] at this
      exact this.symm
    unfold cSequentialScheduler.loop
    have hfst : (removeFirst s.msgQueue).1 = none := by rw [removeFirst_none _ hn]
    simp only [hfst]
    rfl
  | x :: l, s, fuel + 1, hq, hf, hd, hst => by
    have hn : s.msgQueue.n ≠ 0 := by
      intro h0
      rw [drain_nil _ h0] at hd
      cases hd
    rw [drain_cons hq hn] at hd
    have h1 : s.msgQueue.h 1 = x := (List.cons.inj hd).1
    have hd2 : drain (removeFirst s.msgQueue).2 = l := (List.cons.inj hd).2
    have hR := removeFirst_spec hq hn
    unfold cSequentialScheduler.loop
    have hfst : (removeFirst s.msgQueue).1 = some x := by rw [removeFirst_eq _ hn, h1]
    simp only [hfst]
    rw [if_pos (by rw [hR.frame.stale_eq]; exact hst x (List.mem_cons_self _ _))]
    rw [seq_loop_all_stale l _ fuel hR.inv
      (by have := hR.n_eq; show (removeFirst s.msgQueue).2.n < fuel; omega) hd2
      (fun y hy => by
        show ((removeFirst s.msgQueue).2.ev y).stale = true
        rw [hR.frame.stale_eq]; exact hst y (List.mem_cons_of_mem _ hy))]
    simp [popN, List.reverse_cons, List.append_assoc]

/-- C26: on every reachable future event set of `n` events
`cSequentialScheduler::takeNextEvent` ends within `n + 1` iterations, each with
one call of `removeFirst`: it returns an event or signals eENDEDOK, after
`pre.length + 1 ≤ n + 1` calls of `removeFirst`, where `pre`, the events
deleted, is a prefix of the pop order made of stale events. If every event of
the set is stale, it deletes all `n` of them, leaves the set empty and signals
eENDEDOK. -/
theorem C26_sequential_terminates (s : RunState) (hq : Reachable s.msgQueue) :
    (∃ pre, pre <+: drain s.msgQueue ∧ pre.length + 1 ≤ s.msgQueue.n + 1 ∧
      (∀ x ∈ pre, (s.msgQueue.ev x).stale = true) ∧
      (cSequentialScheduler.takeNextEvent s).2 =
        { s with msgQueue := popN (pre.length + 1) s.msgQueue
                 deleted := pre.reverse ++ s.deleted } ∧
      ((cSequentialScheduler.takeNextEvent s).1 = .endedOk ∨
        ∃ e, (cSequentialScheduler.takeNextEvent s).1 = .event e)) ∧
    ((∀ x, Contained s.msgQueue x → (s.msgQueue.ev x).stale = true) →
      (cSequentialScheduler.takeNextEvent s).1 = .endedOk ∧
      (cSequentialScheduler.takeNextEvent s).2.deleted
        = (drain s.msgQueue).reverse ++ s.deleted ∧
      (drain s.msgQueue).length = s.msgQueue.n ∧
      (∀ x, x ∈ drain s.msgQueue ↔ Contained s.msgQueue x) ∧
      empty (cSequentialScheduler.takeNextEvent s).2.msgQueue = true) := by
  have hi := hq.inv.1
  have hD := drain_spec hi
  have hall : (∀ x ∈ drain s.msgQueue, (s.msgQueue.ev x).stale = true) →
      cSequentialScheduler.takeNextEvent s =
        (.endedOk, { s with msgQueue := popN ((drain s.msgQueue).length + 1) s.msgQueue
                            deleted := (drain s.msgQueue).reverse ++ s.deleted }) :=
    fun h => seq_loop_all_stale _ s _ hi (Nat.lt_succ_self _) rfl h
  constructor
  · by_cases hex : ∃ x ∈ drain s.msgQueue, ¬ (s.msgQueue.ev x).stale = true
    · obtain ⟨pre, e, post, h1, h2, h3⟩ :=
        split_first (fun x => (s.msgQueue.ev x).stale = true) (drain s.msgQueue) hex
      have h3' : (s.msgQueue.ev e).stale = false := by simpa using h3
      have ht : cSequentialScheduler.takeNextEvent s = _ :=
        seq_loop_spec pre s _ e post hi (Nat.lt_succ_self _) h1 h2 h3'
      refine ⟨pre, ⟨e :: post, h1.symm⟩, ?_, h2, by rw [ht], Or.inr ⟨e, by rw [ht]⟩⟩
      have := hD.length_eq
      rw [h1, List.length_append, List.length_cons] at this
      omega
    · have hst : ∀ x ∈ drain s.msgQueue, (s.msgQueue.ev x).stale = true := by
        intro x hx
        by_contra hc
        exact hex ⟨x, hx, hc⟩
      refine ⟨drain s.msgQueue, List.prefix_refl _, by rw [hD.length_eq], hst,
        by rw [hall hst], Or.inl (by rw [hall hst])⟩
  · intro hst
    have hst2 : ∀ x ∈ drain s.msgQueue, (s.msgQueue.ev x).stale = true :=
      fun x hx => hst x ((hD.mem x).1 hx)
    refine ⟨by rw [hall hst2], by rw [hall hst2], hD.length_eq, hD.mem, ?_⟩
    rw [hall hst2]
    show empty (popN ((drain s.msgQueue).length + 1) s.msgQueue) = true
    have := (popN_spec ((drain s.msgQueue).length + 1) s.msgQueue hi).2.1
    rw [hD.length_eq] at this ⊢
    unfold empty
    rw [this]
    simp

/-- Instance of C26: both events of the set are stale; the call deletes
event 1, then event 2, and signals eENDEDOK. -/
theorem C26_sequential_terminates_witness :
    Reachable (runStateOf allStaleHeap).msgQueue ∧
    (cSequentialScheduler.takeNextEvent (runStateOf allStaleHeap)).1 = .endedOk ∧
    (cSequentialScheduler.takeNextEvent (runStateOf allStaleHeap)).2.deleted = [2, 1] ∧
    (cSequentialScheduler.takeNextEvent (runStateOf allStaleHeap)).2.msgQueue.n = 0 ∧
    ((∀ x, Contained (runStateOf allStaleHeap).msgQueue x →
        ((runStateOf allStaleHeap).msgQueue.ev x).stale = true) →
      (cSequentialScheduler.takeNextEvent (runStateOf allStaleHeap)).1 = .endedOk ∧
      (cSequentialScheduler.takeNextEvent (runStateOf allStaleHeap)).2.deleted
        = (drain (runStateOf allStaleHeap).msgQueue).reverse
          ++ (runStateOf allStaleHeap).deleted ∧
      (drain (runStateOf allStaleHeap).msgQueue).length
        = (runStateOf allStaleHeap).msgQueue.n ∧
      (∀ x, x ∈ drain (runStateOf allStaleHeap).msgQueue ↔
        Contained (runStateOf allStaleHeap).msgQueue x) ∧
      empty (cSequentialScheduler.takeNextEvent (runStateOf allStaleHeap)).2.msgQueue
        = true) :=
  ⟨⟨staleEvents, _, fun _ => rfl, rfl⟩, by decide!, by decide!, by decide!,
    (C26_sequential_terminates (runStateOf allStaleHeap)
      ⟨staleEvents, _, fun _ => rfl, rfl⟩).2⟩

/-! ## Short waits -/

theorem waitUntil_short (w : World) (targetTime : timeval) (s : RunState)
    (hnorm : 0 ≤ targetTime.tv_usec ∧ targetTime.tv_usec < 1000000)
    (hshort : timeval_diff_usec targetTime (gettimeofday w s).1 < 200000) :
    cRealTimeScheduler.waitUntil w targetTime s =
      (some true,
        if timeval_diff_usec targetTime (gettimeofday w s).1 > 0 then
          usleep w (timeval_diff_usec targetTime (gettimeofday w s).1) (gettimeofday w s).2
        else (gettimeofday w s).2) := by
  unfold cRealTimeScheduler.waitUntil cRealTimeScheduler.waitFuel
  unfold cRealTimeScheduler.waitLoop
  rw [if_neg]
  intro h
  rcases h with h | h
  · rw [timeval_diff_usec_eq] at hshort
    have hc : (gettimeofday w s).1.toUsec
        = (gettimeofday w s).1.tv_sec * 1000000 + (gettimeofday w s).1.tv_usec := rfl
    have ht : targetTime.toUsec = targetTime.tv_sec * 1000000 + targetTime.tv_usec := rfl
    have hu : (gettimeofday w s).1.tv_usec < 1000000 := by
      show (s.clock + (w.elapse s.calls : ℤ)) % 1000000 < 1000000
      omega
    omega
  · omega

theorem targetTime_normal (s : RunState) (event : EventId) :
    0 ≤ (cRealTimeScheduler.targetTime s event).tv_usec ∧
    (cRealTimeScheduler.targetTime s event).tv_usec < 1000000 := by
  unfold cRealTimeScheduler.targetTime timeval_add timeval.ofUsec
  constructor
  · exact Int.emod_nonneg _ (by norm_num)
  · exact Int.emod_lt_of_pos _ (by norm_num)

/-- C27: when the target time, a `timeval` with `0 ≤ tv_usec < 1000000`, is
less than 200000 microseconds ahead of the time that `waitUntil` reads on
entry, `waitUntil` returns true without polling `ev.idle()`, leaves the future
event set as it was, and sleeps once, for the whole remaining time, when that
is positive, and not at all otherwise; the clock has then reached the target
time. Consequently, for every answer of `ev.idle()`, `takeNextEvent` returns
the first event when its target time is less than 200000 microseconds ahead of
the time it reads, without polling `ev.idle()`. -/
theorem C27_short_wait_uninterrupted (w : World) (s : RunState) (targetTime : timeval)
    (hnorm : 0 ≤ targetTime.tv_usec ∧ targetTime.tv_usec < 1000000)
    (hshort : timeval_diff_usec targetTime (gettimeofday w s).1 < 200000) :
    (cRealTimeScheduler.waitUntil w targetTime s).1 = some true ∧
    (cRealTimeScheduler.waitUntil w targetTime s).2.idleCalls = s.idleCalls ∧
    (cRealTimeScheduler.waitUntil w targetTime s).2.msgQueue = s.msgQueue ∧
    (cRealTimeScheduler.waitUntil w targetTime s).2.slept
      = (if timeval_diff_usec targetTime (gettimeofday w s).1 > 0 then
          timeval_diff_usec targetTime (gettimeofday w s).1 :: s.slept
         else s.slept) ∧
    targetTime.toUsec ≤ (cRealTimeScheduler.waitUntil w targetTime s).2.clock ∧
    (∀ (r : RunState) (event : EventId), peekFirst r.msgQueue = some event →
      timeval_diff_usec (cRealTimeScheduler.targetTime r event) (gettimeofday w r).1
        < 200000 →
      (cRealTimeScheduler.takeNextEvent w r).1 = .event event ∧
      (cRealTimeScheduler.takeNextEvent w r).2.idleCalls = r.idleCalls ∧
      (cRealTimeScheduler.takeNextEvent w r).2.msgQueue = (removeFirst r.msgQueue).2) := by
  have hw := waitUntil_short w targetTime s hnorm hshort
  refine ⟨by rw [hw], ?_, ?_, ?_, ?_, ?_⟩
  · rw [hw]
    show (if _ then _ else _ : RunState).idleCalls = _
    split_ifs <;> rfl
  · rw [hw]
    show (if _ then _ else _ : RunState).msgQueue = _
    split_ifs <;> rfl
  · rw [hw]
    show (if _ then _ else _ : RunState).slept = _
    split_ifs <;> rfl
  · exact waitUntil_not_early w targetTime s (by rw [hw])
  · intro r event hp hd
    by_cases hg : timeval_greater (cRealTimeScheduler.targetTime r event)
        (gettimeofday w r).1 = true
    · have hd2 : timeval_diff_usec (cRealTimeScheduler.targetTime r event)
          (gettimeofday w (gettimeofday w r).2).1 < 200000 := by
        rw [timeval_diff_usec_eq] at hd ⊢
        rw [gettimeofday_cur w (gettimeofday w r).2, toUsec_ofUsec]
        rw [gettimeofday_cur w r, toUsec_ofUsec] at hd
        have := (gettimeofday_same w (gettimeofday w r).2).2.2.2.2.2
        omega
      have hw2 := waitUntil_short w (cRealTimeScheduler.targetTime r event)
        (gettimeofday w r).2 (targetTime_normal r event) hd2
      have hq2 : (cRealTimeScheduler.waitUntil w (cRealTimeScheduler.targetTime r event)
          (gettimeofday w r).2).2.msgQueue = r.msgQueue := by
        rw [hw2]
        show (if _ then _ else _ : RunState).msgQueue = _
        split_ifs <;> rfl
      have hi2 : (cRealTimeScheduler.waitUntil w (cRealTimeScheduler.targetTime r event)
          (gettimeofday w r).2).2.idleCalls = r.idleCalls := by
        rw [hw2]
        show (if _ then _ else _ : RunState).idleCalls = _
        split_ifs <;> rfl
      rw [take_waited w r event hp hg (by rw [hw2]),
        removeAndReturn_ok event _ (by rw [hq2]; exact hp)]
      exact ⟨rfl, hi2, by show (removeFirst _).2 = _; rw [hq2]⟩
    · have hg2 : timeval_greater (cRealTimeScheduler.targetTime r event)
          (gettimeofday w r).1 = false := by simpa using hg
      rw [take_behind w r event hp hg2]
      exact ⟨rfl, rfl, rfl⟩

/-- Instance of C27: the first event is due at 1 s and the clock is at 0.9 s;
`ev.idle()` would ask to stop at its first poll, yet the call sleeps once,
for the 99990 microseconds that remain, and returns the event. -/
theorem C27_short_wait_uninterrupted_witness :
    (cRealTimeScheduler.takeNextEvent stopWorld nearState).1 = .event 6 ∧
    (cRealTimeScheduler.takeNextEvent stopWorld nearState).2.slept = [99990] ∧
    (cRealTimeScheduler.takeNextEvent stopWorld nearState).2.idleCalls = 0 ∧
    (cRealTimeScheduler.takeNextEvent stopWorld nearState).2.clock = 1000005 ∧
    (cRealTimeScheduler.waitUntil stopWorld ⟨1, 0⟩ nearState).1 = some true ∧
    (cRealTimeScheduler.waitUntil stopWorld ⟨1, 0⟩ nearState).2.idleCalls
      = nearState.idleCalls :=
  ⟨by decide!, by decide!, by decide!, by decide!,
    (C27_short_wait_uninterrupted stopWorld nearState ⟨1, 0⟩ (by decide) (by decide)).1,
    (C27_short_wait_uninterrupted stopWorld nearState ⟨1, 0⟩ (by decide) (by decide)).2.1⟩

/-! ## Sorting the backing array -/

theorem putLast_spec {q : cMessageHeap} (h2 : H2 q) {e : EventId} (he : ¬ Contained q e) :
    H2 (putLast q e) ∧ Frame q (putLast q e) ∧
    (∀ x, Contained (putLast q e) x ↔ Contained q x ∨ x = e) ∧
    (∀ i, i ≤ q.n → (putLast q e).h i = q.h i) ∧ (putLast q e).h (q.n + 1) = e ∧
    (∀ x, x ≠ e → (putLast q e).ev x = q.ev x) := by
  have hh : ∀ i, i ≤ q.n → (putLast q e).h i = q.h i := fun i hi =>
    Function.update_noteq (by omega) _ _
  have hl : (putLast q e).h (q.n + 1) = e := Function.update_same _ _ _
  refine ⟨?_, fun x => setHeapindex_frame q.ev e x _, ?_, hh, hl,
    fun x hx => setHeapindex_ne q.ev e x _ hx⟩
  · intro i hi hin
    have hin1 : i ≤ q.n + 1 := hin
    by_cases hlast : i = q.n + 1
    · rw [hlast, hl]
      exact setHeapindex_self _ _ _
    · have hiq : i ≤ q.n := by omega
      rw [hh i hiq]
      have hne : q.h i ≠ e := fun h => he ⟨i, hi, hiq, h⟩
      show (setHeapindex q.ev e _ (q.h i)).heapindex = _
      rw [setHeapindex_ne _ _ _ _ hne]
      exact h2 i hi hiq
  · intro x
    constructor
    · rintro ⟨i, hi, hin, hx⟩
      have hin1 : i ≤ q.n + 1 := hin
      by_cases hlast : i = q.n + 1
      · right
        rw [← hx, hlast, hl]
      · left
        exact ⟨i, hi, by omega, by rw [← hh i (by omega)]; exact hx⟩
    · rintro (⟨i, hi, hin, hx⟩ | hx)
      · exact ⟨i, hi, Nat.le_succ_of_le hin, by rw [hh i hin]; exact hx⟩
      · exact ⟨q.n + 1, by omega, le_refl _, by rw [hl, hx]⟩

theorem fill_spec : ∀ (l : List EventId) (q : cMessageHeap), H2 q → l.Nodup →
    (∀ x ∈ l, ¬ Contained q x) →
    (fill q l).n = q.n + l.length ∧ H2 (fill q l) ∧ Frame q (fill q l) ∧
    (∀ x, Contained (fill q l) x ↔ Contained q x ∨ x ∈ l) ∧
    (∀ i, i ≤ q.n → (fill q l).h i = q.h i) ∧
    (∀ j (hj : j < l.length), (fill q l).h (q.n + j + 1) = l[j]) ∧
    (∀ x, x ∉ l → (fill q l).ev x = q.ev x)
  | [], q, h2, _, _ =>
    ⟨rfl, h2, Frame.refl q, fun x => by show Contained q x ↔ _; simp, fun _ _ => rfl,
      fun j hj => absurd hj (Nat.not_lt_zero _), fun _ _ => rfl⟩
  | e :: l, q, h2, hnd, hnc => by
    have he : ¬ Contained q e := hnc e (List.mem_cons_self _ _)
    obtain ⟨p2, pf, pc, ph, pl, pe⟩ := putLast_spec h2 he
    have hnd2 := List.nodup_cons.1 hnd
    have hnc2 : ∀ x ∈ l, ¬ Contained (putLast q e) x := by
      intro x hx hc
      rcases (pc x).1 hc with h | h
      · exact hnc x (List.mem_cons_of_mem _ hx) h
      · rw [h] at hx; exact hnd2.1 hx
    obtain ⟨fn, f2, ff, fc, fh, fl, fe⟩ := fill_spec l (putLast q e) p2 hnd2.2 hnc2
    have hpn : (putLast q e).n = q.n + 1 := rfl
    show (fill (putLast q e) l).n = _ ∧ H2 (fill (putLast q e) l) ∧
      Frame q (fill (putLast q e) l) ∧ (∀ x, Contained (fill (putLast q e) l) x ↔ _) ∧
      (∀ i, i ≤ q.n → (fill (putLast q e) l).h i = q.h i) ∧
      (∀ j (hj : j < (e :: l).length), (fill (putLast q e) l).h (q.n + j + 1) = (e :: l)[j]) ∧
      (∀ x, x ∉ e :: l → (fill (putLast q e) l).ev x = q.ev x)
    refine ⟨by rw [fn, hpn, List.length_cons]; omega, f2, pf.comp ff, ?_, ?_, ?_, ?_⟩
    · intro x
      rw [fc x, pc x, List.mem_cons]
      tauto
    · intro i hi
      rw [fh i (by rw [hpn]; omega), ph i hi]
    · intro j hj
      cases j with
      | zero =>
        rw [fh (q.n + 0 + 1) (by rw [hpn]), pl]
        rfl
      | succ j =>
        have hj2 : j < l.length := by simpa using hj
        have := fl j hj2
        rw [hpn] at this
        have e1 : q.n + (j + 1) + 1 = q.n + 1 + j + 1 := by omega
        rw [e1, this]
        rfl
    · intro x hx
      rw [List.mem_cons, not_or] at hx
      rw [fe x hx.2, pe x hx.1]

theorem popN_sentinel : ∀ (k : ℕ) (q : cMessageHeap), Inv q → Sentinel q →
    Sentinel (popN k q)
  | 0, _, _, hs => hs
  | k + 1, q, hq, hs =>
    popN_sentinel k _ (call_inv q .removeFirst hq hs).1 (call_inv q .removeFirst hq hs).2

theorem sort_spec {q : cMessageHeap} (hq : Inv q) :
    (sort q).n = q.n ∧ H2 (sort q) ∧ Frame q (sort q) ∧
    (∀ x, Contained (sort q) x ↔ Contained q x) ∧
    (∀ j (hj : j < (drain q).length), (sort q).h (j + 1) = (drain q)[j]) ∧
    (∀ x, ¬ Contained q x → (sort q).ev x = (popN q.n q).ev x) := by
  have hD := drain_spec hq
  obtain ⟨pi, pn, pf⟩ := popN_spec q.n q hq
  have pn0 : (popN q.n q).n = 0 := by rw [pn]; omega
  have hnc : ∀ x, ¬ Contained (popN q.n q) x := by
    rintro x ⟨i, hi, hin, _⟩
    omega
  obtain ⟨fn, f2, ff, fc, _, fl, fe⟩ :=
    fill_spec (drain q) (popN q.n q) pi.2 hD.nodup (fun x _ => hnc x)
  refine ⟨?_, f2, pf.comp ff, ?_, ?_, ?_⟩
  · show (fill (popN q.n q) (drain q)).n = q.n
    rw [fn, pn0, hD.length_eq]
    omega
  · intro x
    show Contained (fill (popN q.n q) (drain q)) x ↔ _
    rw [fc x, hD.mem x]
    constructor
    · rintro (h | h)
      · exact absurd h (hnc x)
      · exact h
    · exact Or.inr
  · intro j hj
    have := fl j hj
    rw [pn0] at this
    have e1 : j + 1 = 0 + j + 1 := by omega
    rw [e1]
    exact this
  · intro x hx
    exact fe x (fun h => hx ((hD.mem x).1 h))

theorem sort_ascending {q : cMessageHeap} (hq : Inv q) (i j : ℕ) (hi : 1 ≤ i) (hij : i ≤ j)
    (hj : j ≤ q.n) : (sort q).keyAt i ≤ (sort q).keyAt j := by
  have hD := drain_spec hq
  obtain ⟨_, _, sf, _, sl, _⟩ := sort_spec hq
  have hlen := hD.length_eq
  have hi1 : i - 1 < (drain q).length := by omega
  have hj1 : j - 1 < (drain q).length := by omega
  have ei : (sort q).h i = (drain q)[i - 1] := by
    have := sl (i - 1) hi1
    rwa [Nat.sub_add_cancel hi] at this
  have ej : (sort q).h j = (drain q)[j - 1] := by
    have := sl (j - 1) hj1
    rwa [Nat.sub_add_cancel (le_trans hi hij)] at this
  unfold cMessageHeap.keyAt
  rw [ei, ej, sf.key, sf.key]
  rcases Nat.lt_or_ge i j with h | h
  · exact List.pairwise_iff_getElem.1 hD.sorted (i - 1) (j - 1) hi1 hj1 (by omega)
  · have : i = j := le_antisymm hij h
    subst this
    exact le_refl _

/-- C22: for every reachable heap state, after `sort()` the heap has the same
length and contains the same events, each in one slot only and with its slot
as `heapindex` (H2); the keys of the events are the ones before; the backing
array is in ascending key order, so the key of `peek(i)` is at most the key of
`peek(i+1)` for all `0 ≤ i < length() - 1`, and the key of slot `i` at most
that of slot `j` whenever `i ≤ j`; the heap order H1 holds as well, and the
events outside keep `heapindex = -1`. -/
theorem C22_sort_ascending (q : cMessageHeap) (hq : Reachable q) :
    length (sort q) = length q ∧
    (∀ x, Contained (sort q) x ↔ Contained q x) ∧
    H2 (sort q) ∧
    (∀ i j, 1 ≤ i → i ≤ (sort q).n → 1 ≤ j → j ≤ (sort q).n →
      (sort q).h i = (sort q).h j → i = j) ∧
    (∀ x, ((sort q).ev x).key = (q.ev x).key) ∧
    (∀ i : ℤ, 0 ≤ i → i < (length (sort q) : ℤ) - 1 →
      ∃ a b, (peek (sort q) i).1 = some a ∧ (peek (sort q) (i + 1)).1 = some b ∧
        ((sort q).ev a).key ≤ ((sort q).ev b).key) ∧
    (∀ i j, 1 ≤ i → i ≤ j → j ≤ (sort q).n → (sort q).keyAt i ≤ (sort q).keyAt j) ∧
    H1 (sort q) ∧ Sentinel (sort q) := by
  have hi := hq.inv.1
  obtain ⟨sn, s2, sf, sc, sl, se⟩ := sort_spec hi
  refine ⟨sn, sc, s2, ?_, sf.key, ?_, ?_, ?_, ?_⟩
  · intro i j hi1 hin hj1 hjn hij
    have a := s2 i hi1 hin
    have b := s2 j hj1 hjn
    rw [hij, b] at a
    exact (Int.ofNat_inj.1 a).symm
  · intro i h0 hlt
    have hn : (length (sort q) : ℤ) = (q.n : ℤ) := by rw [show length (sort q) = q.n from sn]
    rw [hn] at hlt
    have hsn : ((sort q).n : ℤ) = (q.n : ℤ) := by rw [sn]
    refine ⟨(sort q).h (i.toNat + 1), (sort q).h ((i + 1).toNat + 1), ?_, ?_, ?_⟩
    · have hc : 0 ≤ i ∧ i < ((sort q).n : ℤ) := ⟨h0, by omega⟩
      simp only [peek, if_pos hc]
    · have hc : 0 ≤ i + 1 ∧ i + 1 < ((sort q).n : ℤ) := ⟨by omega, by omega⟩
      simp only [peek, if_pos hc]
    · have := Int.toNat_of_nonneg h0
      have h1 : (0 : ℤ) ≤ i + 1 := by omega
      have := Int.toNat_of_nonneg h1
      exact sort_ascending hi _ _ (by omega) (by omega) (by omega)
  · intro i j hi1 hij hjn
    rw [sn] at hjn
    exact sort_ascending hi i j hi1 hij hjn
  · intro i hi2 hin
    rw [sn] at hin
    exact sort_ascending hi _ _ (by omega) (Nat.div_le_self _ _) hin
  · intro e he
    have he2 : ¬ Contained q e := fun h => he ((sc e).2 h)
    rw [se e he2]
    have hR := hq.inv.2 e he2
    obtain ⟨pi, pn, pf⟩ := popN_spec q.n q hi
    have hnc : ¬ Contained (popN q.n q) e := by
      rintro ⟨i, hi1, hin, _⟩
      omega
    exact (popN_sentinel q.n q hi hq.inv.2) e hnc

/-- Instance of C22: the events 4, 3, 1 of the sample heap, due at 3, 4 and
6, are in the slots 1, 2, 3 after sorting, as they were before. -/
theorem C22_sort_ascending_witness :
    Reachable sampleHeap ∧
    ((List.range 4).map (fun i => (sort sampleHeap).h i) = [0, 4, 3, 1]) ∧
    H1 (sort sampleHeap) ∧
    (∀ i : ℤ, 0 ≤ i → i < (length (sort sampleHeap) : ℤ) - 1 →
      ∃ a b, (peek (sort sampleHeap) i).1 = some a ∧
        (peek (sort sampleHeap) (i + 1)).1 = some b ∧
        ((sort sampleHeap).ev a).key ≤ ((sort sampleHeap).ev b).key) :=
  ⟨sampleHeap_reachable, by decide!,
    (C22_sort_ascending sampleHeap sampleHeap_reachable).2.2.2.2.2.2.2.1,
    (C22_sort_ascending sampleHeap sampleHeap_reachable).2.2.2.2.2.1⟩

/-! ## Children of an XML element -/

theorem Seg.append_iff (f : ℕ → Option ℕ) : ∀ (l1 l2 : List ℕ) (s t : Option ℕ),
    Seg f s (l1 ++ l2) t ↔ ∃ u, Seg f s l1 u ∧ Seg f u l2 t
  | [], l2, s, t => by simp [Seg]
  | x :: l1, l2, s, t => by
    show s = some x ∧ Seg f (f x) (l1 ++ l2) t ↔ ∃ u, (s = some x ∧ Seg f (f x) l1 u) ∧ Seg f u l2 t
    rw [Seg.append_iff f l1 l2]
    constructor
    · rintro ⟨h, u, a, b⟩
      exact ⟨u, ⟨h, a⟩, b⟩
    · rintro ⟨u, ⟨h, a⟩, b⟩
      exact ⟨h, u, a, b⟩

theorem Seg.congr {f g : ℕ → Option ℕ} : ∀ (l : List ℕ) (s t : Option ℕ),
    (∀ x ∈ l, g x = f x) → Seg f s l t → Seg g s l t
  | [], _, _, _, h => h
  | x :: l, s, t, hfg, h => by
    refine ⟨h.1, ?_⟩
    rw [hfg x (List.mem_cons_self _ _)]
    exact Seg.congr l _ _ (fun y hy => hfg y (List.mem_cons_of_mem _ hy)) h.2

theorem Seg.head_eq {f : ℕ → Option ℕ} {s : Option ℕ} {l : List ℕ} (h : Seg f s l none) :
    s = l.head? := by
  cases l with
  | nil => exact h
  | cons x l => exact h.1

theorem Seg.unique {f : ℕ → Option ℕ} : ∀ (l l2 : List ℕ) (s : Option ℕ),
    Seg f s l none → Seg f s l2 none → l = l2
  | [], [], _, _, _ => rfl
  | [], y :: l2, s, h1, h2 => by
    have a : s = none := h1
    have b : s = some y := h2.1
    rw [a] at b; cases b
  | x :: l, [], s, h1, h2 => by
    have a : s = none := h2
    have b : s = some x := h1.1
    rw [a] at b; cases b
  | x :: l, y :: l2, s, h1, h2 => by
    have a : s = some x := h1.1
    have b : s = some y := h2.1
    rw [a] at b
    have hxy : x = y := Option.some.inj b
    subst hxy
    rw [Seg.unique l l2 _ h1.2 h2.2]

theorem chain_of_seg {f : ℕ → Option ℕ} : ∀ (l : List ℕ) (s : Option ℕ) (fuel : ℕ),
    Seg f s l none → l.length ≤ fuel → cXMLElement.chain f fuel s = some l
  | [], s, fuel, h, _ => by
    have a : s = none := h
    rw [a]
    cases fuel <;> rfl
  | x :: l, s, 0, _, hf => by simp at hf
  | x :: l, s, fuel + 1, h, hf => by
    have a : s = some x := h.1
    rw [a]
    show (cXMLElement.chain f fuel (f x)).map (x :: ·) = _
    rw [chain_of_seg l (f x) fuel h.2 (by simpa using hf)]
    rfl

theorem Seg.remove {f g : ℕ → Option ℕ} {s s2 : Option ℕ} {l1 l2 : List ℕ} {c : ℕ}
    (hnd : (l1 ++ c :: l2).Nodup) (h : Seg f s (l1 ++ c :: l2) none)
    (hg : ∀ x, x ≠ c → g x = if l1.getLast? = some x then f c else f x)
    (hs : s2 = if l1.getLast? = none then f c else s) :
    Seg g s2 (l1 ++ l2) none := by
  rw [List.nodup_append] at hnd
  obtain ⟨hn1, hn2, hdis⟩ := hnd
  have hc2 : c ∉ l2 := (List.nodup_cons.1 hn2).1
  have hc1 : c ∉ l1 := fun hx => hdis hx (List.mem_cons_self _ _)
  obtain ⟨u, h1, h2⟩ := (Seg.append_iff f l1 (c :: l2) s none).1 h
  have hu : u = some c := h2.1
  have h3 : Seg f (f c) l2 none := h2.2
  rw [hu] at h1
  rcases List.eq_nil_or_concat l1 with e | ⟨l, a, e⟩
  · subst e
    rw [List.getLast?_nil, if_pos rfl] at hs
    rw [hs, List.nil_append]
    refine Seg.congr l2 _ _ (fun x hx => ?_) h3
    rw [hg x (fun hxc => hc2 (hxc ▸ hx)), List.getLast?_nil, if_neg (by simp)]
  · rw [List.concat_eq_append] at e
    subst e
    have hl : (l ++ [a]).getLast? = some a := by simp
    rw [hl] at hg
    rw [hl, if_neg (by simp)] at hs
    obtain ⟨v, h4, h5⟩ := (Seg.append_iff f l [a] s (some c)).1 h1
    have hv : v = some a := h5.1
    have hfa : f a = some c := h5.2
    rw [hv] at h4
    have hac : a ≠ c := fun hx => hc1 (by rw [← hx]; simp)
    have hal : a ∉ l := by
      have := List.nodup_append.1 hn1
      exact fun hx => this.2.2 hx (List.mem_singleton_self a)
    have hal2 : a ∉ l2 := fun hx =>
      hdis (by simp : a ∈ l ++ [a]) (List.mem_cons_of_mem _ hx)
    rw [hs, List.append_assoc]
    refine (Seg.append_iff g l ([a] ++ l2) s none).2 ⟨some a, ?_, rfl, ?_⟩
    · refine Seg.congr l _ _ (fun x hx => ?_) h4
      have hxc : x ≠ c := fun hxc => hc1 (by rw [← hxc]; simp [hx])
      have hxa : x ≠ a := fun hxa => hal (hxa ▸ hx)
      rw [hg x hxc, if_neg (fun hh => hxa (Option.some.inj hh).symm)]
    · rw [hg a hac, if_pos rfl]
      refine Seg.congr l2 _ _ (fun x hx => ?_) h3
      have hxc : x ≠ c := fun hxc => hc2 (hxc ▸ hx)
      have hxa : x ≠ a := fun hxa => hal2 (hxa ▸ hx)
      rw [hg x hxc, if_neg (fun hh => hxa (Option.some.inj hh).symm)]

theorem Seg.extend {f g : ℕ → Option ℕ} {s s2 : Option ℕ} {l : List ℕ} {c : ℕ}
    (hnd : l.Nodup) (hc : c ∉ l) (h : Seg f s l none)
    (hg : ∀ x, x ≠ c → g x = if l.getLast? = some x then some c else f x)
    (hgc : g c = none)
    (hs : s2 = if l.getLast? = none then some c else s) :
    Seg g s2 (l ++ [c]) none := by
  rcases List.eq_nil_or_concat l with e | ⟨l0, a, e⟩
  · subst e
    rw [List.getLast?_nil, if_pos rfl] at hs
    rw [hs]
    exact ⟨rfl, hgc⟩
  · rw [List.concat_eq_append] at e
    subst e
    have hl : (l0 ++ [a]).getLast? = some a := by simp
    rw [hl] at hg
    rw [hl, if_neg (by simp)] at hs
    obtain ⟨v, h4, h5⟩ := (Seg.append_iff f l0 [a] s none).1 h
    have hv : v = some a := h5.1
    rw [hv] at h4
    have hac : a ≠ c := fun hx => hc (by rw [← hx]; simp)
    rw [hs, List.append_assoc]
    refine (Seg.append_iff g l0 ([a] ++ [c]) s none).2 ⟨some a, ?_, rfl, ?_, hgc⟩
    · refine Seg.congr l0 _ _ (fun x hx => ?_) h4
      have hxc : x ≠ c := fun hxc => hc (by rw [← hxc]; simp [hx])
      have hal : a ∉ l0 := fun hx =>
        (List.nodup_append.1 hnd).2.2 hx (List.mem_singleton_self a)
      have hxa : x ≠ a := fun hxa => hal (hxa ▸ hx)
      rw [hg x hxc, if_neg (fun hh => hxa (Option.some.inj hh).symm)]
    · rw [hg a hac, if_pos rfl]

theorem detachPrev_fields (m : cXMLElements) (q c : ℕ) :
    (cXMLElement.detachPrev m q c).parent = m.parent ∧
    (cXMLElement.detachPrev m q c).prevSibling = m.prevSibling ∧
    (cXMLElement.detachPrev m q c).lastChild = m.lastChild ∧
    (cXMLElement.detachPrev m q c).nextSibling c = m.nextSibling c ∧
    (∀ x, (cXMLElement.detachPrev m q c).nextSibling x
      = if m.prevSibling c = some x then m.nextSibling c else m.nextSibling x) ∧
    (∀ x, (cXMLElement.detachPrev m q c).firstChild x
      = if m.prevSibling c = none ∧ x = q then m.nextSibling c else m.firstChild x) := by
  unfold cXMLElement.detachPrev
  rcases hp : m.prevSibling c with _ | a
  · refine ⟨rfl, rfl, rfl, rfl, fun x => by simp, fun x => ?_⟩
    by_cases hx : x = q
    · subst hx; simp
    · simp [hx]
  · refine ⟨rfl, rfl, rfl, ?_, fun x => ?_, fun x => by simp⟩
    · by_cases hx : c = a
      · subst hx; simp
      · simp [Function.update_noteq hx]
    · by_cases hx : x = a
      · subst hx; simp
      · have : ¬ a = x := fun h => hx h.symm
        simp [hx, this]

theorem detachNext_fields (m : cXMLElements) (q c : ℕ) :
    (cXMLElement.detachNext m q c).parent = m.parent ∧
    (cXMLElement.detachNext m q c).nextSibling = m.nextSibling ∧
    (cXMLElement.detachNext m q c).firstChild = m.firstChild ∧
    (∀ x, (cXMLElement.detachNext m q c).prevSibling x
      = if m.nextSibling c = some x then m.prevSibling c else m.prevSibling x) ∧
    (∀ x, (cXMLElement.detachNext m q c).lastChild x
      = if m.nextSibling c = none ∧ x = q then m.prevSibling c else m.lastChild x) := by
  unfold cXMLElement.detachNext
  rcases hp : m.nextSibling c with _ | a
  · refine ⟨rfl, rfl, rfl, fun x => by simp, fun x => ?_⟩
    by_cases hx : x = q
    · subst hx; simp
    · simp [hx]
  · refine ⟨rfl, rfl, rfl, fun x => ?_, fun x => by simp⟩
    by_cases hx : x = a
    · subst hx; simp
    · have : ¬ a = x := fun h => hx h.symm
      simp [hx, this]

theorem removeChild_fields (m : cXMLElements) (q c : ℕ) :
    (∀ x, x ≠ c → (cXMLElement.removeChild m q c).parent x = m.parent x) ∧
    (cXMLElement.removeChild m q c).parent c = none ∧
    (∀ x, x ≠ c → (cXMLElement.removeChild m q c).nextSibling x
      = if m.prevSibling c = some x then m.nextSibling c else m.nextSibling x) ∧
    (cXMLElement.removeChild m q c).nextSibling c = none ∧
    (∀ x, x ≠ c → (cXMLElement.removeChild m q c).prevSibling x
      = if m.nextSibling c = some x then m.prevSibling c else m.prevSibling x) ∧
    (cXMLElement.removeChild m q c).prevSibling c = none ∧
    (∀ x, (cXMLElement.removeChild m q c).firstChild x
      = if m.prevSibling c = none ∧ x = q then m.nextSibling c else m.firstChild x) ∧
    (∀ x, (cXMLElement.removeChild m q c).lastChild x
      = if m.nextSibling c = none ∧ x = q then m.prevSibling c else m.lastChild x) := by
  obtain ⟨a1, a2, a3, a4, a5, a6⟩ := detachPrev_fields m q c
  obtain ⟨b1, b2, b3, b4, b5⟩ := detachNext_fields (cXMLElement.detachPrev m q c) q c
  refine ⟨fun x hx => ?_, ?_, fun x hx => ?_, ?_, fun x hx => ?_, ?_, fun x => ?_, fun x => ?_⟩
  · show Function.update (cXMLElement.detachNext (cXMLElement.detachPrev m q c) q c).parent
      c none x = _
    rw [Function.update_noteq hx, b1, a1]
  · exact Function.update_same _ _ _
  · show Function.update
      (cXMLElement.detachNext (cXMLElement.detachPrev m q c) q c).nextSibling c none x = _
    rw [Function.update_noteq hx, b2, a5]
  · exact Function.update_same _ _ _
  · show Function.update
      (cXMLElement.detachNext (cXMLElement.detachPrev m q c) q c).prevSibling c none x = _
    rw [Function.update_noteq hx, b4, a4, a2]
  · exact Function.update_same _ _ _
  · show (cXMLElement.detachNext (cXMLElement.detachPrev m q c) q c).firstChild x = _
    rw [b3, a6]
  · show (cXMLElement.detachNext (cXMLElement.detachPrev m q c) q c).lastChild x = _
    rw [b5, a4, a2, a3]

theorem attach_fields (m : cXMLElements) (p c : ℕ) :
    (∀ x, x ≠ c → (cXMLElement.setLast (cXMLElement.linkPrev (cXMLElement.setLinks m p c) p c)
      p c).parent x = m.parent x) ∧
    (cXMLElement.setLast (cXMLElement.linkPrev (cXMLElement.setLinks m p c) p c) p c).parent c
      = some p ∧
    (∀ x, x ≠ c → (cXMLElement.setLast (cXMLElement.linkPrev (cXMLElement.setLinks m p c) p c)
      p c).nextSibling x = if m.lastChild p = some x then some c else m.nextSibling x) ∧
    (m.lastChild p ≠ some c →
      (cXMLElement.setLast (cXMLElement.linkPrev (cXMLElement.setLinks m p c) p c)
        p c).nextSibling c = none) ∧
    (∀ x, x ≠ c → (cXMLElement.setLast (cXMLElement.linkPrev (cXMLElement.setLinks m p c) p c)
      p c).prevSibling x = m.prevSibling x) ∧
    (cXMLElement.setLast (cXMLElement.linkPrev (cXMLElement.setLinks m p c) p c)
      p c).prevSibling c = m.lastChild p ∧
    (∀ x, (cXMLElement.setLast (cXMLElement.linkPrev (cXMLElement.setLinks m p c) p c)
      p c).firstChild x = if m.lastChild p = none ∧ x = p then some c else m.firstChild x) ∧
    (∀ x, x ≠ p → (cXMLElement.setLast (cXMLElement.linkPrev (cXMLElement.setLinks m p c) p c)
      p c).lastChild x = m.lastChild x) ∧
    (cXMLElement.setLast (cXMLElement.linkPrev (cXMLElement.setLinks m p c) p c)
      p c).lastChild p = some c := by
  have hprev : (cXMLElement.setLinks m p c).prevSibling c = m.lastChild p :=
    Function.update_same _ _ _
  unfold cXMLElement.setLast cXMLElement.linkPrev
  rw [hprev]
  rcases hl : m.lastChild p with _ | a
  · refine ⟨fun x hx => ?_, ?_, fun x hx => ?_, fun _ => ?_, fun x hx => ?_, ?_, fun x => ?_,
      fun x hx => ?_, ?_⟩
    · exact Function.update_noteq hx _ _
    · exact Function.update_same _ _ _
    · show Function.update m.nextSibling c none x = _
      rw [Function.update_noteq hx]; simp
    · exact Function.update_same _ _ _
    · exact Function.update_noteq hx _ _
    · show Function.update m.prevSibling c (m.lastChild p) c = _
      rw [Function.update_same, hl]
    · show Function.update m.firstChild p (some c) x = _
      by_cases hx : x = p
      · subst hx; simp
      · simp [hx]
    · exact Function.update_noteq hx _ _
    · exact Function.update_same _ _ _
  · refine ⟨fun x hx => ?_, ?_, fun x hx => ?_, fun hne => ?_, fun x hx => ?_, ?_, fun x => ?_,
      fun x hx => ?_, ?_⟩
    · exact Function.update_noteq hx _ _
    · exact Function.update_same _ _ _
    · show Function.update (Function.update m.nextSibling c none) a (some c) x = _
      by_cases hxa : x = a
      · subst hxa; simp
      · have : ¬ a = x := fun h => hxa h.symm
        rw [Function.update_noteq hxa, Function.update_noteq hx]
        simp [this]
    · show Function.update (Function.update m.nextSibling c none) a (some c) c = _
      have hca : c ≠ a := fun h => hne (by rw [h])
      rw [Function.update_noteq hca, Function.update_same]
    · exact Function.update_noteq hx _ _
    · show Function.update m.prevSibling c (m.lastChild p) c = _
      rw [Function.update_same, hl]
    · show m.firstChild x = _
      simp
    · exact Function.update_noteq hx _ _
    · exact Function.update_same _ _ _

theorem ChildList.last_eq {m : cXMLElements} {p : ℕ} {l : List ℕ} (h : ChildList m p l) :
    m.lastChild p = l.getLast? := by
  rw [← List.head?_reverse]
  exact h.2.2.2.head_eq

theorem ChildList.links {m : cXMLElements} {q c : ℕ} {l1 l2 : List ℕ}
    (h : ChildList m q (l1 ++ c :: l2)) :
    m.prevSibling c = l1.getLast? ∧ m.nextSibling c = l2.head? := by
  obtain ⟨_, _, hf, hb⟩ := h
  have hrev : (l1 ++ c :: l2).reverse = l2.reverse ++ c :: l1.reverse := by simp
  rw [hrev] at hb
  obtain ⟨u, _, hb2⟩ := (Seg.append_iff _ _ _ _ _).1 hb
  obtain ⟨v, _, hf2⟩ := (Seg.append_iff _ _ _ _ _).1 hf
  refine ⟨?_, hf2.2.head_eq⟩
  rw [← List.head?_reverse]
  exact hb2.2.head_eq

theorem removeChild_childList {m : cXMLElements} {q c : ℕ} {l1 l2 : List ℕ}
    (h : ChildList m q (l1 ++ c :: l2)) :
    ChildList (cXMLElement.removeChild m q c) q (l1 ++ l2) := by
  obtain ⟨hprev, hnext⟩ := h.links
  obtain ⟨hnd, hpar, hf, hb⟩ := h
  obtain ⟨r1, _, r3, _, r5, _, r7, r8⟩ := removeChild_fields m q c
  have hrev : (l1 ++ c :: l2).reverse = l2.reverse ++ c :: l1.reverse := by simp
  have hc : c ∉ l1 ++ l2 := by
    have := List.nodup_append.1 hnd
    intro hx
    rcases List.mem_append.1 hx with hx | hx
    · exact this.2.2 hx (List.mem_cons_self _ _)
    · exact (List.nodup_cons.1 this.2.1).1 hx
  refine ⟨hnd.sublist ((List.Sublist.refl l1).append (List.sublist_cons_self c l2)), ?_, ?_, ?_⟩
  · intro x hx
    rw [r1 x (fun hxc => hc (hxc ▸ hx))]
    refine hpar x ?_
    rcases List.mem_append.1 hx with hx | hx
    · exact List.mem_append_left _ hx
    · exact List.mem_append_right _ (List.mem_cons_of_mem _ hx)
  · refine Seg.remove hnd hf (fun x hx => by rw [r3 x hx, hprev]) ?_
    rw [r7 q, hprev]
    simp
  · rw [List.reverse_append]
    rw [hrev] at hb
    have hnd2 : (l2.reverse ++ c :: l1.reverse).Nodup := by
      rw [← hrev]
      exact List.nodup_reverse.2 hnd
    refine Seg.remove hnd2 hb (fun x hx => by
      rw [r5 x hx, hnext, List.getLast?_reverse]) ?_
    rw [r8 q, hnext, List.getLast?_reverse]
    simp

theorem removeChild_other {m : cXMLElements} {p q c : ℕ} {l1 l2 lp : List ℕ}
    (h : ChildList m q (l1 ++ c :: l2)) (hpq : p ≠ q) (hp : ChildList m p lp) :
    ChildList (cXMLElement.removeChild m q c) p lp := by
  obtain ⟨hprev, hnext⟩ := h.links
  obtain ⟨_, hpar, _, _⟩ := h
  obtain ⟨pnd, ppar, pf, pb⟩ := hp
  obtain ⟨r1, _, r3, _, r5, _, r7, r8⟩ := removeChild_fields m q c
  have hout : ∀ x ∈ lp, x ∉ l1 ++ c :: l2 := by
    intro x hx hx2
    have a := ppar x hx
    rw [hpar x hx2] at a
    exact hpq (Option.some.inj a).symm
  have hxc : ∀ x ∈ lp, x ≠ c := fun x hx hxc =>
    hout x hx (by rw [hxc]; exact List.mem_append_right _ (List.mem_cons_self _ _))
  refine ⟨pnd, fun x hx => by rw [r1 x (hxc x hx)]; exact ppar x hx, ?_, ?_⟩
  · rw [r7 p, if_neg (fun hh => hpq hh.2)]
    refine Seg.congr lp _ _ (fun x hx => ?_) pf
    rw [r3 x (hxc x hx), if_neg]
    intro hh
    rw [hprev] at hh
    exact hout x hx (List.mem_append_left _ (List.mem_of_mem_getLast? hh))
  · rw [r8 p, if_neg (fun hh => hpq hh.2)]
    refine Seg.congr lp.reverse _ _ (fun x hx => ?_) pb
    have hx2 : x ∈ lp := List.mem_reverse.1 hx
    rw [r5 x (hxc x hx2), if_neg]
    intro hh
    rw [hnext] at hh
    exact hout x hx2 (List.mem_append_right _ (List.mem_cons_of_mem _ (List.mem_of_mem_head? hh)))

theorem attach_childList {m : cXMLElements} {p c : ℕ} {lp : List ℕ}
    (hp : ChildList m p lp) (hc : c ∉ lp) :
    ChildList (cXMLElement.setLast (cXMLElement.linkPrev (cXMLElement.setLinks m p c) p c) p c)
      p (lp ++ [c]) := by
  have hlast := hp.last_eq
  obtain ⟨pnd, ppar, pf, pb⟩ := hp
  obtain ⟨t1, t2, t3, t4, t5, t6, t7, _, t9⟩ := attach_fields m p c
  have hne : m.lastChild p ≠ some c := by
    rw [hlast]
    exact fun hh => hc (List.mem_of_mem_getLast? hh)
  refine ⟨?_, ?_, ?_, ?_⟩
  · rw [List.nodup_append]
    refine ⟨pnd, List.nodup_singleton c, ?_⟩
    intro x hx hx2
    rw [List.mem_singleton] at hx2
    exact hc (hx2 ▸ hx)
  · intro x hx
    rcases List.mem_append.1 hx with hx | hx
    · rw [t1 x (fun hxc => hc (hxc ▸ hx))]
      exact ppar x hx
    · rw [List.mem_singleton] at hx
      rw [hx]
      exact t2
  · refine Seg.extend pnd hc pf (fun x hx => by rw [t3 x hx, hlast]) (t4 hne) ?_
    rw [t7 p, hlast]
    simp
  · rw [List.reverse_append]
    refine ⟨t9, ?_⟩
    rw [t6]
    refine Seg.congr lp.reverse _ _ (fun x hx => ?_) pb
    exact t5 x (fun hxc => hc (hxc ▸ List.mem_reverse.1 hx))

theorem attach_other {m : cXMLElements} {p q c : ℕ} {lp lq : List ℕ}
    (hp : ChildList m p lp) (hqp : q ≠ p) (hq : ChildList m q lq) (hc : c ∉ lq) :
    ChildList (cXMLElement.setLast (cXMLElement.linkPrev (cXMLElement.setLinks m p c) p c) p c)
      q lq := by
  have hlast := hp.last_eq
  obtain ⟨_, ppar, _, _⟩ := hp
  obtain ⟨qnd, qpar, qf, qb⟩ := hq
  obtain ⟨t1, _, t3, _, t5, _, t7, t8, _⟩ := attach_fields m p c
  have hxc : ∀ x ∈ lq, x ≠ c := fun x hx hxc => hc (hxc ▸ hx)
  refine ⟨qnd, fun x hx => by rw [t1 x (hxc x hx)]; exact qpar x hx, ?_, ?_⟩
  · rw [t7 q, if_neg (fun hh => hqp hh.2)]
    refine Seg.congr lq _ _ (fun x hx => ?_) qf
    rw [t3 x (hxc x hx), if_neg]
    intro hh
    rw [hlast] at hh
    have a := ppar x (List.mem_of_mem_getLast? hh)
    rw [qpar x hx] at a
    exact hqp (Option.some.inj a)
  · rw [t8 q hqp]
    refine Seg.congr lq.reverse _ _ (fun x hx => ?_) qb
    exact t5 x (hxc x (List.mem_reverse.1 hx))

theorem erase_middle {l1 l2 : List ℕ} {c : ℕ} (hnd : (l1 ++ c :: l2).Nodup) :
    (l1 ++ c :: l2).erase c = l1 ++ l2 := by
  have hc1 : c ∉ l1 := fun hx => (List.nodup_append.1 hnd).2.2 hx (List.mem_cons_self _ _)
  rw [List.erase_append_right _ hc1, List.erase_cons_head]

/-- C29: the children of `p` are the list `lp` and the parent pointer of `c`
is consistent (when `c` has a parent `q`, it is one of the children of `q`).
After `p.appendChild(c)` the children of `p`, in the order of the
firstChild/nextSibling chain and in the reverse order of the
lastChild/prevSibling chain, are `lp` with `c` removed, followed by `c`;
`getChildren` returns this list; the parent of `c` is `p`; and if `c` had a
parent `q` other than `p`, the children of `q` are its previous list with `c`
removed, and `getChildren` returns it. -/
theorem C29_append_child (m : cXMLElements) (p c : ℕ) (lp : List ℕ)
    (hp : ChildList m p lp)
    (hc : ∀ q, m.parent c = some q → ∃ lq, ChildList m q lq ∧ c ∈ lq) :
    ChildList (cXMLElement.appendChild m p c) p (lp.erase c ++ [c]) ∧
    (∀ fuel, lp.length + 1 ≤ fuel →
      cXMLElement.getChildren fuel (cXMLElement.appendChild m p c) p
        = some (lp.erase c ++ [c])) ∧
    (∀ fuel, lp.length + 1 ≤ fuel →
      cXMLElement.getChildrenBackwards fuel (cXMLElement.appendChild m p c) p
        = some (lp.erase c ++ [c]).reverse) ∧
    (cXMLElement.appendChild m p c).parent c = some p ∧
    (∀ q lq, q ≠ p → m.parent c = some q → ChildList m q lq →
      ChildList (cXMLElement.appendChild m p c) q (lq.erase c) ∧
      ∀ fuel, lq.length ≤ fuel →
        cXMLElement.getChildren fuel (cXMLElement.appendChild m p c) q
          = some (lq.erase c)) := by
  have hmain : ChildList (cXMLElement.appendChild m p c) p (lp.erase c ++ [c]) ∧
      (∀ q lq, q ≠ p → m.parent c = some q → ChildList m q lq →
        ChildList (cXMLElement.appendChild m p c) q (lq.erase c)) := by
    unfold cXMLElement.appendChild cXMLElement.leaveParent
    rcases hpar : m.parent c with _ | q0
    · have hcl : c ∉ lp := by
        intro hx
        have := hp.2.1 c hx
        rw [hpar] at this
        cases this
      rw [List.erase_of_not_mem hcl]
      exact ⟨attach_childList hp hcl, fun q lq _ hq _ => by cases hq⟩
    · obtain ⟨lq0, hq0, hmem⟩ := hc q0 hpar
      obtain ⟨l1, l2, rfl⟩ := List.append_of_mem hmem
      have hnc : c ∉ l1 ++ l2 := by
        have := List.nodup_append.1 hq0.1
        intro hx
        rcases List.mem_append.1 hx with hx | hx
        · exact this.2.2 hx (List.mem_cons_self _ _)
        · exact (List.nodup_cons.1 this.2.1).1 hx
      by_cases hqp : q0 = p
      · subst hqp
        have hl : l1 ++ c :: l2 = lp := Seg.unique _ _ _ hq0.2.2.1 hp.2.2.1
        rw [← hl, erase_middle hq0.1]
        refine ⟨attach_childList (removeChild_childList hq0) hnc, ?_⟩
        intro q lq hq hq2 _
        exact absurd (Option.some.inj hq2).symm hq
      · have hcl : c ∉ lp := by
          intro hx
          have := hp.2.1 c hx
          rw [hpar] at this
          exact hqp (Option.some.inj this)
        rw [List.erase_of_not_mem hcl]
        refine ⟨attach_childList (removeChild_other hq0 (Ne.symm hqp) hp) hcl, ?_⟩
        intro q lq hq hq2 hlq
        have hqq : q0 = q := Option.some.inj hq2
        subst hqq
        have hl : l1 ++ c :: l2 = lq := Seg.unique _ _ _ hq0.2.2.1 hlq.2.2.1
        rw [← hl, erase_middle hq0.1]
        exact attach_other (removeChild_other hq0 (Ne.symm hqp) hp) hqp
          (removeChild_childList hq0) hnc
  have hlen : (lp.erase c ++ [c]).length ≤ lp.length + 1 := by
    rw [List.length_append, List.length_singleton]
    exact Nat.add_le_add_right (List.length_erase_le c lp) 1
  refine ⟨hmain.1, fun fuel hf => ?_, fun fuel hf => ?_, ?_, fun q lq hq hq2 hlq => ?_⟩
  · exact chain_of_seg _ _ fuel hmain.1.2.2.1 (le_trans hlen hf)
  · exact chain_of_seg _ _ fuel hmain.1.2.2.2 (by rw [List.length_reverse]; exact le_trans hlen hf)
  · exact hmain.1.2.1 c (by simp)
  · refine ⟨hmain.2 q lq hq hq2 hlq, fun fuel hf => ?_⟩
    exact chain_of_seg _ _ fuel (hmain.2 q lq hq hq2 hlq).2.2.1
      (le_trans (List.length_erase_le c lq) hf)

/-- Instance of C29: in the sample forest the element 4, the second of the
children 3, 4, 5 of the element 2, is appended to the element 1, whose only
child is 6: the children of 1 are then 6, 4 and those of 2 are 3, 5. -/
theorem C29_append_child_witness :
    ChildList sampleForest 1 [6] ∧ ChildList sampleForest 2 [3, 4, 5] ∧
    sampleForest.parent 4 = some 2 ∧
    cXMLElement.getChildren 2 (cXMLElement.appendChild sampleForest 1 4) 1 = some [6, 4] ∧
    cXMLElement.getChildrenBackwards 2 (cXMLElement.appendChild sampleForest 1 4) 1
      = some [4, 6] ∧
    (cXMLElement.appendChild sampleForest 1 4).parent 4 = some 1 ∧
    ChildList (cXMLElement.appendChild sampleForest 1 4) 2 [3, 5] :=
  ⟨by decide, by decide, by decide,
    (C29_append_child sampleForest 1 4 [6] (by decide) (fun q hq =>
      ⟨[3, 4, 5], by
        have h2 : sampleForest.parent 4 = some 2 := by decide
        rw [h2] at hq
        rw [← Option.some.inj hq]
        decide, by decide⟩)).2.1 2 (le_refl 2),
    (C29_append_child sampleForest 1 4 [6] (by decide) (fun q hq =>
      ⟨[3, 4, 5], by
        have h2 : sampleForest.parent 4 = some 2 := by decide
        rw [h2] at hq
        rw [← Option.some.inj hq]
        decide, by decide⟩)).2.2.1 2 (le_refl 2),
    (C29_append_child sampleForest 1 4 [6] (by decide) (fun q hq =>
      ⟨[3, 4, 5], by
        have h2 : sampleForest.parent 4 = some 2 := by decide
        rw [h2] at hq
        rw [← Option.some.inj hq]
        decide, by decide⟩)).2.2.2.1,
    ((C29_append_child sampleForest 1 4 [6] (by decide) (fun q hq =>
      ⟨[3, 4, 5], by
        have h2 : sampleForest.parent 4 = some 2 := by decide
        rw [h2] at hq
        rw [← Option.some.inj hq]
        decide, by decide⟩)).2.2.2.2 2 [3, 4, 5] (by decide) (by decide) (by decide)).1⟩

end Omnetpp
